import Mathlib

/-!
Verification of the OpenAPI 3.x → Swagger 2.0 conversion pipeline
(`src/openapi3ToSwagger2.js` and the worker module containing
`sanitizeSwagger2`, `dereferenceSwagger2`, `normalizeOpenapi31` and
`finalizeSwaggerSpec`).

Modeling conventions (shallow embedding of the JavaScript source):

* A parsed JSON/YAML document is the inductive `Json` below; objects are
  association lists in insertion order, mirroring JavaScript property
  order.  `undefined` is represented by absence (`Option.none` where a
  distinction is needed); assigning `undefined` to a property is modeled
  as deleting the key, matching the JSON-serialized view of the result.
* JavaScript exceptions (TypeError on property access through
  `null`/`undefined` or assignment to a primitive in strict mode, and the
  explicit `throw` for external references) are modeled with `Except JsErr`.
* Named properties assigned onto arrays are invisible to
  `JSON.stringify`; the embedding drops them, matching the serialized view.
* `deepClone`/`structuredClone` is the identity on values.
* Functions whose body is irrelevant to a theorem but is invoked by the
  embedded code (the platform URL parser, the 3.1 schema walker, the
  sanitizer's traversal body) are taken as explicit parameters, so the
  theorems quantify over every possible behaviour of those parts.
* The identity-guarded `allOf` flattener is embedded over an explicit
  heap (arena) of objects, since its cycle guard keys on JavaScript
  object identity; see the `HVal`/`Heap` section.
-/

namespace OasPipeline

/-- A JSON-like JavaScript value: the parsed form of a JSON/YAML document.
Objects are association lists in property-insertion order. -/
inductive Json where
  | null : Json
  | bool (b : Bool) : Json
  | num (n : Int) : Json
  | str (s : String) : Json
  | arr (elems : List Json) : Json
  | obj (entries : List (String × Json)) : Json
deriving Repr, Inhabited

mutual

/-- Boolean equality on `Json`. -/
def beqJson : Json → Json → Bool
  | .null, .null => true
  | .bool a, .bool b => a == b
  | .num a, .num b => a == b
  | .str a, .str b => a == b
  | .arr a, .arr b => beqJsonList a b
  | .obj a, .obj b => beqJsonEntries a b
  | _, _ => false

/-- Boolean equality on lists of `Json`. -/
def beqJsonList : List Json → List Json → Bool
  | [], [] => true
  | a :: as, b :: bs => beqJson a b && beqJsonList as bs
  | _, _ => false

/-- Boolean equality on `Json` object entry lists. -/
def beqJsonEntries : List (String × Json) → List (String × Json) → Bool
  | [], [] => true
  | (k, v) :: as, (k2, v2) :: bs => k == k2 && beqJson v v2 && beqJsonEntries as bs
  | _, _ => false

end

mutual

/-- Reflexivity of `beqJson`. -/
def beqJson_refl : ∀ a, beqJson a a = true
  | .null => rfl
  | .bool a => by simp [beqJson]
  | .num a => by simp [beqJson]
  | .str a => by simp [beqJson]
  | .arr a => by simp [beqJson, beqJsonList_refl a]
  | .obj a => by simp [beqJson, beqJsonEntries_refl a]

/-- Reflexivity of `beqJsonList`. -/
def beqJsonList_refl : ∀ a, beqJsonList a a = true
  | [] => rfl
  | a :: as => by simp [beqJsonList, beqJson_refl a, beqJsonList_refl as]

/-- Reflexivity of `beqJsonEntries`. -/
def beqJsonEntries_refl : ∀ a, beqJsonEntries a a = true
  | [] => rfl
  | (k, v) :: as => by simp [beqJsonEntries, beqJson_refl v, beqJsonEntries_refl as]

end

mutual

/-- Soundness of `beqJson`. -/
def eq_of_beqJson : ∀ a b, beqJson a b = true → a = b
  | .null, .null, _ => rfl
  | .bool a, .bool b, h => by simpa [beqJson] using h
  | .num a, .num b, h => by simpa [beqJson] using h
  | .str a, .str b, h => by simpa [beqJson] using h
  | .arr a, .arr b, h => by
      have := eq_of_beqJsonList a b (by simpa [beqJson] using h)
      simp [this]
  | .obj a, .obj b, h => by
      have := eq_of_beqJsonEntries a b (by simpa [beqJson] using h)
      simp [this]

/-- Soundness of `beqJsonList`. -/
def eq_of_beqJsonList : ∀ a b, beqJsonList a b = true → a = b
  | [], [], _ => rfl
  | a :: as, b :: bs, h => by
      have h1 : beqJson a b = true := by
        have := h; simp [beqJsonList] at this; exact this.1
      have h2 : beqJsonList as bs = true := by
        have := h; simp [beqJsonList] at this; exact this.2
      simp [eq_of_beqJson a b h1, eq_of_beqJsonList as bs h2]

/-- Soundness of `beqJsonEntries`. -/
def eq_of_beqJsonEntries : ∀ a b, beqJsonEntries a b = true → a = b
  | [], [], _ => rfl
  | (k, v) :: as, (k2, v2) :: bs, h => by
      have h3 := h
      simp only [beqJsonEntries, Bool.and_eq_true, beq_iff_eq] at h3
      obtain ⟨⟨hk, h1⟩, h2⟩ := h3
      simp [hk, eq_of_beqJson v v2 h1, eq_of_beqJsonEntries as bs h2]

end

instance : DecidableEq Json := fun a b =>
  if h : beqJson a b = true then .isTrue (eq_of_beqJson a b h)
  else .isFalse (fun he => h (he ▸ beqJson_refl a))

/-- JavaScript errors that the embedded code can raise. -/
inductive JsErr where
  /-- TypeError: property access through null/undefined, calling a missing
  method, or assigning to a property of a primitive in strict mode. -/
  | typeError : JsErr
  /-- The explicit `throw new Error("External $ref values are not supported
  after bundling.")` in `resolveReference`. -/
  | external : JsErr
  /-- Marker for insufficient recursion fuel in a fuel-indexed embedding;
  not a JavaScript behaviour, and unreachable at the fuel each caller in
  this file supplies for finite tree inputs. -/
  | fuelOut : JsErr
deriving DecidableEq, Repr

/-- Decidable equality for `Except`, needed to evaluate embedded fallible
functions at concrete inputs. -/
instance {e a : Type} [DecidableEq e] [DecidableEq a] : DecidableEq (Except e a) := fun x y =>
  match x, y with
  | .error u, .error v =>
    if h : u = v then isTrue (congrArg Except.error h)
    else isFalse (fun hh => h (Except.error.inj hh))
  | .ok u, .ok v =>
    if h : u = v then isTrue (congrArg Except.ok h)
    else isFalse (fun hh => h (Except.ok.inj hh))
  | .error _, .ok _ => isFalse (fun hh => Except.noConfusion hh)
  | .ok _, .error _ => isFalse (fun hh => Except.noConfusion hh)

/-- JavaScript truthiness of a value. -/
def truthy : Json → Bool
  | .null => false
  | .bool b => b
  | .num n => n != 0
  | .str s => s != ""
  | .arr _ => true
  | .obj _ => true

/-- The JavaScript test `typeof v === "object" && v !== null`:
true exactly for arrays and plain objects in this model. -/
def isObjJS : Json → Bool
  | .arr _ => true
  | .obj _ => true
  | _ => false

/-- Lookup of a key in an object entry list (first match). -/
def getF : List (String × Json) → String → Option Json
  | [], _ => none
  | (k, v) :: rest, key => if k = key then some v else getF rest key

/-- JavaScript property assignment on an entry list: replaces the value in
place if the key exists, appends otherwise (property-insertion order). -/
def setF : List (String × Json) → String → Json → List (String × Json)
  | [], key, v => [(key, v)]
  | (k, w) :: rest, key, v =>
    if k = key then (k, v) :: rest else (k, w) :: setF rest key v

/-- JavaScript `delete` on an entry list. -/
def delF : List (String × Json) → String → List (String × Json)
  | [], _ => []
  | (k, w) :: rest, key =>
    if k = key then delF rest key else (k, w) :: delF rest key

/-! String operations are implemented over character lists by structural
recursion, so that every definition evaluates inside the kernel; each
mirrors the JavaScript string primitive named in its comment. -/

/-- Decimal digits to a number. -/
def digitsToNat (cs : List Char) : Nat :=
  cs.foldl (fun acc c => acc * 10 + (c.toNat - 48)) 0

/-- Is `s` a canonical array index ("0", "17", ...)? -/
def canonIndex (s : String) : Option Nat :=
  match s.data with
  | [] => none
  | c :: cs =>
    if (c :: cs).all Char.isDigit then
      if c = '0' ∧ cs ≠ [] then none else some (digitsToNat (c :: cs))
    else none

/-- `s.startsWith(p)`. -/
def strStartsWith (s p : String) : Bool := p.data.isPrefixOf s.data

/-- The substring from character index `n` on. -/
def strDrop (s : String) (n : Nat) : String := String.mk (s.data.drop n)

/-- ASCII lower-casing. -/
def strToLower (s : String) : String := String.mk (s.data.map Char.toLower)

/-- Does the string contain the character? -/
def strContainsChar (s : String) (c : Char) : Bool := s.data.any (· = c)

/-- The scanner of `strSplitOn` (separator `d :: ds`), structurally
recursive on a fuel that the caller sets to the input length (each step
consumes at least one character, so the zero-fuel default is never
reached). -/
def splitOnAux (d : Char) (ds : List Char) : Nat → List Char → List Char → List (List Char)
  | _, [], acc => [acc.reverse]
  | 0, l, acc => [acc.reverse ++ l]
  | fuel + 1, c :: cs, acc =>
    if (d :: ds).isPrefixOf (c :: cs) then
      acc.reverse :: splitOnAux d ds fuel ((c :: cs).drop (ds.length + 1)) []
    else splitOnAux d ds fuel cs (c :: acc)

/-- `s.split(sep)` for a nonempty separator (JavaScript semantics,
which Lean's `String.splitOn` shares). -/
def strSplitOn (s sep : String) : List String :=
  match sep.data with
  | [] => [s]
  | d :: ds => (splitOnAux d ds s.data.length s.data []).map String.mk

/-- The scanner of `strReplaceAll`, fuel-structural like `splitOnAux`. -/
def replaceAllAux (d : Char) (ds : List Char) (rep : List Char) : Nat → List Char → List Char
  | _, [] => []
  | 0, l => l
  | fuel + 1, c :: cs =>
    if (d :: ds).isPrefixOf (c :: cs) then
      rep ++ replaceAllAux d ds rep fuel ((c :: cs).drop (ds.length + 1))
    else c :: replaceAllAux d ds rep fuel cs

/-- `s.replace(/pat/g, rep)`: non-overlapping left-to-right replacement
of every occurrence. -/
def strReplaceAll (s pat rep : String) : String :=
  match pat.data with
  | [] => s
  | d :: ds => String.mk (replaceAllAux d ds rep.data s.data.length s.data)

/-- The scanner of `strReplaceFirst`. -/
def replaceFirstAux (d : Char) (ds : List Char) (rep : List Char) : List Char → List Char
  | [] => []
  | c :: cs =>
    if (d :: ds).isPrefixOf (c :: cs) then
      rep ++ ((c :: cs).drop (ds.length + 1))
    else c :: replaceFirstAux d ds rep cs

/-- `String.prototype.replace` with a string pattern: first occurrence
only. -/
def strReplaceFirst (s pat rep : String) : String :=
  match pat.data with
  | [] => s
  | d :: ds => String.mk (replaceFirstAux d ds rep.data s.data)

/-- Join with a separator. -/
def strIntercalate (sep : String) : List String → String
  | [] => ""
  | x :: xs => xs.foldl (fun acc y => acc ++ sep ++ y) x

/-- JavaScript property read `v[key]` for a non-null value; `none` models
`undefined`.  Arrays and strings expose `length` and canonical indices;
reads on numbers and booleans yield `undefined`. -/
def jsGet : Json → String → Option Json
  | .obj es, k => getF es k
  | .arr l, k =>
    if k = "length" then some (.num l.length)
    else match canonIndex k with
      | some i => l.get? i
      | none => none
  | .str s, k =>
    if k = "length" then some (.num s.length)
    else match canonIndex k with
      | some i => (s.data.get? i).map (fun c => .str (String.mk [c]))
      | none => none
  | .num _, _ => none
  | .bool _, _ => none
  | .null, _ => none

/-- JavaScript property read that can throw: `null.key` (and, in this
model, any read through `Json.null`) is a TypeError. -/
def jsRead (v : Json) (key : String) : Except JsErr (Option Json) :=
  match v with
  | .null => .error .typeError
  | j => .ok (jsGet j key)

/-- JavaScript property assignment `v[key] := w` in strict mode: objects
are updated, named properties on arrays are dropped (invisible to the
JSON view), primitives raise a TypeError. -/
def jsSet : Json → String → Json → Except JsErr Json
  | .obj es, k, v => .ok (.obj (setF es k v))
  | .arr l, _, _ => .ok (.arr l)
  | _, _, _ => .error .typeError

/-- JavaScript `delete v[key]`: removes the key from objects, is a
visible no-op elsewhere. -/
def jsDel : Json → String → Json
  | .obj es, k => .obj (delF es k)
  | v, _ => v

/-- The truthy value of a field, `false`-like when absent. -/
def fieldTruthy (v : Json) (key : String) : Bool :=
  match jsGet v key with
  | some w => truthy w
  | none => false

/-- JSON-Pointer unescaping of one segment: `~1` → `/` then `~0` → `~`,
in that order, everywhere in the segment. -/
def ptrUnescape (s : String) : String :=
  strReplaceAll (strReplaceAll s "~1" "/") "~0" "~"

/-- The walk of `resolveReference`: `keys.forEach((key) => cur = cur[key])`.
Reading a property of `undefined` or `null` raises a TypeError. -/
def refWalk (keys : List String) (cur : Option Json) : Except JsErr (Option Json) :=
  match keys with
  | [] => .ok cur
  | key :: rest =>
    match cur with
    | none => .error .typeError
    | some .null => .error .typeError
    | some j => refWalk rest (jsGet j key)

/-- `Converter.resolveReference(base, obj, shouldClone)` from
`openapi3ToSwagger2.js`: returns `obj` unchanged when it is falsy or has
no truthy `$ref`; walks a local (`#`-prefixed) pointer, where missing
intermediate lookups surface as TypeErrors at the next access; throws the
external-reference error for any other pointer.  Cloning is the identity
in this value model, so `shouldClone` does not affect the result. -/
def resolveReference (base : Json) (objNode : Option Json) (_shouldClone : Bool) :
    Except JsErr (Option Json) :=
  match objNode with
  | none => .ok none
  | some o =>
    if !truthy o then .ok (some o)
    else
      match jsGet o "$ref" with
      | none => .ok (some o)
      | some refv =>
        if !truthy refv then .ok (some o)
        else
          match refv with
          | .str ref =>
            if strStartsWith ref "#" then
              let keys := ((strSplitOn ref "/").map ptrUnescape).drop 1
              refWalk keys (some base)
            else .error .external
          | _ => .error .typeError

/-- The walk of the sanitizer-side `resolveRef`: before each access the
current value must be a truthy object, else the result is null. -/
def resolveRefParts : List String → Option Json → Option Json
  | [], cur => cur
  | _ :: _, none => none
  | p :: rest, some j =>
    if truthy j && isObjJS j then resolveRefParts rest (jsGet j p) else none

/-- `resolveRef(root, ref)` from the worker module: lookup only, never
raises; returns null for a non-object root, a non-string or empty ref, a
pointer not starting with `#/`, any missing or non-object intermediate,
and for a falsy final value. -/
def resolveRef (root : Json) (ref : Json) : Json :=
  if !(truthy root && isObjJS root) then .null
  else
    match ref with
    | .str s =>
      if s = "" then .null
      else if !(strStartsWith s "#/") then .null
      else
        let parts := (strSplitOn (strDrop s 2) "/").map ptrUnescape
        match resolveRefParts parts (some root) with
        | some v => if truthy v then v else .null
        | none => .null
    | _ => .null

/-- `sanitizeSwagger2(spec, options)` entry gate from the worker module.
The two traversal passes over the document are abstracted as the `body`
parameter (they are irrelevant to the gate); the gate itself is embedded
verbatim: `strict` defaults to true, and a falsy `strict`, a falsy spec
or a non-object spec short-circuits to the argument itself. -/
def sanitizeSwagger2 (body : Json → Json → Json) (spec : Json) (options : Json) : Json :=
  let strict :=
    if truthy options then
      match jsGet options "strict" with
      | some v => truthy v
      | none => true
    else true
  if strict && truthy spec && isObjJS spec then body spec options else spec

/-- Lines `output.info.title = output.info.title || "API"` and
`output.info.version = output.info.version || "0.0.0"` of
`finalizeSwaggerSpec`, applied to the current `output.info` value.  The
worker file is an ES module and hence strict-mode code: when that value
is a truthy primitive, the property write throws a TypeError. -/
def finalizeInfoFix (info : Json) : Except JsErr Json := do
  let titleOpt ← jsRead info "title"
  let newTitle :=
    match titleOpt with
    | some v => if truthy v then v else Json.str "API"
    | none => Json.str "API"
  let info2 ← jsSet info "title" newTitle
  let versionOpt ← jsRead info2 "version"
  let newVersion :=
    match versionOpt with
    | some v => if truthy v then v else Json.str "0.0.0"
    | none => Json.str "0.0.0"
  jsSet info2 "version" newVersion

/-- `finalizeSwaggerSpec(spec)` from the worker module: coerces non-object
input to a fresh object, stamps `swagger: "2.0"`, defaults `info` (and its
`title`/`version`, via `finalizeInfoFix`) and `paths`.  Reading a named
property back from an array yields `undefined` in this JSON-view model,
and a named property written to an array is dropped from the view. -/
def finalizeSwaggerSpec (spec : Json) : Except JsErr Json := do
  let output := if truthy spec && isObjJS spec then spec else Json.obj []
  let output ← jsSet output "swagger" (Json.str "2.0")
  let infoRead := (jsGet output "info").getD Json.null
  let info1 :=
    if truthy infoRead then infoRead
    else Json.obj [("title", Json.str "API"), ("version", Json.str "0.0.0")]
  let output ← jsSet output "info" info1
  let infoCur := (jsGet output "info").getD info1
  let info3 ← finalizeInfoFix infoCur
  let output ← jsSet output "info" info3
  let pathsOpt ← jsRead output "paths"
  let newPaths :=
    match pathsOpt with
    | some v => if truthy v then v else Json.obj []
    | none => Json.obj []
  jsSet output "paths" newPaths

mutual

/-- `String(v)` for the values that can appear in an `openapi` field.
Array elements that are null render as the empty string, as in
`Array.prototype.join`. -/
def jsToString : Json → String
  | .str s => s
  | .num n => toString n
  | .bool b => if b then "true" else "false"
  | .null => "null"
  | .arr l => strIntercalate "," (jsToStringElems l)
  | .obj _ => "[object Object]"

/-- Stringification of array elements for `jsToString`. -/
def jsToStringElems : List Json → List String
  | [] => []
  | .null :: rest => "" :: jsToStringElems rest
  | v :: rest => jsToString v :: jsToStringElems rest

end

/-- The version string computed by `normalizeOpenapi31`:
`String(spec.openapi || "")` (undefined and falsy both collapse to ""). -/
def openapiVersionOf (spec : Json) : String :=
  match jsGet spec "openapi" with
  | some v => if truthy v then jsToString v else ""
  | none => ""

/-- `normalizeOpenapi31(spec, warnings, collectWarnings, …)` from the
worker module.  The whole-document schema walk performed in the 3.1 case
(`walkSchemas` with `normalizeSchemaNode`) is abstracted as the `walk`
parameter, which receives the document and `shouldWarn` and returns the
rewritten document plus its warnings; the version gate, the `openapi`
rewrite and the unconditional `jsonSchemaDialect` removal are embedded
verbatim.  `spec.openapi` on a null document raises, as in the source. -/
def normalizeOpenapi31 (walk : Json → Bool → Json × List String)
    (spec : Json) (collectWarnings : Bool) : Except JsErr (Json × List String) := do
  let _ ← jsRead spec "openapi"
  let openapiVersion := openapiVersionOf spec
  let shouldWarn := collectWarnings
  let is31 := strStartsWith openapiVersion "3.1"
  let st1 :=
    if is31 then
      (match spec with
        | .obj es => Json.obj (setF es "openapi" (Json.str "3.0.3"))
        | v => v,
       if shouldWarn then ["Downgraded openapi version 3.1.x to 3.0.3 for conversion."] else [])
    else (spec, ([] : List String))
  let spec1 := st1.1
  let st2 :=
    if fieldTruthy spec1 "jsonSchemaDialect" then
      (jsDel spec1 "jsonSchemaDialect",
       if shouldWarn then ["Removed jsonSchemaDialect (not supported in OpenAPI 3.0)."] else [])
    else (spec1, ([] : List String))
  let spec2 := st2.1
  if !is31 then
    return (spec2, st1.2 ++ st2.2)
  else
    let r := walk spec2 shouldWarn
    return (r.1, st1.2 ++ st2.2 ++ r.2)

/-! ### Structural Converter (`openapi3ToSwagger2.js`) -/

/-- `HTTP_METHODS` from the converter. -/
def HTTP_METHODS : List String :=
  ["get", "put", "post", "delete", "options", "head", "patch", "trace"]

/-- `SCHEMA_PROPERTIES` from the converter. -/
def SCHEMA_PROPERTIES : List String :=
  ["format", "minimum", "maximum", "exclusiveMinimum", "exclusiveMaximum",
   "minLength", "maxLength", "multipleOf", "minItems", "maxItems",
   "uniqueItems", "minProperties", "maxProperties", "additionalProperties",
   "pattern", "enum", "default"]

/-- `ARRAY_PROPERTIES` from the converter. -/
def ARRAY_PROPERTIES : List String := ["type", "items"]

/-- The values of `SUPPORTED_MIME_TYPES`, in declaration order. -/
def supportedMimeValues : List String :=
  ["application/x-www-form-urlencoded", "multipart/form-data"]

/-- A character allowed in a media-type segment by the pattern fragment
matching any character other than a semicolon, slash, space or tab. -/
def allowedMimeChar (c : Char) : Bool :=
  c ≠ ';' && c ≠ '/' && c ≠ ' ' && c ≠ '\t'

/-- The anchored tail of `APPLICATION_JSON_REGEX`: optional spaces/tabs
followed by an optional `;…` parameter section, then end of input. -/
def mimeRest (cs : List Char) : Bool :=
  match cs.dropWhile (fun c => c = ' ' || c = '\t') with
  | [] => true
  | c :: _ => c = ';'

/-- The second alternative of `APPLICATION_JSON_REGEX`: `X/Y+json` where
`X` and the part of `Y` before the literal `+json` are nonempty runs of
characters other than `;`, `/`, space and tab. -/
def jsonSuffixAlt (cs : List Char) : Bool :=
  let seg1 := cs.takeWhile allowedMimeChar
  let rest1 := cs.drop seg1.length
  match seg1, rest1 with
  | [], _ => false
  | _ :: _, '/' :: rest2 =>
    let p := rest2.takeWhile allowedMimeChar
    let restEnd := rest2.drop p.length
    decide (6 ≤ p.length) && decide (p.drop (p.length - 5) = "+json".data)
      && mimeRest restEnd
  | _, _ => false

/-- `isJsonMimeType(type)`: case-insensitive match of
`APPLICATION_JSON_REGEX` against the whole string. -/
def isJsonMimeType (s : String) : Bool :=
  let t := strToLower s
  (strStartsWith t "application/json" && mimeRest (t.data.drop 16)) ||
    jsonSuffixAlt t.data

/-- `Object.keys(v)`: own enumerable keys in insertion order; indices for
arrays and strings; empty for primitives (callers never pass null). -/
def jsKeys : Json → List String
  | .obj es => es.map (·.1)
  | .arr l => (List.range l.length).map toString
  | .str s => (List.range s.data.length).map toString
  | _ => []

/-- A `for (const k in v)` iteration: pairs of own enumerable key and
value, in insertion order. -/
def forInEntries : Json → List (String × Json)
  | .obj es => es
  | .arr l => (l.enum.map fun p => (toString p.1, p.2))
  | .str s => (s.data.enum.map fun p => (toString p.1, Json.str (String.mk [p.2])))
  | _ => []

/-- `getSupportedMimeTypes(content)` from the converter. -/
def getSupportedMimeTypes (content : Json) : List String :=
  (jsKeys content).filter fun k => supportedMimeValues.contains k || isJsonMimeType k

/-- `hasOwnProperty.call(v, key)` for the values this pipeline passes. -/
def hasOwnF (v : Json) (key : String) : Bool :=
  match v with
  | .obj es => (getF es key).isSome
  | .arr l => key = "length" || (match canonIndex key with
      | some i => i < l.length
      | none => false)
  | _ => false

/-- JavaScript property assignment through a string index, as used for
`paths[path] = …` style writes: objects update the key, arrays update a
canonical in-range index, everything else raises in strict mode. -/
def jsIndexSet : Json → String → Json → Except JsErr Json
  | .obj es, k, v => .ok (.obj (setF es k v))
  | .arr l, k, v =>
    (match canonIndex k with
     | some i => if i < l.length then .ok (.arr (l.set i v)) else .ok (.arr (l ++ [v]))
     | none => .ok (.arr l))
  | _, _, _ => .error .typeError

/-- Assignment of a possibly-undefined value: `undefined` deletes the key
in the JSON view of the result. -/
def jsSetOpt (v : Json) (key : String) (w : Option Json) : Except JsErr Json :=
  match w with
  | some x => jsSet v key x
  | none =>
    match v with
    | .obj es => .ok (.obj (delF es key))
    | .arr l => .ok (.arr l)
    | _ => .error .typeError

/-- The field-level form of `jsSetOpt` on an object: write the value, or
delete the key when the value is the absent `undefined`. -/
def setOptF (es : List (String × Json)) (k : String) : Option Json → List (String × Json)
  | some v => setF es k v
  | none => delF es k

/-- Truthiness of an optional (possibly-`undefined`) value. -/
def optTruthy : Option Json → Bool
  | some v => truthy v
  | none => false

/-- `copySchemaProperties(obj, props)` from the converter. -/
def copySchemaProperties (spec param : Json) (props : List String) : Except JsErr Json := do
  let schemaOpt ← resolveReference spec (jsGet param "schema") true
  match schemaOpt with
  | none => return param
  | some schema =>
    if !truthy schema then return param
    else
      props.foldlM (fun p prop => do
        match jsGet schema prop with
        | none => return p
        | some v =>
          match prop, v with
          | "additionalProperties", .bool _ => return p
          | _, _ => jsSet p prop v) param

/-- `copySchemaXProperties(obj)` from the converter. -/
def copySchemaXProperties (spec param : Json) : Except JsErr Json := do
  let schemaOpt ← resolveReference spec (jsGet param "schema") true
  match schemaOpt with
  | none => return param
  | some schema =>
    if !truthy schema then return param
    else
      (forInEntries schema).foldlM (fun p kv => do
        if strStartsWith kv.1 "x-" && !(hasOwnF p kv.1) then jsSet p kv.1 kv.2
        else return p) param

/-- The local `const style = param.style || (param.in === "query" ||
param.in === "cookie" ? "form" : "simple")` of `convertParameters`. -/
def effectiveStyleJS (param : Json) : Json :=
  let defStyle : Json :=
    if jsGet param "in" = some (Json.str "query") || jsGet param "in" = some (Json.str "cookie")
    then Json.str "form" else Json.str "simple"
  match jsGet param "style" with
  | some v => if truthy v then v else defStyle
  | none => defStyle

/-- The array-parameter `style`/`explode` → `collectionFormat` mapping of
`convertParameters`, applied when `param.type === "array"`.  An assignment
of `undefined` removes the key in the JSON view. -/
def applyCollectionFormat (param : Json) : Except JsErr Json := do
  if jsGet param "type" = some (Json.str "array") then
    let style : Json := effectiveStyleJS param
    let explodeV := jsGet param "explode"
    if style = Json.str "matrix" then
      if optTruthy explodeV then jsSetOpt param "collectionFormat" none
      else jsSet param "collectionFormat" (Json.str "csv")
    else if style = Json.str "label" then
      jsSetOpt param "collectionFormat" none
    else if style = Json.str "simple" then
      jsSet param "collectionFormat" (Json.str "csv")
    else if style = Json.str "spaceDelimited" then
      jsSet param "collectionFormat" (Json.str "ssv")
    else if style = Json.str "pipeDelimited" then
      jsSet param "collectionFormat" (Json.str "pipes")
    else if style = Json.str "deepOpbject" then
      jsSet param "collectionFormat" (Json.str "multi")
    else if style = Json.str "form" then
      if explodeV = some (Json.bool false) then jsSet param "collectionFormat" (Json.str "csv")
      else jsSet param "collectionFormat" (Json.str "multi")
    else
      return param
  else
    return param

/-- The body of the `forEach` in `convertParameters` up to and including
the `collectionFormat` table: resolve, copy schema keywords onto non-body
parameters, backfill the description, drop `schema`/`allowReserved`,
rename `example`, and apply the table. -/
def convertParamCore (spec param0 : Json) : Except JsErr Json := do
  let resolved ← resolveReference spec (some param0) false
  match resolved with
  | none => .error .typeError
  | some param => do
    let inVal ← jsRead param "in"
    let param ←
      if inVal ≠ some (Json.str "body") then do
        let p ← copySchemaProperties spec param SCHEMA_PROPERTIES
        let p ← copySchemaProperties spec p ARRAY_PROPERTIES
        let p ← copySchemaXProperties spec p
        let p ←
          if !(fieldTruthy p "description") then do
            let schemaOpt ← resolveReference spec (jsGet p "schema") false
            match schemaOpt with
            | some schema =>
              if truthy schema && fieldTruthy schema "description" then
                jsSet p "description" ((jsGet schema "description").getD Json.null)
              else pure p
            | none => pure p
          else pure p
        let p := jsDel p "schema"
        let p := jsDel p "allowReserved"
        let p ←
          match jsGet p "example" with
          | some ex => jsSet p "x-example" ex
          | none => pure p
        pure (jsDel p "example")
      else pure param
    applyCollectionFormat param

/-- The body of the `forEach` in `convertParameters`, covering one
parameter: the core conversion followed by the unconditional deletion of
`style` and `explode`. -/
def convertParam (spec param0 : Json) : Except JsErr Json := do
  let param ← convertParamCore spec param0
  let param := jsDel param "style"
  return jsDel param "explode"

/-- `convertParameters(obj)` from the converter: returns early when
`parameters` is absent, defaults a falsy value to `[]`, and maps the
per-parameter conversion over the array (a truthy non-array raises, as
`forEach` would). -/
def convertParameters (spec o : Json) : Except JsErr Json := do
  let cur ← jsRead o "parameters"
  match cur with
  | none => return o
  | some ps =>
    let ps := if truthy ps then ps else Json.arr []
    match ps with
    | .arr l => do
      let l2 ← l.mapM (convertParam spec)
      jsSet o "parameters" (.arr l2)
    | _ => .error .typeError

/-- Does `s.indexOf("/") > 0` hold? -/
def slashIdxPos (s : String) : Bool :=
  match s.data.findIdx? (· = '/') with
  | some i => decide (0 < i)
  | none => false

/-- `fixRef(ref)` from the converter: rewrite the first occurrence of the
schema-component prefix, then of the general component prefix. -/
def fixRef (s : String) : String :=
  strReplaceFirst (strReplaceFirst s "#/components/schemas/" "#/definitions/")
    "#/components/" "#/x-components/"

mutual

/-- `fixRefs(obj)` from the converter: rewrite every string `$ref` in the
tree via `fixRef`; a non-string `$ref` raises (`.replace` is not a
function on it). -/
def fixRefs : Json → Except JsErr Json
  | .arr l => do
    let l2 ← fixRefsList l
    pure (.arr l2)
  | .obj es => do
    let es2 ← fixRefsEntries es
    pure (.obj es2)
  | x => pure x

/-- `fixRefs` over array elements. -/
def fixRefsList : List Json → Except JsErr (List Json)
  | [] => pure []
  | x :: xs => do
    let x2 ← fixRefs x
    let xs2 ← fixRefsList xs
    pure (x2 :: xs2)

/-- `fixRefs` over object entries. -/
def fixRefsEntries : List (String × Json) → Except JsErr (List (String × Json))
  | [] => pure []
  | (k, v) :: rest =>
    if k = "$ref" then
      match v with
      | .str s => do
        let rest2 ← fixRefsEntries rest
        pure ((k, Json.str (fixRef s)) :: rest2)
      | _ => .error .typeError
    else do
      let v2 ← fixRefs v
      let rest2 ← fixRefsEntries rest
      pure ((k, v2) :: rest2)

end

mutual

/-- Size of a `Json` tree, used only to pick a generous recursion fuel
for `convertSchema` (whose JavaScript original recurses structurally over
the finite document tree). -/
def jsonSize : Json → Nat
  | .arr l => 1 + jsonSizeList l
  | .obj es => 1 + jsonSizeEntries es
  | _ => 1

/-- Size of a list of `Json` trees. -/
def jsonSizeList : List Json → Nat
  | [] => 0
  | x :: xs => 1 + jsonSize x + jsonSizeList xs

/-- Size of an object entry list. -/
def jsonSizeEntries : List (String × Json) → Nat
  | [] => 0
  | (_, v) :: rest => 1 + jsonSize v + jsonSizeEntries rest

end

/-- Does the string match `/^[a-zA-Z0-9._-]+$/` (the bare-component-name
test of `convertDiscriminatorMapping`)? -/
def isBareComponentName (s : String) : Bool :=
  s ≠ "" && s.data.all fun c => c.isAlphanum || c = '.' || c = '_' || c = '-'

/-- The pointer segments of a `#…` reference, as split by
`resolveReference`. -/
def ptrKeysOf (ref : String) : List String :=
  ((strSplitOn ref "/").map ptrUnescape).drop 1

/-- Write a value back at the position reached by the `resolveReference`
walk along `keys` (objects and arrays only; primitives along the path
cannot hold the written value). -/
def setAtKeys : Json → List String → Json → Json
  | _, [], v => v
  | root, k :: rest, v =>
    match root with
    | .obj es =>
      (match getF es k with
       | some w => .obj (setF es k (setAtKeys w rest v))
       | none => .obj es)
    | .arr l =>
      (match canonIndex k with
       | some i =>
         (match l.get? i with
          | some w => .arr (l.set i (setAtKeys w rest v))
          | none => .arr l)
       | none => .arr l)
    | x => x

/-- One guarded `resolveReference` attempt of
`convertDiscriminatorMapping`, with the surrounding try/catch: `none` when the resolver threw
(external pointer or TypeError during the walk) or the walk produced
`undefined`; for a falsy `$ref` the resolver returns its temporary
argument, reported with no write-back path. -/
def discriminatorResolve (spec : Json) (refStr : String) :
    Option (Option (List String) × Json) :=
  if refStr = "" then some (none, Json.obj [("$ref", Json.str refStr)])
  else if strStartsWith refStr "#" then
    let keys := ptrKeysOf refStr
    match refWalk keys (some spec) with
    | .ok (some v) => some (some keys, v)
    | .ok none => none
    | .error _ => none
  else none

/-- `convertDiscriminatorMapping(mapping)` from the converter: for each
string-valued mapping entry, resolve it first as a bare component name
under `#/components/schemas/`, else as a literal reference; on success
tag the resolved schema with `x-discriminator-value` and
`x-ms-discriminator-value`; unresolved or non-string entries are logged
and skipped. -/
def convertDiscriminatorMapping (spec m : Json) : Except JsErr Json :=
  (forInEntries m).foldlM (fun spec kv => do
    let payload := kv.1
    match kv.2 with
    | .str name => do
      let first :=
        if isBareComponentName name then
          match discriminatorResolve spec ("#/components/schemas/" ++ name) with
          | some (p, v) => if truthy v then some (p, v) else none
          | none => none
        else none
      let chosen :=
        match first with
        | some r => some r
        | none =>
          match discriminatorResolve spec name with
          | some (p, v) => if truthy v then some (p, v) else none
          | none => none
      match chosen with
      | some (pathOpt, v) =>
        (match v with
         | .obj ves =>
           let tagged := Json.obj (setF (setF ves "x-discriminator-value" (Json.str payload))
             "x-ms-discriminator-value" (Json.str payload))
           (match pathOpt with
            | some keys => pure (setAtKeys spec keys tagged)
            | none => pure spec)
         | .arr _ => pure spec
         | _ => .error .typeError)
      | none => pure spec
    | _ => pure spec) spec

/-- `Converter.convertSchema(def, operationDirection)`, embedded with a
recursion fuel (the JavaScript original recurses structurally over the
finite document tree; every pipeline call supplies `jsonSize def + 1`,
which bounds the nesting depth).  The document is threaded because
discriminator-mapping resolution tags schemas inside it.  Conversions
reached by `for…in` over a string (character views) are identity and are
skipped. -/
def convertSchemaFuel : Nat → Json → Json → Option String → Except JsErr (Json × Json)
  | 0, _, _, _ => .error .fuelOut
  | n + 1, spec, d, dir => do
    let oneOfV ← jsRead d "oneOf"
    let d :=
      if optTruthy oneOfV then
        let d2 := jsDel d "oneOf"
        if fieldTruthy d2 "discriminator" then jsDel d2 "discriminator" else d2
      else d
    let d :=
      if optTruthy (jsGet d "anyOf") then
        let d2 := jsDel d "anyOf"
        if fieldTruthy d2 "discriminator" then jsDel d2 "discriminator" else d2
      else d
    let st ←
      (match jsGet d "allOf" with
       | some a =>
         if truthy a then
           match a with
           | .arr l => do
             let st2 ← l.foldlM (fun (st2 : Json × List Json) x => do
               let (sp, acc) := st2
               let (sp, x2) ← convertSchemaFuel n sp x dir
               pure (sp, acc ++ [x2])) (spec, [])
             pure (st2.1, (match d with
               | .obj es => Json.obj (setF es "allOf" (Json.arr st2.2))
               | x => x))
           | .obj aes => do
             let st2 ← aes.foldlM (fun (st2 : Json × List (String × Json)) kv => do
               let (sp, acc) := st2
               let (sp, v2) ← convertSchemaFuel n sp kv.2 dir
               pure (sp, acc ++ [(kv.1, v2)])) (spec, [])
             pure (st2.1, (match d with
               | .obj es => Json.obj (setF es "allOf" (Json.obj st2.2))
               | x => x))
           | _ => pure (spec, d)
         else pure (spec, d)
       | none => pure (spec, d))
    let spec := st.1
    let d := st.2
    let st ←
      (match jsGet d "discriminator" with
       | some disc =>
         if truthy disc then do
           let spec ←
             (match jsGet disc "mapping" with
              | some mp => if truthy mp then convertDiscriminatorMapping spec mp else pure spec
              | none => pure spec)
           let d2 ← jsSetOpt d "discriminator" (jsGet disc "propertyName")
           pure (spec, d2)
         else pure (spec, d)
       | none => pure (spec, d))
    let spec := st.1
    let d := st.2
    let typeV := jsGet d "type"
    let st ←
      (if typeV = some (Json.str "object") then
         match jsGet d "properties" with
         | some props =>
           if truthy props then
             match props with
             | .obj pes => do
               let st2 ← pes.foldlM (fun (st2 : Json × List (String × Json)) kv => do
                 let (sp, acc) := st2
                 let wv ← jsRead kv.2 "writeOnly"
                 if wv = some (Json.bool true) && dir = some "response" then
                   pure (sp, acc)
                 else do
                   let (sp, v2) ← convertSchemaFuel n sp kv.2 dir
                   pure (sp, acc ++ [(kv.1, jsDel v2 "writeOnly")])) (spec, [])
               pure (st2.1, (match d with
                 | .obj es => Json.obj (setF es "properties" (Json.obj st2.2))
                 | x => x))
             | .arr pl => do
               let st2 ← pl.foldlM (fun (st2 : Json × List Json) x => do
                 let (sp, acc) := st2
                 let wv ← jsRead x "writeOnly"
                 if wv = some (Json.bool true) && dir = some "response" then
                   pure (sp, acc ++ [Json.null])
                 else do
                   let (sp, v2) ← convertSchemaFuel n sp x dir
                   pure (sp, acc ++ [jsDel v2 "writeOnly"])) (spec, [])
               pure (st2.1, (match d with
                 | .obj es => Json.obj (setF es "properties" (Json.arr st2.2))
                 | x => x))
             | _ => pure (spec, d)
           else pure (spec, d)
         | none => pure (spec, d)
       else pure (spec, d))
    let spec := st.1
    let d := st.2
    let st ←
      (if typeV = some (Json.str "object") || typeV = some (Json.str "array") then
         match jsGet d "items" with
         | some it =>
           if truthy it then do
             let (sp, it2) ← convertSchemaFuel n spec it dir
             pure (sp, (match d with
               | .obj es => Json.obj (setF es "items" it2)
               | x => x))
           else pure (spec, d)
         | none => pure (spec, d)
       else pure (spec, d))
    let spec := st.1
    let d := st.2
    let d ←
      (if fieldTruthy d "nullable" then do
         let d2 ← jsSet d "x-nullable" (Json.bool true)
         pure (jsDel d2 "nullable")
       else pure d)
    let d ←
      (match jsGet d "deprecated" with
       | some dep => do
         let d2 ← if (jsGet d "x-deprecated").isNone then jsSet d "x-deprecated" dep else pure d
         pure (jsDel d2 "deprecated")
       | none => pure d)
    return (spec, d)

/-- `convertSchema` at the fuel every pipeline call supplies. -/
def convertSchema (spec d : Json) (dir : Option String) : Except JsErr (Json × Json) :=
  convertSchemaFuel (jsonSize d + 1) spec d dir

/-- `required.indexOf(name) >= 0` for the request-body explode loop:
array membership, substring search on strings, a TypeError on objects
(which have no `indexOf`). -/
def requiredContains (required : Json) (name : String) : Except JsErr Bool :=
  match required with
  | .arr l => .ok (l.contains (Json.str name))
  | .str s => .ok (name = "" || (strSplitOn s name).length > 1)
  | .obj _ => .error .typeError
  | _ => .error .typeError

/-- `operation.parameters.push(p)`: appends to the array, raises when the
current value is not an array. -/
def pushParam (operation : Json) (p : Json) : Except JsErr Json :=
  match jsGet operation "parameters" with
  | some (.arr l) => jsSet operation "parameters" (.arr (l ++ [p]))
  | _ => .error .typeError

/-- The fallback request-body schema of the binary-upload branch. -/
def binaryFallback : Json :=
  Json.obj [("type", Json.str "string"), ("format", Json.str "binary")]

/-- The form-encoded branch of `convertOperationParameters`: `consumes`
is set to the concrete media types, the parameter becomes `formData`, and
an object schema with properties is exploded into one `formData`
parameter per non-readOnly property.  The source converts `param.schema`
(after pushing aliases of its property schemas); since conversion never
adds or removes properties for the request direction, the embedding
converts the schema first and then explodes the converted properties. -/
def formDataBranch (spec operation p content : Json) (ck : String)
    (mediaTypes : List String) : Except JsErr (Json × Json) := do
  let operation ← jsSet operation "consumes" (Json.arr (mediaTypes.map Json.str))
  let p ← jsSet p "in" (Json.str "formData")
  let cv := (jsGet content ck).getD Json.null
  let sv1 ← jsRead cv "schema"
  let p ← jsSetOpt p "schema" sv1
  let sv2 ← resolveReference spec sv1 true
  let p ← jsSetOpt p "schema" sv2
  match sv2 with
  | none => .error .typeError
  | some schemaV => do
    let tv ← jsRead schemaV "type"
    if tv = some (Json.str "object") && fieldTruthy schemaV "properties" then do
      let st ← convertSchema spec schemaV (some "request")
      let spec := st.1
      let schemaC := st.2
      let requiredV :=
        match jsGet schemaC "required" with
        | some r => if truthy r then r else Json.arr []
        | none => Json.arr []
      let props := (jsGet schemaC "properties").getD Json.null
      let operation ← (forInEntries props).foldlM (fun operation kv => do
        let ro ← jsRead kv.2 "readOnly"
        if optTruthy ro then pure operation
        else do
          let req ← requiredContains requiredV kv.1
          let fd :=
            if req then
              Json.obj [("name", Json.str kv.1), ("in", Json.str "formData"),
                        ("schema", kv.2), ("required", Json.bool true)]
            else
              Json.obj [("name", Json.str kv.1), ("in", Json.str "formData"),
                        ("schema", kv.2)]
          pushParam operation fd) operation
      pure (spec, operation)
    else do
      let st ←
        if truthy schemaV then do
          let st ← convertSchema spec schemaV (some "request")
          let p2 ← jsSet p "schema" st.2
          pure (st.1, p2)
        else pure (spec, p)
      let operation ← pushParam operation st.2
      pure (st.1, operation)

/-- The JSON-compatible branch of `convertOperationParameters`. -/
def jsonBodyBranch (spec operation p content : Json) (ck : String)
    (mediaTypes : List String) : Except JsErr (Json × Json) := do
  let operation ← jsSet operation "consumes" (Json.arr (mediaTypes.map Json.str))
  let p ← jsSet p "in" (Json.str "body")
  let cv := (jsGet content ck).getD Json.null
  let sv ← jsRead cv "schema"
  let p ← jsSetOpt p "schema" sv
  let st ←
    if optTruthy sv then do
      let st ← convertSchema spec ((jsGet p "schema").getD Json.null) (some "request")
      let p2 ← jsSet p "schema" st.2
      pure (st.1, p2)
    else pure (spec, p)
  let operation ← pushParam operation st.2
  pure (st.1, operation)

/-- The binary-upload branch of `convertOperationParameters`.  Note that
`mediaTypes` is always an array, hence always truthy: the
`application/octet-stream` fallback of `mediaTypes || […]` is dead code,
and `param.name` was already set to "body", so `param.name || "file"`
keeps "body". -/
def binaryBodyBranch (spec operation p content : Json)
    (mediaRanges mediaTypes : List String) : Except JsErr (Json × Json) := do
  let mt := Json.arr (mediaTypes.map Json.str)
  let consumesV := if truthy mt then mt else Json.arr [Json.str "application/octet-stream"]
  let operation ← jsSet operation "consumes" consumesV
  let p ← jsSet p "in" (Json.str "body")
  let p ←
    (match jsGet p "name" with
     | some v => if truthy v then pure p else jsSet p "name" (Json.str "file")
     | none => jsSet p "name" (Json.str "file"))
  let p := jsDel p "type"
  match mediaRanges.head? with
  | none => .error .typeError
  | some mr0 => do
    let cv := (jsGet content mr0).getD Json.null
    let sv ← jsRead cv "schema"
    let schemaV :=
      match sv with
      | some v => if truthy v then v else binaryFallback
      | none => binaryFallback
    let p ← jsSet p "schema" schemaV
    let st ← convertSchema spec schemaV (some "request")
    let p ← jsSet p "schema" st.2
    let operation ← pushParam operation p
    pure (st.1, operation)

/-- `convertOperationParameters(operation)` from the converter: defaults
`parameters`, turns a `requestBody` into exactly one parameter (or an
exploded set of `formData` parameters), deletes `requestBody`, and runs
`convertParameters` over the result. -/
def convertOperationParameters (spec operation : Json) : Except JsErr (Json × Json) := do
  let curPs ← jsRead operation "parameters"
  let operation ←
    (match curPs with
     | some v => if truthy v then jsSet operation "parameters" v
                 else jsSet operation "parameters" (Json.arr [])
     | none => jsSet operation "parameters" (Json.arr []))
  if !(fieldTruthy operation "requestBody") then do
    let o2 ← convertParameters spec operation
    pure (spec, o2)
  else do
    let rb := (jsGet operation "requestBody").getD Json.null
    let paramOpt ← resolveReference spec (some rb) true
    let rbContent ← jsRead rb "content"
    let paramOpt ←
      (match rbContent with
       | some c =>
         if truthy c then do
           let tOpt := (getSupportedMimeTypes c).head?
           let data :=
             match tOpt with
             | some t => jsGet c t
             | none => none
           (match data with
            | some dv =>
              if truthy dv then do
                let sOpt ← jsRead dv "schema"
                (match sOpt with
                 | some sv =>
                   if truthy sv then do
                     let rOpt ← jsRead sv "$ref"
                     (match rOpt with
                      | some rv =>
                        if truthy rv then
                          (match rv with
                           | .str rs =>
                             if !(strStartsWith rs "#") then do
                               let p2 ← resolveReference spec (some sv) true
                               pure (some (Json.obj [("content", Json.obj
                                 [(tOpt.getD "", Json.obj [("schema", p2.getD Json.null)])])]))
                             else pure paramOpt
                           | _ => .error .typeError)
                        else pure paramOpt
                      | none => pure paramOpt)
                   else pure paramOpt
                 | none => pure paramOpt)
              else pure paramOpt
            | none => pure paramOpt)
         else pure paramOpt
       | none => pure paramOpt)
    match paramOpt with
    | none => .error .typeError
    | some p0 => do
      let p ← jsSet p0 "name" (Json.str "body")
      let contentOpt := jsGet p "content"
      let st ←
        (match contentOpt with
         | some content =>
           if truthy content && (jsKeys content).length ≠ 0 then do
             let ranges := jsKeys content
             let mediaRanges := ranges.filter slashIdxPos
             let mediaTypes := mediaRanges.filter (fun r => !(strContainsChar r '*'))
             let contentKey := (getSupportedMimeTypes content).head?
             let p := jsDel p "content"
             (match contentKey with
              | some ck =>
                if ck = "application/x-www-form-urlencoded" || ck = "multipart/form-data" then
                  formDataBranch spec operation p content ck mediaTypes
                else if ck ≠ "" then
                  jsonBodyBranch spec operation p content ck mediaTypes
                else
                  binaryBodyBranch spec operation p content mediaRanges mediaTypes
              | none => binaryBodyBranch spec operation p content mediaRanges mediaTypes)
           else pure (spec, operation)
         | none => pure (spec, operation))
      let spec := st.1
      let operation := jsDel st.2 "requestBody"
      let operation ← convertParameters spec operation
      pure (spec, operation)

/-- The `produces` bookkeeping of `convertResponses`: start the list, or
append the media type when not already present (via `indexOf`). -/
def producesAdd (operation : Json) (mediaType : String) : Except JsErr Json :=
  match jsGet operation "produces" with
  | some v =>
    if truthy v then
      match v with
      | .arr l =>
        if l.contains (Json.str mediaType) then .ok operation
        else jsSet operation "produces" (.arr (l ++ [Json.str mediaType]))
      | .str s =>
        if mediaType = "" || (strSplitOn s mediaType).length > 1 then .error .typeError
        else .error .typeError
      | _ => .error .typeError
    else jsSet operation "produces" (Json.arr [Json.str mediaType])
  | none => jsSet operation "produces" (Json.arr [Json.str mediaType])

/-- The per-media-range loop state of `convertResponses`. -/
structure MediaLoopState where
  operation : Json
  response : Json
  anySchema : Option Json
  jsonSchema : Option Json

/-- One response of `convertResponses`: collect `produces`, pick the
schema candidate and examples, substitute and convert the schema, flatten
header schemas, and drop `content`. -/
def convertOneResponse (spec operation response0 : Json) :
    Except JsErr (Json × Json × Json) := do
  let contentV ← jsRead response0 "content"
  let st ←
    if optTruthy contentV then do
      let content := contentV.getD Json.null
      let ml ← (forInEntries content).foldlM (fun (ml : MediaLoopState) mkv => do
        let mr := mkv.1
        let mediaType := if strContainsChar mr '*' then "application/octet-stream" else mr
        let operation ← producesAdd ml.operation mediaType
        let sOpt ← jsRead mkv.2 "schema"
        let anySchema := if optTruthy ml.anySchema then ml.anySchema else sOpt
        let jsonSchema :=
          if !(optTruthy ml.jsonSchema) && isJsonMimeType mediaType then sOpt else ml.jsonSchema
        let response ← (do
          let exOpt ← jsRead mkv.2 "example"
          if optTruthy exOpt then do
            let exs :=
              match jsGet ml.response "examples" with
              | some e => if truthy e then e else Json.obj []
              | none => Json.obj []
            let exs2 ← jsSet exs mediaType (exOpt.getD Json.null)
            jsSet ml.response "examples" exs2
          else pure ml.response)
        pure ⟨operation, response, anySchema, jsonSchema⟩)
        ⟨operation, response0, none, none⟩
      if optTruthy ml.anySchema then do
        let chosen := if optTruthy ml.jsonSchema then ml.jsonSchema else ml.anySchema
        let response ← jsSetOpt ml.response "schema" chosen
        let rs := (jsGet response "schema").getD Json.null
        let resolvedOpt ← resolveReference spec (some rs) true
        let response ←
          if optTruthy resolvedOpt then
            (match jsGet rs "$ref" with
             | some rv =>
               if truthy rv then
                 (match rv with
                  | .str s2 =>
                    if !(strStartsWith s2 "#") then jsSet response "schema" (resolvedOpt.getD Json.null)
                    else pure response
                  | _ => .error .typeError)
               else pure response
             | none => pure response)
          else pure response
        let cs ← convertSchema spec ((jsGet response "schema").getD Json.null) (some "response")
        let response ← jsSet response "schema" cs.2
        pure (cs.1, ml.operation, response)
      else pure (spec, ml.operation, ml.response)
    else pure (spec, operation, response0)
  let spec := st.1
  let operation := st.2.1
  let response := st.2.2
  let headersV := jsGet response "headers"
  let response ←
    (match headersV with
     | some hv =>
       if truthy hv then do
         let hv2 ← (forInEntries hv).foldlM (fun hcur kv => do
           let rOpt ← resolveReference spec (some kv.2) true
           match rOpt with
           | none => .error .typeError
           | some resolved => do
             let sOpt ← jsRead resolved "schema"
             let resolved ←
               if optTruthy sOpt then do
                 let sch := sOpt.getD Json.null
                 let r2 ← jsSetOpt resolved "type" (jsGet sch "type")
                 let r3 ← jsSetOpt r2 "format" (jsGet sch "format")
                 pure (jsDel r3 "schema")
               else pure resolved
             jsIndexSet hcur kv.1 resolved) hv
         jsSet response "headers" hv2
       else pure response
     | none => pure response)
  let response := jsDel response "content"
  pure (spec, operation, response)

/-- `convertResponses(operation)` from the converter. -/
def convertResponses (spec operation : Json) : Except JsErr (Json × Json) := do
  match jsGet operation "responses" with
  | none => pure (spec, operation)
  | some rv => do
    let st ← (forInEntries rv).foldlM (fun (st : Json × Json × Json) kv => do
      let spec := st.1
      let operation := st.2.1
      let rvCur := st.2.2
      let rOpt ← resolveReference spec (some kv.2) true
      let rvCur ←
        (match rOpt with
         | some r => jsIndexSet rvCur kv.1 r
         | none =>
           (match rvCur with
            | .obj es => pure (Json.obj (delF es kv.1))
            | .arr l => pure (Json.arr l)
            | _ => .error .typeError))
      match rOpt with
      | none => .error .typeError
      | some response0 => do
        let r ← convertOneResponse spec operation response0
        let rvCur ← jsIndexSet rvCur kv.1 r.2.2
        pure (r.1, r.2.1, rvCur)) (spec, operation, rv)
    let operation ← jsSet st.2.1 "responses" st.2.2
    pure (st.1, operation)

/-- The oauth2 flow-name mapping of `convertSecurityDefinitions`. -/
def mapFlowName (fn : String) : String :=
  if fn = "clientCredentials" then "application"
  else if fn = "authorizationCode" then "accessCode"
  else fn

/-- One security scheme of `convertSecurityDefinitions`: downgrade
http+basic, http+bearer and oauth2 schemes as the source does; anything
else is left unchanged.  For oauth2, missing `flows` (or an empty flow
map, whose first flow is `undefined`) raises, as reading the flow's
`authorizationUrl` does in the source. -/
def convertOneSecurityScheme (security : Json) : Except JsErr Json := do
  let tv ← jsRead security "type"
  let sv := jsGet security "scheme"
  if tv = some (Json.str "http") && sv = some (Json.str "basic") then do
    let s2 ← jsSet security "type" (Json.str "basic")
    pure (jsDel s2 "scheme")
  else if tv = some (Json.str "http") && sv = some (Json.str "bearer") then do
    let s2 ← jsSet security "type" (Json.str "apiKey")
    let s3 ← jsSet s2 "name" (Json.str "Authorization")
    let s4 ← jsSet s3 "in" (Json.str "header")
    pure (jsDel (jsDel s4 "scheme") "bearerFormat")
  else if tv = some (Json.str "oauth2") then do
    match jsGet security "flows" with
    | none => .error .typeError
    | some .null => .error .typeError
    | some flows => do
      match (jsKeys flows).head? with
      | none => .error .typeError
      | some fn => do
        let flow := (jsGet flows fn).getD Json.null
        let s2 ← jsSet security "flow" (Json.str (mapFlowName fn))
        let au ← jsRead flow "authorizationUrl"
        let s3 ← jsSetOpt s2 "authorizationUrl" au
        let tu ← jsRead flow "tokenUrl"
        let s4 ← jsSetOpt s3 "tokenUrl" tu
        let sc ← jsRead flow "scopes"
        let s5 ← jsSetOpt s4 "scopes" sc
        pure (jsDel s5 "flows")
  else pure security

/-- One step of the `for … in` of `convertSecurityDefinitions`: downgrade
the scheme and write it back at its key. -/
def convertOneSchemeStep (sdCur : Json) (kv : String × Json) : Except JsErr Json := do
  let s2 ← convertOneSecurityScheme kv.2
  jsIndexSet sdCur kv.1 s2

/-- `convertSecurityDefinitions()` from the converter: move
`components.securitySchemes` to top-level `securityDefinitions`,
downgrade each scheme, and delete `components.securitySchemes`. -/
def convertSecurityDefinitions (spec : Json) : Except JsErr Json := do
  let comps ←
    (match jsGet spec "components" with
     | none => .error .typeError
     | some c => pure c)
  let ssOpt ← jsRead comps "securitySchemes"
  let spec ← jsSetOpt spec "securityDefinitions" ssOpt
  let sd := (jsGet spec "securityDefinitions").getD Json.null
  let spec ←
    (do
      let sd2 ← (forInEntries sd).foldlM convertOneSchemeStep sd
      match jsGet spec "securityDefinitions" with
      | some _ => jsSet spec "securityDefinitions" sd2
      | none => pure spec)
  let spec ←
    (match jsGet spec "components" with
     | some c => jsSet spec "components" (jsDel c "securitySchemes")
     | none => pure spec)
  return spec

/-- The post-processing of `parseServerUrl`: host and scheme from the
platform URL parser (falsy host becomes null; the scheme drops the first
colon of the protocol), pathname as-is; a parse failure yields the empty
record; a non-http(s) url becomes the literal `basePath`. -/
structure ServerParts where
  host : Option String
  scheme : Option String
  pathname : String
deriving Repr

/-- `parseServerUrl(serverUrl)` from the converter, with the platform
`new URL` abstracted as `urlParse` returning raw
`(host, protocol, pathname)` on success. -/
def parseServerUrlM (urlParse : String → Option (String × String × String))
    (u : Option Json) : Except JsErr ServerParts :=
  match u with
  | none => .ok ⟨none, none, ""⟩
  | some v =>
    if !truthy v then .ok ⟨none, none, ""⟩
    else
      match v with
      | .str s =>
        if strStartsWith s "http://" || strStartsWith s "https://" then
          match urlParse s with
          | some (h, pr, pn) =>
            .ok ⟨if h ≠ "" then some h else none,
                 if pr ≠ "" then some (strReplaceFirst pr ":" "") else none,
                 pn⟩
          | none => .ok ⟨none, none, ""⟩
        else .ok ⟨none, none, s⟩
      | _ => .error .typeError

/-- `Converter.convertInfos()`: substitute server variables into the
first server's url, derive `host`/`schemes`/`basePath`, and delete
`servers` and `openapi`. -/
def convertInfos (urlParse : String → Option (String × String × String))
    (spec : Json) : Except JsErr Json := do
  let server : Option Json :=
    match jsGet spec "servers" with
    | some sv => if truthy sv then jsGet sv "0" else none
    | none => none
  let spec ←
    (match server with
     | some srv =>
       if truthy srv then do
         let urlV ← jsRead srv "url"
         let vars :=
           match jsGet srv "variables" with
           | some v => if truthy v then v else Json.obj []
           | none => Json.obj []
         let serverUrl ← (forInEntries vars).foldlM
           (fun (cur : Option Json) kv => do
             let vo := if truthy kv.2 then kv.2 else Json.obj []
             if fieldTruthy vo "default" then
               (match cur with
                | some (.str s) =>
                  pure (some (Json.str (strReplaceAll s ("\x7b" ++ kv.1 ++ "\x7d")
                    (jsToString ((jsGet vo "default").getD Json.null)))))
                | _ => .error .typeError)
             else pure cur) urlV
         let parts ← parseServerUrlM urlParse serverUrl
         let spec ←
           (match parts.host with
            | none => pure (jsDel spec "host")
            | some h => jsSet spec "host" (Json.str h))
         let spec ←
           (match parts.scheme with
            | none => pure (jsDel spec "schemes")
            | some sc => jsSet spec "schemes" (Json.arr [Json.str sc]))
         if parts.pathname ≠ "" then jsSet spec "basePath" (Json.str parts.pathname)
         else pure spec
       else pure spec
     | none => pure spec)
  let spec := jsDel spec "servers"
  let spec := jsDel spec "openapi"
  return spec

/-- Write `v` (or remove the key for an `undefined` value) at
`spec[k1][key]`. -/
def writeAt1 (spec : Json) (k1 key : String) (v : Option Json) : Except JsErr Json := do
  match jsGet spec k1 with
  | some container => do
    let c2 ←
      (match v with
       | some w => jsIndexSet container key w
       | none =>
         (match container with
          | .obj es => pure (Json.obj (delF es key))
          | .arr l => pure (Json.arr l)
          | _ => .error .typeError))
    jsSet spec k1 c2
  | none => pure spec

/-- Write `v` at `spec[k1][key1][key2]`. -/
def writeAt2 (spec : Json) (k1 key1 key2 : String) (v : Option Json) :
    Except JsErr Json := do
  match jsGet spec k1 with
  | some container =>
    (match jsGet container key1 with
     | some inner => do
       let i2 ←
         (match v with
          | some w => jsIndexSet inner key2 w
          | none =>
            (match inner with
             | .obj es => pure (Json.obj (delF es key2))
             | .arr l => pure (Json.arr l)
             | _ => .error .typeError))
       let c2 ← jsIndexSet container key1 i2
       jsSet spec k1 c2
     | none => pure spec)
  | none => pure spec

/-- `Converter.convertOperations()`: resolve and convert each path item's
parameters and each HTTP-verb operation's parameters and responses.  When
`spec.paths` is falsy, the loop runs over a detached empty default and
does nothing. -/
def convertOperations (spec : Json) : Except JsErr Json := do
  let pathsV :=
    match jsGet spec "paths" with
    | some v => if truthy v then some v else none
    | none => none
  match pathsV with
  | none => pure spec
  | some paths0 => do
    (jsKeys paths0).foldlM (fun spec path => do
      let curPaths := (jsGet spec "paths").getD Json.null
      let pv := jsGet curPaths path
      let poOpt ← resolveReference spec pv true
      let spec ← writeAt1 spec "paths" path poOpt
      match poOpt with
      | none => .error .typeError
      | some po => do
        let po ← convertParameters spec po
        let spec ← writeAt1 spec "paths" path (some po)
        (forInEntries po).foldlM (fun spec mkv => do
          if HTTP_METHODS.contains mkv.1 then do
            let curPo := (jsGet ((jsGet spec "paths").getD Json.null) path).getD Json.null
            let ov := jsGet curPo mkv.1
            let opOpt ← resolveReference spec ov true
            let spec ← writeAt2 spec "paths" path mkv.1 opOpt
            match opOpt with
            | none => .error .typeError
            | some op => do
              let st ← convertOperationParameters spec op
              let spec ← writeAt2 st.1 "paths" path mkv.1 (some st.2)
              let st2 ← convertResponses spec st.2
              writeAt2 st2.1 "paths" path mkv.1 (some st2.2)
          else pure spec) spec) spec

/-- `Converter.convertSchemas()`: alias `components.schemas` as top-level
`definitions`, convert each definition (with no direction tag), and
delete `components.schemas`.  In the source the two containers share the
same objects; this value embedding mirrors each converted definition into
`components.schemas` so that later reads through either name agree. -/
def convertSchemas (spec : Json) : Except JsErr Json := do
  let comps ←
    (match jsGet spec "components" with
     | none => .error .typeError
     | some c => pure c)
  let schemasOpt ← jsRead comps "schemas"
  let spec ← jsSetOpt spec "definitions" schemasOpt
  let defs := (jsGet spec "definitions").getD Json.null
  let st ← (forInEntries defs).foldlM (fun (st : Json × Json) kv => do
    let cs ← convertSchemaFuel (jsonSize kv.2 + 1) st.1 kv.2 none
    let dcur2 ← jsIndexSet st.2 kv.1 cs.2
    let spec ←
      (match jsGet cs.1 "components" with
       | some c =>
         (match jsGet c "schemas" with
          | some sch => do
            let sch2 ← jsIndexSet sch kv.1 cs.2
            let c2 ← jsSet c "schemas" sch2
            jsSet cs.1 "components" c2
          | none => pure cs.1)
       | none => pure cs.1)
    pure (spec, dcur2)) (spec, defs)
  let spec := st.1
  let spec ←
    (match jsGet spec "definitions" with
     | some _ => jsSet spec "definitions" st.2
     | none => pure spec)
  let spec ←
    (match jsGet spec "components" with
     | some c => jsSet spec "components" (jsDel c "schemas")
     | none => pure spec)
  return spec

/-- `Converter.convert()` from `openapi3ToSwagger2.js`: stamp
`swagger: "2.0"`, convert infos and operations, and when `components` is
truthy convert schemas and security definitions, move `components` to
`x-components`, and rewrite every `$ref`.  Logging and debug tracing are
no-ops and are omitted. -/
def convert (urlParse : String → Option (String × String × String))
    (spec : Json) : Except JsErr Json := do
  let spec ← jsSet spec "swagger" (Json.str "2.0")
  let spec ← convertInfos urlParse spec
  let spec ← convertOperations spec
  if fieldTruthy spec "components" then do
    let spec ← convertSchemas spec
    let spec ← convertSecurityDefinitions spec
    let comps := (jsGet spec "components").getD Json.null
    let spec ← jsSet spec "x-components" comps
    let spec := jsDel spec "components"
    fixRefs spec
  else pure spec

/-! ### Dereferencer (`dereferenceSwagger2` from the worker module)

The source mutates the document in place while resolving pointers against
it.  The embedding threads the evolving root explicitly: subtrees still
attached to the root are processed with write-through at their path
(matching in-place mutation), while clones produced by `derefRef` and the
merged results of reference nodes are processed detached, exactly as the
fresh objects of the source are.  The recursion is indexed by a fuel that
only the reference-following calls consume; the termination theorem shows
an explicit fuel bound sufficient for every document. -/

/-- Read the value at a key path inside a tree. -/
def getAtKeys : Json → List String → Option Json
  | v, [] => some v
  | v, k :: rest =>
    match jsGet v k with
    | some w => getAtKeys w rest
    | none => none

/-- Sibling splice of a reference node: `merged[key] = node[key]`.
Objects update the key; arrays take canonical indices (extending with
nulls as sparse assignments serialize); anything else is unreachable. -/
def spliceKey : Json → String → Json → Json
  | .obj es, k, v => .obj (setF es k v)
  | .arr l, k, v =>
    (match canonIndex k with
     | some i =>
       if i < l.length then .arr (l.set i v)
       else .arr ((l ++ List.replicate (i - l.length) Json.null) ++ [v])
     | none => .arr l)
  | x, _, _ => x

/-- Is this an object with a truthy string `$ref` (the node shape the
dereferencer rewrites)? -/
def isRefNode : Json → Bool
  | .obj es =>
    (match getF es "$ref" with
     | some (.str r) => r ≠ ""
     | _ => false)
  | _ => false

/-- The running state of `dereferenceSwagger2`: the mutating document
root, the pointer-keyed cache, the in-flight pointer set and the three
counters. -/
structure DerefState where
  root : Json
  cache : List (String × Json)
  resolving : List String
  replacedRefs : Nat
  missingRefs : Nat
  cycleRefs : Nat
deriving Repr, DecidableEq

mutual

/-- `derefNode(node)` on a detached tree (a clone or a merged reference
result): scalars return themselves, arrays map, reference nodes resolve
(with missing/cycle fallback `description? + type:"object"`), splice
their siblings over the resolved clone and dereference the result, and
plain containers recurse into their values. -/
def derefDetachedF : Nat → DerefState → Json → Except JsErr (DerefState × Json)
  | fuel, st, .arr l => do
    let r ← derefListF fuel st l
    pure (r.1, .arr r.2)
  | fuel, st, .obj es =>
    (match getF es "$ref" with
     | some (.str r) =>
       if r ≠ "" then do
         let rr ← derefRefF fuel st r
         match rr.2 with
         | none =>
           let st := { rr.1 with missingRefs := rr.1.missingRefs + 1 }
           let fallback :=
             match getF es "description" with
             | some dv =>
               if truthy dv then
                 Json.obj [("description", dv), ("type", Json.str "object")]
               else Json.obj [("type", Json.str "object")]
             | none => Json.obj [("type", Json.str "object")]
           pure (st, fallback)
         | some resolved =>
           let merged := es.foldl (fun m kv =>
             if kv.1 = "$ref" then m else spliceKey m kv.1 kv.2) resolved
           let st := { rr.1 with replacedRefs := rr.1.replacedRefs + 1 }
           (match fuel with
            | 0 => .error .fuelOut
            | m + 1 => derefDetachedF m st merged)
       else do
         let r2 ← derefEntriesF fuel st es
         pure (r2.1, .obj r2.2)
     | _ => do
       let r2 ← derefEntriesF fuel st es
       pure (r2.1, .obj r2.2))
  | _, st, t => pure (st, t)
termination_by fuel _ t => (fuel, 3 * jsonSize t)
decreasing_by
  all_goals simp_wf
  all_goals simp only [jsonSize, jsonSizeList, jsonSizeEntries]
  all_goals first
    | exact Prod.Lex.left _ _ (by omega)
    | exact Prod.Lex.right _ (by omega)

/-- `derefNode` over the elements of a detached array. -/
def derefListF : Nat → DerefState → List Json → Except JsErr (DerefState × List Json)
  | _, st, [] => pure (st, [])
  | fuel, st, x :: xs => do
    let r ← derefDetachedF fuel st x
    let rs ← derefListF fuel r.1 xs
    pure (rs.1, r.2 :: rs.2)
termination_by fuel _ l => (fuel, 3 * jsonSizeList l + 1)
decreasing_by
  all_goals simp_wf
  all_goals simp only [jsonSize, jsonSizeList, jsonSizeEntries]
  all_goals first
    | exact Prod.Lex.left _ _ (by omega)
    | exact Prod.Lex.right _ (by omega)

/-- `derefNode` over the entries of a detached plain object. -/
def derefEntriesF : Nat → DerefState → List (String × Json) →
    Except JsErr (DerefState × List (String × Json))
  | _, st, [] => pure (st, [])
  | fuel, st, (k, v) :: rest => do
    let r ← derefDetachedF fuel st v
    let rs ← derefEntriesF fuel r.1 rest
    pure (rs.1, (k, r.2) :: rs.2)
termination_by fuel _ es => (fuel, 3 * jsonSizeEntries es + 1)
decreasing_by
  all_goals simp_wf
  all_goals simp only [jsonSize, jsonSizeList, jsonSizeEntries]
  all_goals first
    | exact Prod.Lex.left _ _ (by omega)
    | exact Prod.Lex.right _ (by omega)

/-- `derefRef(ref)`: non-local pointers and unresolvable or non-object
targets yield null; a cached pointer returns a clone of its cache entry; a
pointer already in flight is a counted cycle; otherwise the target's clone
is dereferenced with the pointer marked in-flight and cached. -/
def derefRefF : Nat → DerefState → String → Except JsErr (DerefState × Option Json)
  | 0, _, _ => .error .fuelOut
  | n + 1, st, ref =>
    if !(strStartsWith ref "#/") then pure (st, none)
    else
      match getF st.cache ref with
      | some v => pure (st, some v)
      | none =>
        if st.resolving.contains ref then
          pure ({ st with cycleRefs := st.cycleRefs + 1 }, none)
        else
          let target := resolveRef st.root (Json.str ref)
          if !(truthy target && isObjJS target) then pure (st, none)
          else do
            let st := { st with resolving := st.resolving ++ [ref] }
            let r ← derefDetachedF n st target
            let st := { r.1 with
              cache := setF r.1.cache ref r.2,
              resolving := r.1.resolving.erase ref }
            pure (st, some r.2)
termination_by fuel _ _ => (fuel, 0)
decreasing_by
  all_goals simp_wf
  all_goals first
    | exact Prod.Lex.left _ _ (by omega)
    | exact Prod.Lex.right _ (by omega)

/-- `derefNode` on a subtree still attached to the root at `path`
(`v` is the current value there): reference nodes compute a detached
result which the parent assignment writes at the path; plain objects
mutate child by child in place; arrays build a replacement array that the
parent assignment installs; scalars are untouched. -/
def derefAttachedF : Nat → DerefState → List String → Json → Except JsErr DerefState
  | fuel, st, path, .obj es =>
    if isRefNode (.obj es) then do
      let r ← derefDetachedF fuel st (.obj es)
      pure { r.1 with root := setAtKeys r.1.root path r.2 }
    else
      derefAttachedEntriesF fuel st path es
  | fuel, st, path, .arr l => do
    let r ← derefAttachedItemsF fuel st path 0 l
    pure { r.1 with root := setAtKeys r.1.root path (.arr r.2) }
  | _, st, _, _ => pure st
termination_by fuel _ _ v => (fuel, 3 * jsonSize v + 2)
decreasing_by
  all_goals simp_wf
  all_goals simp only [jsonSize, jsonSizeList, jsonSizeEntries]
  all_goals first
    | exact Prod.Lex.left _ _ (by omega)
    | exact Prod.Lex.right _ (by omega)

/-- The in-place child loop of an attached plain object. -/
def derefAttachedEntriesF : Nat → DerefState → List String → List (String × Json) →
    Except JsErr DerefState
  | _, st, _, [] => pure st
  | fuel, st, path, (k, v) :: rest => do
    let st ← derefAttachedF fuel st (path ++ [k]) v
    derefAttachedEntriesF fuel st path rest
termination_by fuel _ _ es => (fuel, 3 * jsonSizeEntries es + 3)
decreasing_by
  all_goals simp_wf
  all_goals simp only [jsonSize, jsonSizeList, jsonSizeEntries]
  all_goals first
    | exact Prod.Lex.left _ _ (by omega)
    | exact Prod.Lex.right _ (by omega)

/-- The element loop of an attached array: reference elements are
replaced only through the new array (old slots stay in the root until the
parent assignment), other elements are processed in place and read back. -/
def derefAttachedItemsF : Nat → DerefState → List String → Nat → List Json →
    Except JsErr (DerefState × List Json)
  | _, st, _, _, [] => pure (st, [])
  | fuel, st, path, idx, x :: xs => do
    let r ←
      (if isRefNode x then do
         let rd ← derefDetachedF fuel st x
         pure rd
       else do
         let st2 ← derefAttachedF fuel st (path ++ [toString idx]) x
         pure (st2, (getAtKeys st2.root (path ++ [toString idx])).getD x))
    let rs ← derefAttachedItemsF fuel r.1 path (idx + 1) xs
    pure (rs.1, r.2 :: rs.2)
termination_by fuel _ _ _ l => (fuel, 3 * jsonSizeList l + 3)
decreasing_by
  all_goals simp_wf
  all_goals simp only [jsonSize, jsonSizeList, jsonSizeEntries]
  all_goals first
    | exact Prod.Lex.left _ _ (by omega)
    | exact Prod.Lex.right _ (by omega)

end

/-- The result of `dereferenceSwagger2`: the document plus the three
counters the source keeps (they are surfaced only through debug logging
there). -/
structure DerefResult where
  spec : Json
  replacedRefs : Nat
  missingRefs : Nat
  cycleRefs : Nat
deriving Repr, DecidableEq

/-- `dereferenceSwagger2(spec, options)` from the worker module, indexed
by a recursion fuel: non-objects pass through; otherwise the root is
dereferenced in place (a root-level reference node's result is discarded,
as the source discards `derefNode(spec)`), and `definitions`,
`parameters` and `responses` are dropped unless disabled. -/
def dereferenceSwagger2 (fuel : Nat) (spec options : Json) : Except JsErr DerefResult := do
  if !(truthy spec && isObjJS spec) then
    return ⟨spec, 0, 0, 0⟩
  let dropDefinitions :=
    if truthy options then
      match jsGet options "dropDefinitions" with
      | some v => truthy v
      | none => true
    else true
  let st0 : DerefState := ⟨spec, [], [], 0, 0, 0⟩
  let st ←
    (match spec with
     | .obj es =>
       if isRefNode (.obj es) then do
         let rr ← derefDetachedF fuel st0 (.obj es)
         pure rr.1
       else derefAttachedEntriesF fuel st0 [] es
     | .arr l => do
       let r ← derefAttachedItemsF fuel st0 [] 0 l
       pure r.1
     | _ => pure st0)
  let root := st.root
  let root :=
    if dropDefinitions then jsDel (jsDel (jsDel root "definitions") "parameters") "responses"
    else root
  return ⟨root, st.replacedRefs, st.missingRefs, st.cycleRefs⟩

/-! ### Strict Sanitizer: `allOf` flattening over an explicit heap

`flattenAllOf` guards re-entrant flattening with a `WeakSet` keyed on
JavaScript object identity, so shared and cyclic object graphs matter.
This section embeds it over an arena: every plain object lives in the
heap at an integer id (`HVal.ref`); arrays (whose identity the algorithm
never consults) and scalars are inline values. -/

/-- A JavaScript value in the arena model: plain objects are heap ids. -/
inductive HVal where
  | null : HVal
  | bool (b : Bool) : HVal
  | num (n : Int) : HVal
  | str (s : String) : HVal
  | arr (elems : List HVal) : HVal
  | ref (id : Nat) : HVal
deriving Repr, Inhabited

mutual

/-- Boolean equality on `HVal` (ids compare as ids: object identity). -/
def beqHVal : HVal → HVal → Bool
  | .null, .null => true
  | .bool a, .bool b => a == b
  | .num a, .num b => a == b
  | .str a, .str b => a == b
  | .arr a, .arr b => beqHValList a b
  | .ref a, .ref b => a == b
  | _, _ => false

/-- Boolean equality on lists of `HVal`. -/
def beqHValList : List HVal → List HVal → Bool
  | [], [] => true
  | a :: as, b :: bs => beqHVal a b && beqHValList as bs
  | _, _ => false

end

mutual

/-- Reflexivity of `beqHVal`. -/
def beqHVal_refl : ∀ a, beqHVal a a = true
  | .null => rfl
  | .bool a => by simp [beqHVal]
  | .num a => by simp [beqHVal]
  | .str a => by simp [beqHVal]
  | .arr a => by simp [beqHVal, beqHValList_refl a]
  | .ref a => by simp [beqHVal]

/-- Reflexivity of `beqHValList`. -/
def beqHValList_refl : ∀ a, beqHValList a a = true
  | [] => rfl
  | a :: as => by simp [beqHValList, beqHVal_refl a, beqHValList_refl as]

end

mutual

/-- Soundness of `beqHVal`. -/
def eq_of_beqHVal : ∀ a b, beqHVal a b = true → a = b
  | .null, .null, _ => rfl
  | .bool a, .bool b, h => by simpa [beqHVal] using h
  | .num a, .num b, h => by simpa [beqHVal] using h
  | .str a, .str b, h => by simpa [beqHVal] using h
  | .ref a, .ref b, h => by simpa [beqHVal] using h
  | .arr a, .arr b, h => by
      have := eq_of_beqHValList a b (by simpa [beqHVal] using h)
      simp [this]

/-- Soundness of `beqHValList`. -/
def eq_of_beqHValList : ∀ a b, beqHValList a b = true → a = b
  | [], [], _ => rfl
  | a :: as, b :: bs, h => by
      have h3 := h
      simp only [beqHValList, Bool.and_eq_true] at h3
      simp [eq_of_beqHVal a b h3.1, eq_of_beqHValList as bs h3.2]

end

instance : DecidableEq HVal := fun a b =>
  if h : beqHVal a b = true then .isTrue (eq_of_beqHVal a b h)
  else .isFalse (fun he => h (he ▸ beqHVal_refl a))

/-- The fields of one heap object. -/
abbrev HObj := List (String × HVal)

/-- The arena: object id ↦ fields. -/
abbrev Heap := List HObj

/-- Fields of the object at `id` (ids are always in range in well-formed
runs). -/
def heapGet (h : Heap) (id : Nat) : HObj := (h.get? id).getD []

/-- Replace the fields of the object at `id`. -/
def heapSet (h : Heap) (id : Nat) (o : HObj) : Heap := h.set id o

/-- Field lookup in an `HObj`. -/
def getFH : HObj → String → Option HVal
  | [], _ => none
  | (k, v) :: rest, key => if k = key then some v else getFH rest key

/-- Field assignment in an `HObj` (in place or appended). -/
def setFH : HObj → String → HVal → HObj
  | [], key, v => [(key, v)]
  | (k, w) :: rest, key, v =>
    if k = key then (k, v) :: rest else (k, w) :: setFH rest key v

/-- JavaScript truthiness of an `HVal`. -/
def htruthy : HVal → Bool
  | .null => false
  | .bool b => b
  | .num n => n != 0
  | .str s => s != ""
  | .arr _ => true
  | .ref _ => true

/-- Is the value a JavaScript object (array or plain object)? -/
def hIsObj : HVal → Bool
  | .arr _ => true
  | .ref _ => true
  | _ => false

/-- Truthiness of a field of an `HObj`. -/
def fieldTruthyH (es : HObj) (key : String) : Bool :=
  match getFH es key with
  | some v => htruthy v
  | none => false

/-- Property read `v[key]` in the arena model. -/
def hGet (h : Heap) (v : HVal) (key : String) : Option HVal :=
  match v with
  | .ref id => getFH (heapGet h id) key
  | .arr l =>
    if key = "length" then some (.num l.length)
    else match canonIndex key with
      | some i => l.get? i
      | none => none
  | .str s =>
    if key = "length" then some (.num s.length)
    else match canonIndex key with
      | some i => (s.data.get? i).map (fun c => .str (String.mk [c]))
      | none => none
  | _ => none

/-- The walk of the sanitizer-side `resolveRef` in the arena model. -/
def resolveRefPartsH (h : Heap) : List String → Option HVal → Option HVal
  | [], cur => cur
  | _ :: _, none => none
  | p :: rest, some v =>
    if htruthy v && hIsObj v then resolveRefPartsH h rest (hGet h v p) else none

/-- `resolveRef(root, ref)` in the arena model (the root is the document
object at `rootId`, hence a truthy object). -/
def resolveRefH (h : Heap) (rootId : Nat) (ref : HVal) : HVal :=
  match ref with
  | .str s =>
    if s = "" then .null
    else if !(strStartsWith s "#/") then .null
    else
      let parts := (strSplitOn (strDrop s 2) "/").map ptrUnescape
      match resolveRefPartsH h parts (some (.ref rootId)) with
      | some v => if htruthy v then v else .null
      | none => .null
  | _ => .null

/-- The scanner of `stripAllOfSegs`, fuel-structural like `splitOnAux`. -/
def stripAllOfSegsChars : Nat → List Char → List Char
  | _, [] => []
  | 0, l => l
  | fuel + 1, c :: cs =>
    if ("/allOf/".data).isPrefixOf (c :: cs) then
      if (((c :: cs).drop 7).takeWhile Char.isDigit).length > 0 then
        stripAllOfSegsChars fuel
          (((c :: cs).drop 7).drop (((c :: cs).drop 7).takeWhile Char.isDigit).length)
      else c :: stripAllOfSegsChars fuel cs
    else c :: stripAllOfSegsChars fuel cs

/-- `ref.replace(/\/allOf\/\d+/g, "")`: remove every occurrence of
`/allOf/` followed by a maximal nonempty digit run. -/
def stripAllOfSegs (s : String) : String :=
  String.mk (stripAllOfSegsChars s.data.length s.data)

/-- Does the string contain `/allOf/` as a substring
(`ref.includes("/allOf/")`)? -/
def containsAllOfSeg (s : String) : Bool := (strSplitOn s "/allOf/").length > 1

/-- The merged-schema accumulator of `flattenAllOf`: plain values, plus
the one freshly created `properties` container (allocated into the heap
when the merge result replaces the schema). -/
inductive MVal where
  | plain (v : HVal) : MVal
  | props (entries : HObj) : MVal
deriving Repr

/-- The merged object under construction. -/
abbrev Merged := List (String × MVal)

/-- Lookup in a `Merged`. -/
def mgGet : Merged → String → Option MVal
  | [], _ => none
  | (k, v) :: rest, key => if k = key then some v else mgGet rest key

/-- `hasOwnProperty` on a `Merged`. -/
def mgHas (t : Merged) (k : String) : Bool := (mgGet t k).isSome

/-- Assignment in a `Merged` (in place or appended). -/
def mgSet : Merged → String → MVal → Merged
  | [], key, v => [(key, v)]
  | (k, w) :: rest, key, v =>
    if k = key then (k, v) :: rest else (k, w) :: mgSet rest key v

/-- Truthiness of a `Merged` value (a props container is a fresh object,
hence truthy). -/
def mTruthy : MVal → Bool
  | .plain v => htruthy v
  | .props _ => true

/-- The own enumerable entries of an object-like `HVal` (`for…in` /
`Object.assign` source view): heap fields for plain objects, indexed
elements for arrays. -/
def entriesOfH (h : Heap) : HVal → HObj
  | .ref id => heapGet h id
  | .arr l => l.enum.map (fun p => (toString p.1, p.2))
  | _ => []

/-- Keep-first deduplication of a list of `HVal`s (the iteration order of
a JavaScript `Set`). -/
def dedupHL (l : List HVal) : List HVal :=
  (l.foldl (fun acc x => if x ∈ acc then acc else acc ++ [x]) [])

/-- `mergeSchema(target, source)` from the worker module, with the pure
accumulator as target: skip `allOf`; shallow-union object-valued
`properties` (later wins; a truthy non-object `properties` already on the
target absorbs the merge into a discarded wrapper); set-union array
`required`; first-truthy-wins `type`, `items` and `description`;
first-defined-wins `additionalProperties` and every other key. -/
def mergeSchemaStep (h : Heap) (t : Merged) (kv : String × HVal) : Merged :=
    let key := kv.1
    let value := kv.2
    if key = "allOf" then t
    else if key = "properties" && htruthy value && hIsObj value then
      match mgGet t "properties" with
      | some (.props pes) =>
        mgSet t "properties" (.props ((entriesOfH h value).foldl
          (fun acc e => setFH acc e.1 e.2) pes))
      | some (.plain pv) =>
        if htruthy pv then t
        else
          mgSet t "properties" (.props ((entriesOfH h value).foldl
            (fun acc e => setFH acc e.1 e.2) []))
      | none =>
        mgSet t "properties" (.props ((entriesOfH h value).foldl
          (fun acc e => setFH acc e.1 e.2) []))
    else if key = "required" then
      match value with
      | .arr addl =>
        let cur :=
          match mgGet t "required" with
          | some (.plain (.arr l)) => l
          | _ => []
        mgSet t "required" (.plain (.arr (dedupHL (cur ++ addl))))
      | _ =>
        if !(mgHas t key) then mgSet t key (.plain value) else t
    else if key = "type" then
      let curTruthy := match mgGet t "type" with | some m => mTruthy m | none => false
      if !curTruthy && htruthy value then mgSet t "type" (.plain value) else t
    else if key = "items" then
      let curTruthy := match mgGet t "items" with | some m => mTruthy m | none => false
      if !curTruthy then mgSet t "items" (.plain value) else t
    else if key = "additionalProperties" then
      if !(mgHas t "additionalProperties") then mgSet t "additionalProperties" (.plain value)
      else t
    else if key = "description" then
      let curTruthy := match mgGet t "description" with | some m => mTruthy m | none => false
      if !curTruthy && htruthy value then mgSet t "description" (.plain value) else t
    else
      if !(mgHas t key) then mgSet t key (.plain value) else t

/-- `mergeSchema(target, source)` from the worker module: fold the step
over the source's own enumerable entries.  A falsy or non-object source
merges nothing (its entry list is empty). -/
def mergeSchema (h : Heap) (target : Merged) (source : HVal) : Merged :=
  (entriesOfH h source).foldl (mergeSchemaStep h) target

/-- `ensureSchemaType(schema)` applied to an object's fields: backfill a
missing (falsy) `type` to "object" when `properties`,
`additionalProperties` or `required` is truthy, else to "array" when
`items` is truthy; `$ref`-bearing schemas are left alone. -/
def ensureSchemaTypeFields (es : HObj) : HObj :=
  if fieldTruthyH es "$ref" then es
  else if fieldTruthyH es "type" then es
  else if fieldTruthyH es "properties" || fieldTruthyH es "additionalProperties"
      || fieldTruthyH es "required" then
    setFH es "type" (.str "object")
  else if fieldTruthyH es "items" then setFH es "type" (.str "array")
  else es

/-- Realize a `Merged` as object fields, allocating the props container
(if any) at `freshId`. -/
def mergedToFields (m : Merged) (freshId : Nat) : HObj × Option HObj :=
  m.foldl (fun acc kv =>
    match kv.2 with
    | .plain v => (acc.1 ++ [(kv.1, v)], acc.2)
    | .props pes => (acc.1 ++ [(kv.1, HVal.ref freshId)], some pes)) ([], none)

/-- The field a merged slot contributes to the rebuilt object: a plain
value verbatim, a container as a reference to the fresh node. -/
def mvalField (freshId : Nat) (kv : String × MVal) : String × HVal :=
  (kv.1, match kv.2 with
    | .plain v => v
    | .props _ => HVal.ref freshId)

/-- The `$ref` handling for one `allOf` member: resolve a truthy `$ref`
(retrying once through the dangling `/allOf/<n>` rewrite, which updates
the member's `$ref` in place), returning the possibly-updated heap and
the resolution outcome (`none` when the member carries no truthy
`$ref`). -/
def resolveOneRefStep (heap : Heap) (rootId : Nat) (item : HVal) : Heap × Option HVal :=
  match item with
  | .ref iid =>
    let ifields := heapGet heap iid
    (match getFH ifields "$ref" with
     | some refV =>
       if htruthy refV then
         let r1 := resolveRefH heap rootId refV
         let hr :=
           if !(htruthy r1) then
             match refV with
             | .str s =>
               if containsAllOfSeg s then
                 let cand := stripAllOfSegs s
                 let r2 := resolveRefH heap rootId (.str cand)
                 if htruthy r2 then
                   (heapSet heap iid (setFH ifields "$ref" (.str cand)), r2)
                 else (heap, r1)
               else (heap, r1)
             | _ => (heap, r1)
           else (heap, r1)
         (hr.1, some hr.2)
       else (heap, none)
     | none => (heap, none))
  | _ => (heap, none)

/-- The member-resolution loop of `flattenAllOf`: a falsy or non-object
member aborts; a member with a truthy `$ref` must resolve (retrying once
through the dangling `/allOf/<n>` rewrite, which updates the member's
`$ref` in place) to an object, else the flatten aborts; other members
are used directly. -/
def resolveItems (heap : Heap) (rootId : Nat) : List HVal → Heap × Option (List HVal)
  | [] => (heap, some [])
  | item :: rest =>
    if !(htruthy item && hIsObj item) then (heap, none)
    else
      match resolveOneRefStep heap rootId item with
      | (heap, resolvedOpt) =>
        match resolvedOpt with
        | some resolved =>
          if !(htruthy resolved && hIsObj resolved) then (heap, none)
          else
            (match resolveItems heap rootId rest with
             | (h2, some items2) => (h2, some (resolved :: items2))
             | (h2, none) => (h2, none))
        | none =>
          (match resolveItems heap rootId rest with
           | (h2, some items2) => (h2, some (item :: items2))
           | (h2, none) => (h2, none))

mutual

/-- `flattenAllOf(schema, root, state)` from the worker module, over the
arena and indexed by fuel (the active set bounds the real recursion; the
termination theorem shows the bound).  The active set is passed by value:
the source adds the schema on entry and removes it on every exit, so the
caller's set is restored either way.  Returns the updated heap and the
source's boolean; `none` is fuel exhaustion. -/
def flattenAllOfF : Nat → Heap → Nat → List Nat → Nat → Option (Heap × Bool)
  | 0, _, _, _, _ => none
  | n + 1, heap, rootId, active, sid =>
    let fields := heapGet heap sid
    match getFH fields "allOf" with
    | some (.arr items) =>
      if items.isEmpty then some (heap, false)
      else if active.contains sid then some (heap, false)
      else
        let active := active ++ [sid]
        (match resolveItems heap rootId items with
         | (heap, none) => some (heap, false)
         | (heap, some resolvedItems) =>
           let merged0 := mergeSchema heap [] (.ref sid)
           (match mergeLoopF n heap rootId active merged0 resolvedItems with
            | none => none
            | some (heap, merged) =>
              let freshId := heap.length
              let fc := mergedToFields merged freshId
              let fields3 := ensureSchemaTypeFields fc.1
              let heap := heapSet heap sid fields3
              let heap :=
                match fc.2 with
                | some pes => heap ++ [pes]
                | none => heap
              some (heap, true)))
    | _ => some (heap, false)

/-- The member-merge loop of `flattenAllOf`: recursively flatten a
member that has a truthy `allOf`, then merge it. -/
def mergeLoopF : Nat → Heap → Nat → List Nat → Merged → List HVal →
    Option (Heap × Merged)
  | _, heap, _, _, merged, [] => some (heap, merged)
  | n, heap, rootId, active, merged, item :: rest =>
    let step : Option Heap :=
      match item with
      | .ref iid =>
        if fieldTruthyH (heapGet heap iid) "allOf" then
          match flattenAllOfF n heap rootId active iid with
          | some r => some r.1
          | none => none
        else some heap
      | _ => some heap
    match step with
    | none => none
    | some heap2 =>
      let merged2 := mergeSchema heap2 merged item
      mergeLoopF n heap2 rootId active merged2 rest

end

/-! ### Specification-side definitions used by the theorems -/

/-- The `style`(+`explode`) → `collectionFormat` table of the amended
parameter claim, phrased from the source's branches: `some act` means the
source assigns `collectionFormat` (with `act = none` meaning an
assignment of `undefined`, i.e. key removal); `none` means no assignment
at all (any other unrecognized style). -/
def styleToCollectionFormat (style : Json) (explode : Option Json) :
    Option (Option String) :=
  if style = Json.str "matrix" then
    some (if optTruthy explode then none else some "csv")
  else if style = Json.str "label" then some none
  else if style = Json.str "simple" then some (some "csv")
  else if style = Json.str "spaceDelimited" then some (some "ssv")
  else if style = Json.str "pipeDelimited" then some (some "pipes")
  else if style = Json.str "deepOpbject" then some (some "multi")
  else if style = Json.str "form" then
    some (if explode = some (Json.bool false) then some "csv" else some "multi")
  else none

/-- Fold property maps over an initial map, later entries overwriting
earlier ones. -/
def propsUnionFrom (maps : List HObj) (init : HObj) : HObj :=
  maps.foldl (fun acc m => m.foldl (fun a e => setFH a e.1 e.2) acc) init

/-- The union of property maps, later entries overwriting earlier ones
(the amended `allOf` claim's shape for `properties`). -/
def specPropsUnion (maps : List HObj) : HObj :=
  propsUnionFrom maps []

/-- The (zero- or one-element) list of property maps a schema's fields
contribute: the entries of its `properties` value. -/
def propsMapOfH (h : Heap) (es : HObj) : List HObj :=
  match getFH es "properties" with
  | some v => [entriesOfH h v]
  | none => []

/-- The `required` list of a schema's fields, empty when absent. -/
def reqListOfH (es : HObj) : List HVal :=
  match getFH es "required" with
  | some (.arr l) => l
  | _ => []

/-- The properties map recorded in a `Merged` (empty when absent or held
as a non-container value). -/
def propsOfM (t : Merged) : HObj :=
  match mgGet t "properties" with
  | some (.props p) => p
  | _ => []

/-- The required list recorded in a `Merged` (empty when absent or not an
array). -/
def reqOfM (t : Merged) : List HVal :=
  match mgGet t "required" with
  | some (.plain (.arr l)) => l
  | _ => []

/-- A `Merged` whose `properties`, if held as a plain value, is falsy —
the only plain shape the merge loop can produce from standard sources. -/
def propsWFM (t : Merged) : Prop :=
  ∀ pv, mgGet t "properties" = some (.plain pv) → htruthy pv = false

/-- The `required` slot of a `Merged` is absent or a plain array — the
only shapes standard sources can produce. -/
def reqShapeOK (t : Merged) : Prop :=
  mgGet t "required" = none ∨ ∃ R, mgGet t "required" = some (.plain (.arr R))

/-- The `properties` slot of a `Merged` is absent or a container — the
only shapes standard sources can produce. -/
def propsShapeOK (t : Merged) : Prop :=
  mgGet t "properties" = none ∨ ∃ P, mgGet t "properties" = some (.props P)

/-- A merged accumulator with duplicate-free keys whose container values
sit only at the `properties` key — the shape every merge run maintains
from the empty accumulator. -/
def mergedOK (m : Merged) : Prop :=
  (m.map Prod.fst).Nodup ∧ ∀ kv ∈ m, ∀ P : HObj, kv.2 = MVal.props P → kv.1 = "properties"

/-- Standard schema fields: any `properties` entry is a truthy object,
and any `required` entry is an array. -/
def stdEntries (l : HObj) : Prop :=
  ∀ kv ∈ l, (kv.1 = "properties" → htruthy kv.2 = true ∧ hIsObj kv.2 = true) ∧
    (kv.1 = "required" → ∃ rl, kv.2 = HVal.arr rl)

/-- Field lists with no repeated key. -/
def nodupKeys (l : HObj) : Prop := (l.map Prod.fst).Nodup

/-- Does the object at `id` carry a nonempty-array `allOf` (the only
shape `flattenAllOf` descends into)? -/
def isABid (heap : Heap) (id : Nat) : Bool :=
  match getFH (heapGet heap id) "allOf" with
  | some (.arr l) => !l.isEmpty
  | _ => false

/-- The ids of `allOf`-bearing objects: the possible flatten targets. -/
def allOfBearing (heap : Heap) : Finset Nat :=
  (Finset.range heap.length).filter (fun id => isABid heap id = true)

/-- The recursion measure of `flattenAllOf`: flatten targets not yet in
the active set. -/
def flattenMeasure (heap : Heap) (active : List Nat) : Nat :=
  ((allOfBearing heap) \ active.toFinset).card

/-- The properties-map hygiene condition of the `allOf` termination
theorem, the shape every real schema document has: a `properties` value
is a plain object (never an inline array), and the properties-map node
carries neither an `allOf` nor a `properties` field of its own (property
names inside a `properties` map are arbitrary, but the map node itself is
not a schema), so the freshly merged properties containers are never
flatten targets and the condition survives the run. -/
def propsValOK (heap : Heap) (v : HVal) : Prop :=
  (∀ l, v ≠ HVal.arr l) ∧
  (∀ pid, v = HVal.ref pid →
    getFH (heapGet heap pid) "allOf" = none ∧
    getFH (heapGet heap pid) "properties" = none)

/-- See `propsValOK`: every `properties` entry of every object is a
hygienic properties value. -/
def heapPropsOK (heap : Heap) : Prop :=
  ∀ id, ∀ kv ∈ heapGet heap id, kv.1 = "properties" → propsValOK heap kv.2

/-- The merge accumulator's `properties` slot stays hygienic: a container
never carries an `allOf` or `properties` field of its own, and a plain
slot value is never a truthy object (those become containers). -/
def contFree (t : Merged) : Prop :=
  (∀ P : HObj, mgGet t "properties" = some (MVal.props P) →
    getFH P "allOf" = none ∧ getFH P "properties" = none) ∧
  (∀ v : HVal, mgGet t "properties" = some (MVal.plain v) →
    (htruthy v && hIsObj v) = false)

mutual

/-- The truthy string `$ref` values occurring in a tree (the pointers
the dereferencer can ever follow). -/
def refsJ : Json → List String
  | .arr l => refsJL l
  | .obj es =>
    (match getF es "$ref" with
     | some (.str r) => if r ≠ "" then [r] else []
     | _ => []) ++ refsJE es
  | _ => []

/-- `refsJ` over array elements. -/
def refsJL : List Json → List String
  | [] => []
  | x :: xs => refsJ x ++ refsJL xs

/-- `refsJ` over object entries. -/
def refsJE : List (String × Json) → List String
  | [] => []
  | (_, v) :: rest => refsJ v ++ refsJE rest

end

mutual

/-- The number of reference nodes in a tree (the dereferencer's
rewriting work). -/
def wJ : Json → Nat
  | .arr l => wJL l
  | .obj es => (if isRefNode (.obj es) then 1 else 0) + wJE es
  | _ => 0

/-- `wJ` over array elements. -/
def wJL : List Json → Nat
  | [] => 0
  | x :: xs => wJ x + wJL xs

/-- `wJ` over object entries. -/
def wJE : List (String × Json) → Nat
  | [] => 0
  | (_, v) :: rest => wJ v + wJE rest

end

/-- A fuel sufficient for `dereferenceSwagger2` on any document: one
reference-following step per distinct pointer, times the reference-node
count, plus slack. -/
def derefBound (spec : Json) : Nat :=
  ((refsJ spec).toFinset.card + 1) * (wJ spec + 1) + 1

/-! ### Helper lemmas -/

theorem getF_setF_self (es : List (String × Json)) (k : String) (v : Json) :
    getF (setF es k v) k = some v := by
  induction es with
  | nil => simp [setF, getF]
  | cons hd tl ih =>
    obtain ⟨k', v'⟩ := hd
    by_cases h : k' = k <;> simp [setF, getF, h, ih]

theorem getF_setF_other (es : List (String × Json)) (k k' : String) (v : Json)
    (h : k' ≠ k) : getF (setF es k v) k' = getF es k' := by
  induction es with
  | nil => simp [setF, getF, Ne.symm h]
  | cons hd tl ih =>
    obtain ⟨k2, v2⟩ := hd
    by_cases h2 : k2 = k
    · subst h2
      simp [setF, getF, Ne.symm h]
    · simp [setF, getF, h2, ih]

theorem getF_delF_self (es : List (String × Json)) (k : String) :
    getF (delF es k) k = none := by
  induction es with
  | nil => simp [delF, getF]
  | cons hd tl ih =>
    obtain ⟨k2, v2⟩ := hd
    by_cases h2 : k2 = k <;> simp [delF, getF, h2, ih]

theorem getF_delF_other (es : List (String × Json)) (k k' : String)
    (h : k' ≠ k) : getF (delF es k) k' = getF es k' := by
  induction es with
  | nil => simp [delF, getF]
  | cons hd tl ih =>
    obtain ⟨k2, v2⟩ := hd
    by_cases h2 : k2 = k
    · subst h2
      simp [delF, getF, Ne.symm h, ih]
    · simp [delF, getF, h2, ih]

theorem delF_of_getF_none (es : List (String × Json)) (k : String)
    (h : getF es k = none) : delF es k = es := by
  induction es with
  | nil => simp [delF]
  | cons hd tl ih =>
    obtain ⟨k2, v2⟩ := hd
    by_cases h2 : k2 = k
    · subst h2
      simp [getF] at h
    · simp [getF, h2] at h
      simp [delF, h2, ih h]

theorem jsGet_arr_nonindex (l : List Json) (k : String) (hl : ¬ k = "length")
    (hc : canonIndex k = none) : jsGet (Json.arr l) k = none := by
  simp [jsGet, hl, hc]

theorem jsGet_str_nonindex (s : String) (k : String) (hl : ¬ k = "length")
    (hc : canonIndex k = none) : jsGet (Json.str s) k = none := by
  simp [jsGet, hl, hc]

/-- C9: if `sanitizeSwagger2` is called with `options.strict === false`,
or with a null or non-object spec, it returns its argument unchanged (no
sanitization body runs), for every possible sanitization body. -/
theorem spec2proof_C9 (body : Json → Json → Json) (spec options : Json)
    (h : jsGet options "strict" = some (Json.bool false) ∨ spec = Json.null ∨
      isObjJS spec = false) :
    sanitizeSwagger2 body spec options = spec := by
  rcases h with h | h | h
  · cases options with
    | obj es => simp [sanitizeSwagger2, truthy, jsGet] at h ⊢; simp [h, truthy]
    | arr l =>
      rw [jsGet_arr_nonindex _ _ (by decide) (by decide)] at h
      cases h
    | null => simp [jsGet] at h
    | bool b => simp [jsGet] at h
    | num n => simp [jsGet] at h
    | str s =>
      rw [jsGet_str_nonindex _ _ (by decide) (by decide)] at h
      cases h
  · subst h
    simp [sanitizeSwagger2, truthy]
  · simp [sanitizeSwagger2, h]

/-- Witness for C9 at a concrete input. -/
theorem spec2proof_C9_witness :
    jsGet (Json.obj [("strict", Json.bool false)]) "strict" = some (Json.bool false) ∧
    sanitizeSwagger2 (fun _ _ => Json.obj []) (Json.obj [("a", Json.num 1)])
      (Json.obj [("strict", Json.bool false)]) = Json.obj [("a", Json.num 1)] :=
  ⟨rfl, spec2proof_C9 _ _ _ (Or.inl rfl)⟩

/-- The `forEach` walk of `resolveReference` only ever fails with a
TypeError, never with the external-reference error. -/
theorem refWalk_ne_external (keys : List String) (cur : Option Json) :
    refWalk keys cur ≠ .error .external := by
  induction keys generalizing cur with
  | nil => simp [refWalk]
  | cons k rest ih =>
    match cur with
    | none => simp [refWalk]
    | some .null => simp [refWalk]
    | some (.bool b) => simpa [refWalk] using ih _
    | some (.num n) => simpa [refWalk] using ih _
    | some (.str s) => simpa [refWalk] using ih _
    | some (.arr l) => simpa [refWalk] using ih _
    | some (.obj es) => simpa [refWalk] using ih _

/-- C3, counterexample.  The claim says `resolveReference` raises exactly
when the node has a `$ref` not starting with `#`; but on the node
`{$ref: "#/a/b"}` over the empty base the pointer does start with `#`
and the walk still raises, a TypeError at the second lookup
(`cur = cur[key]` with `cur` undefined). -/
theorem spec2proof_C3_counterexample :
    strStartsWith "#/a/b" "#" = true ∧
    resolveReference (Json.obj []) (some (Json.obj [("$ref", Json.str "#/a/b")])) true =
      .error .typeError := by
  exact ⟨by decide, by decide⟩

/-- C3, amended.  `resolveReference` raises the external-reference error
exactly when the node is truthy with a truthy string `$ref` that does not
start with `#`; a local pointer can still raise a TypeError when an
intermediate lookup lands on undefined or null.  The sanitizer-side
`resolveRef` is a total function (never raises) and returns null on every
failure: non-object root, non-string ref, pointer not starting with `#/`,
missing or non-object intermediate, and falsy final value. -/
theorem spec2proof_C3_amended (base o root ref : Json) (c : Bool) (s : String) :
    (resolveReference base (some o) c = .error .external ↔
      truthy o = true ∧ ∃ r, jsGet o "$ref" = some (Json.str r) ∧
        truthy (Json.str r) = true ∧ strStartsWith r "#" = false)
    ∧ (truthy root = false ∨ isObjJS root = false → resolveRef root ref = Json.null)
    ∧ ((∀ r, ref ≠ Json.str r) → resolveRef root ref = Json.null)
    ∧ (strStartsWith s "#/" = false → resolveRef root (Json.str s) = Json.null)
    ∧ (resolveRefParts ((strSplitOn (strDrop s 2) "/").map ptrUnescape) (some root) = none →
        resolveRef root (Json.str s) = Json.null)
    ∧ (∀ v, resolveRefParts ((strSplitOn (strDrop s 2) "/").map ptrUnescape) (some root) = some v →
        truthy v = false → resolveRef root (Json.str s) = Json.null) := by
  refine ⟨?_, ?_, ?_, ?_, ?_, ?_⟩
  · constructor
    · intro h
      unfold resolveReference at h
      by_cases ho : truthy o
      · simp only [ho, Bool.not_true, Bool.false_eq_true, if_false] at h
        match hg : jsGet o "$ref" with
        | none => rw [hg] at h; exact absurd h (by simp)
        | some refv =>
          rw [hg] at h
          by_cases hr : truthy refv
          · simp only [hr, Bool.not_true, Bool.false_eq_true, if_false] at h
            match refv with
            | .str r =>
              have h2 : (if strStartsWith r "#" = true then
                  refWalk (((strSplitOn r "/").map ptrUnescape).drop 1) (some base)
                  else (.error .external : Except JsErr (Option Json))) = .error .external := h
              by_cases hsw : strStartsWith r "#"
              · rw [if_pos hsw] at h2
                exact absurd h2 (refWalk_ne_external _ _)
              · exact ⟨ho, r, rfl, hr, by simpa using hsw⟩
            | .null =>
              have h2 : (.error .typeError : Except JsErr (Option Json)) = .error .external := h
              exact absurd h2 (by decide)
            | .bool b =>
              have h2 : (.error .typeError : Except JsErr (Option Json)) = .error .external := h
              exact absurd h2 (by decide)
            | .num n =>
              have h2 : (.error .typeError : Except JsErr (Option Json)) = .error .external := h
              exact absurd h2 (by decide)
            | .arr l =>
              have h2 : (.error .typeError : Except JsErr (Option Json)) = .error .external := h
              exact absurd h2 (by decide)
            | .obj es =>
              have h2 : (.error .typeError : Except JsErr (Option Json)) = .error .external := h
              exact absurd h2 (by decide)
          · simp [hr] at h
      · simp [ho] at h
    · rintro ⟨ho, r, hg, hr, hsw⟩
      unfold resolveReference
      simp [ho, hg, hr, hsw]
  · intro h
    unfold resolveRef
    have : (truthy root && isObjJS root) = false := by
      rcases h with h | h <;> simp [h]
    simp [this]
  · intro h
    unfold resolveRef
    match ref with
    | .null => simp
    | .bool b => simp
    | .num n => simp
    | .arr l => simp
    | .obj es => simp
    | .str r => exact absurd rfl (h r)
  · intro h
    unfold resolveRef
    by_cases hroot : (truthy root && isObjJS root) = true
    · by_cases hs : s = ""
      · simp [hroot, hs]
      · simp [hroot, hs, h]
    · have hc : (truthy root && isObjJS root) = false := by
        rcases Bool.eq_false_or_eq_true (truthy root && isObjJS root) with hc | hc
        · exact absurd hc hroot
        · exact hc
      simp [hc]
  · intro h
    unfold resolveRef
    by_cases hroot : (truthy root && isObjJS root) = true
    · by_cases hs : s = ""
      · simp [hroot, hs]
      · by_cases hsw : strStartsWith s "#/"
        · simp [hroot, hs, hsw, h]
        · simp [hroot, hs, hsw]
    · have hc : (truthy root && isObjJS root) = false := by
        rcases Bool.eq_false_or_eq_true (truthy root && isObjJS root) with hc | hc
        · exact absurd hc hroot
        · exact hc
      simp [hc]
  · intro v hv htr
    unfold resolveRef
    by_cases hroot : (truthy root && isObjJS root) = true
    · by_cases hs : s = ""
      · simp [hroot, hs]
      · by_cases hsw : strStartsWith s "#/"
        · simp [hroot, hs, hsw, hv, htr]
        · simp [hroot, hs, hsw]
    · have hc : (truthy root && isObjJS root) = false := by
        rcases Bool.eq_false_or_eq_true (truthy root && isObjJS root) with hc | hc
        · exact absurd hc hroot
        · exact hc
      simp [hc]

/-- C3, witness for the amended theorem at concrete inputs: an external
ref raises the external error; each failure mode of `resolveRef` yields
null. -/
theorem spec2proof_C3_amended_witness :
    resolveReference (Json.obj []) (some (Json.obj [("$ref", Json.str "http://x")])) true =
        .error .external
    ∧ resolveRef Json.null (Json.str "#/a") = Json.null
    ∧ resolveRef (Json.obj [("a", Json.num 1)]) (Json.num 3) = Json.null
    ∧ resolveRef (Json.obj [("a", Json.num 1)]) (Json.str "a") = Json.null
    ∧ resolveRef (Json.obj [("a", Json.num 1)]) (Json.str "#/b/c") = Json.null
    ∧ resolveRef (Json.obj [("a", Json.num 0)]) (Json.str "#/a") = Json.null := by
  refine ⟨?_, ?_, ?_, ?_, ?_, ?_⟩
  · exact (spec2proof_C3_amended (Json.obj []) (Json.obj [("$ref", Json.str "http://x")])
      Json.null Json.null true "").1.mpr ⟨by decide, "http://x", by decide, by decide, by decide⟩
  · exact (spec2proof_C3_amended Json.null Json.null Json.null (Json.str "#/a") true "").2.1
      (Or.inl (by decide))
  · exact (spec2proof_C3_amended Json.null Json.null (Json.obj [("a", Json.num 1)])
      (Json.num 3) true "").2.2.1 (by intro r h; cases h)
  · exact (spec2proof_C3_amended Json.null Json.null (Json.obj [("a", Json.num 1)])
      (Json.num 3) true "a").2.2.2.1 (by decide)
  · exact (spec2proof_C3_amended Json.null Json.null (Json.obj [("a", Json.num 1)])
      (Json.num 3) true "#/b/c").2.2.2.2.1 (by decide)
  · exact (spec2proof_C3_amended Json.null Json.null (Json.obj [("a", Json.num 0)])
      (Json.num 3) true "#/a").2.2.2.2.2 (Json.num 0) (by decide) (by decide)


/-- C5, counterexample.  The claim says the normalizer is a no-op on any
document whose `openapi` does not start with `3.1`; but the truthy
`jsonSchemaDialect` removal runs before the early return, so a 3.0
document carrying that key comes back changed. -/
theorem spec2proof_C5_counterexample :
    strStartsWith (openapiVersionOf (Json.obj [("openapi", Json.str "3.0.0"),
        ("jsonSchemaDialect", Json.str "d")])) "3.1" = false ∧
    normalizeOpenapi31 (fun j _ => (j, []))
        (Json.obj [("openapi", Json.str "3.0.0"), ("jsonSchemaDialect", Json.str "d")]) false =
      .ok (Json.obj [("openapi", Json.str "3.0.0")], []) ∧
    Json.obj [("openapi", Json.str "3.0.0")] ≠
      Json.obj [("openapi", Json.str "3.0.0"), ("jsonSchemaDialect", Json.str "d")] := by
  refine ⟨by decide, by rfl, by decide⟩

/-- C5, amended.  On a non-null document whose `openapi` does not start
with `3.1`, the normalizer leaves the document unchanged except that a
truthy `jsonSchemaDialect` key is deleted (with its warning when warnings
are collected); in particular it is a no-op exactly when
`jsonSchemaDialect` is absent or falsy. -/
theorem spec2proof_C5_amended (walk : Json → Bool → Json × List String) (spec : Json) (cw : Bool)
    (hnn : spec ≠ Json.null)
    (h31 : strStartsWith (openapiVersionOf spec) "3.1" = false) :
    normalizeOpenapi31 walk spec cw =
      .ok (if fieldTruthy spec "jsonSchemaDialect" then
            (jsDel spec "jsonSchemaDialect",
             if cw then ["Removed jsonSchemaDialect (not supported in OpenAPI 3.0)."] else [])
           else (spec, [])) := by
  unfold normalizeOpenapi31
  have hread : jsRead spec "openapi" = .ok (jsGet spec "openapi") := by
    match spec with
    | .null => exact absurd rfl hnn
    | .bool b => rfl
    | .num n => rfl
    | .str s => rfl
    | .arr l => rfl
    | .obj es => rfl
  rw [hread]
  simp only [h31, Bind.bind, Except.bind, Bool.false_eq_true, if_false, Bool.not_false]
  by_cases hd : fieldTruthy spec "jsonSchemaDialect"
  · simp only [hd, if_true]
    cases cw <;> rfl
  · simp only [hd, Bool.false_eq_true, if_false]
    rfl

/-- C5, witness for the amended theorem: a plain 2.0 document without the
dialect key passes through untouched. -/
theorem spec2proof_C5_amended_witness :
    normalizeOpenapi31 (fun j _ => (j, [])) (Json.obj [("openapi", Json.str "2.0")]) false =
      .ok (Json.obj [("openapi", Json.str "2.0")], []) := by
  rw [spec2proof_C5_amended (fun j _ => (j, [])) (Json.obj [("openapi", Json.str "2.0")]) false
    (by decide) (by decide)]
  decide


/-- On a truthy object or array `info` value, the title/version fixing of
`finalizeSwaggerSpec` succeeds, returns a truthy value, and when that
value is an object both its `title` and `version` are truthy. -/
theorem finalizeInfoFix_ok (info : Json) (h : truthy info = true)
    (hobj : isObjJS info = true) :
    ∃ out, finalizeInfoFix info = .ok out ∧ truthy out = true ∧
      (∀ ies2, out = Json.obj ies2 →
        (∃ t, getF ies2 "title" = some t ∧ truthy t = true) ∧
        (∃ v, getF ies2 "version" = some v ∧ truthy v = true)) := by
  match info with
  | .null => cases h
  | .bool b => simp [isObjJS] at hobj
  | .num n => simp [isObjJS] at hobj
  | .str t => simp [isObjJS] at hobj
  | .arr l => exact ⟨.arr l, rfl, rfl, by intro ies2 hh; cases hh⟩
  | .obj ies =>
    have hnt : truthy (match getF ies "title" with
        | some v => if truthy v = true then v else Json.str "API"
        | none => Json.str "API") = true := by
      rcases getF ies "title" with _ | t
      · decide
      · by_cases ht : truthy t = true
        · simpa [ht]
        · simp [ht]
          decide
    have hnv : ∀ l2 : List (String × Json), truthy (match getF l2 "version" with
        | some v => if truthy v = true then v else Json.str "0.0.0"
        | none => Json.str "0.0.0") = true := by
      intro l2
      rcases getF l2 "version" with _ | t
      · decide
      · by_cases ht : truthy t = true
        · simpa [ht]
        · simp [ht]
          decide
    refine ⟨_, rfl, rfl, ?_⟩
    intro ies2 hh
    injection hh with h2
    subst h2
    simp only [jsGet]
    constructor
    · refine ⟨(match getF ies "title" with
        | some v => if truthy v = true then v else Json.str "API"
        | none => Json.str "API"), ?_, hnt⟩
      rw [getF_setF_other _ _ _ _ (by decide), getF_setF_self]
    · refine ⟨(match getF (setF ies "title" (match getF ies "title" with
          | some v => if truthy v = true then v else Json.str "API"
          | none => Json.str "API")) "version" with
        | some v => if truthy v = true then v else Json.str "0.0.0"
        | none => Json.str "0.0.0"), ?_, hnv _⟩
      rw [getF_setF_self]

/-- On a truthy `info` value that is neither an object nor an array, the
strict-mode title write of `finalizeSwaggerSpec` throws a TypeError. -/
theorem finalizeInfoFix_prim (info : Json) (h : truthy info = true)
    (hobj : isObjJS info = false) :
    finalizeInfoFix info = .error .typeError := by
  match info with
  | .null => exact absurd h (by decide)
  | .bool b => rfl
  | .num n => rfl
  | .str t => rfl
  | .arr l => simp [isObjJS] at hobj
  | .obj ies => simp [isObjJS] at hobj

/-- C10, counterexample.  The claim says the result always has a `paths`
object; but `output.paths = output.paths || {}` keeps any truthy value,
so a numeric `paths` survives; on an array input every named write is
invisible in the JSON view, so not even `swagger: "2.0"` is present; and
the worker is an ES module (strict-mode code), so an object input with a
truthy primitive `info` makes `output.info.title = …` throw a TypeError
instead of returning an object at all. -/
theorem spec2proof_C10_counterexample :
    finalizeSwaggerSpec (Json.obj [("paths", Json.num 5)]) =
      .ok (Json.obj [("paths", Json.num 5), ("swagger", Json.str "2.0"),
        ("info", Json.obj [("title", Json.str "API"), ("version", Json.str "0.0.0")])]) ∧
    isObjJS (Json.num 5) = false ∧
    finalizeSwaggerSpec (Json.arr []) = .ok (Json.arr []) ∧
    jsGet (Json.arr []) "swagger" = none ∧
    finalizeSwaggerSpec (Json.obj [("info", Json.num 5)]) = .error .typeError := by
  exact ⟨by rfl, by decide, by rfl, by decide, by rfl⟩

/-- C10, amended.  A falsy or non-object input is replaced by the fresh
default document.  An array input is returned unchanged in the JSON view
(named writes are dropped there).  An object input whose `info` is truthy
but neither an object nor an array makes the strict-mode
`output.info.title` write throw a TypeError.  Every other object input
keeps its identity and gains `swagger = "2.0"`; its `info` is truthy, and
when `info` is an object its `title` and `version` are truthy; its
`paths` is truthy but not necessarily an object (a truthy non-object
`paths` is kept as-is); every key other than `swagger`, `info` and
`paths` is left unchanged. -/
theorem spec2proof_C10_amended (spec : Json) :
    (truthy spec = false ∨ isObjJS spec = false →
      finalizeSwaggerSpec spec = .ok (Json.obj [("swagger", Json.str "2.0"),
        ("info", Json.obj [("title", Json.str "API"), ("version", Json.str "0.0.0")]),
        ("paths", Json.obj [])]))
    ∧ (∀ l, spec = Json.arr l → finalizeSwaggerSpec spec = .ok (Json.arr l))
    ∧ (∀ es info, spec = Json.obj es → getF es "info" = some info →
        truthy info = true → isObjJS info = false →
        finalizeSwaggerSpec spec = .error .typeError)
    ∧ (∀ es, spec = Json.obj es →
        (∀ info, getF es "info" = some info → truthy info = true → isObjJS info = true) →
        ∃ res, finalizeSwaggerSpec spec = .ok (Json.obj res) ∧
          getF res "swagger" = some (Json.str "2.0") ∧
          (∃ info, getF res "info" = some info ∧ truthy info = true ∧
            (∀ ies, info = Json.obj ies →
              (∃ t, getF ies "title" = some t ∧ truthy t = true) ∧
              (∃ v, getF ies "version" = some v ∧ truthy v = true))) ∧
          (∃ p, getF res "paths" = some p ∧ truthy p = true) ∧
          (∀ k, ¬ k = "swagger" → ¬ k = "info" → ¬ k = "paths" →
            getF res k = getF es k)) := by
  refine ⟨?_, ?_, ?_, ?_⟩
  · intro h
    have hc : (truthy spec && isObjJS spec) = false := by
      rcases h with h | h <;> simp [h]
    unfold finalizeSwaggerSpec
    rw [hc]
    rfl
  · intro l hl
    subst hl
    rfl
  · intro es info hes hinfo htr hobj
    subst hes
    have hfix := finalizeInfoFix_prim info htr hobj
    have hread : getF (setF es "swagger" (Json.str "2.0")) "info" = some info := by
      rw [getF_setF_other _ _ _ _ (by decide)]
      exact hinfo
    unfold finalizeSwaggerSpec
    dsimp only []
    rw [show (truthy (Json.obj es) && isObjJS (Json.obj es)) = true from rfl]
    simp only [reduceIte, Bind.bind, Except.bind, jsSet, jsGet]
    rw [hread]
    try simp only [Option.getD_some]
    rw [if_pos htr]
    try simp only [jsGet]
    try rw [getF_setF_self]
    try simp only [Option.getD_some]
    rw [hfix]
  · intro es hes hinfos
    subst hes
    set es1 := setF es "swagger" (Json.str "2.0") with hes1
    set infoRead := (getF es1 "info").getD Json.null with hIR
    set info1 := if truthy infoRead = true then infoRead
      else Json.obj [("title", Json.str "API"), ("version", Json.str "0.0.0")] with hI1
    set es2 := setF es1 "info" info1 with hes2
    have hti : truthy info1 = true := by
      rw [hI1]
      by_cases h : truthy infoRead = true
      · simpa [h]
      · rw [if_neg h]
        rfl
    have hio : isObjJS info1 = true := by
      rw [hI1]
      by_cases h : truthy infoRead = true
      · rw [if_pos h]
        rcases hg : getF es "info" with _ | info0
        · rw [hIR, hes1, getF_setF_other _ _ _ _ (by decide), hg] at h
          exact absurd h (by decide)
        · have : infoRead = info0 := by
            rw [hIR, hes1, getF_setF_other _ _ _ _ (by decide), hg]
            rfl
          rw [this]
          rw [this] at h
          exact hinfos info0 hg h
      · rw [if_neg h]
        rfl
    obtain ⟨info3, hfix, htr3, hprops⟩ := finalizeInfoFix_ok info1 hti hio
    have hstep : finalizeSwaggerSpec (Json.obj es) =
        (finalizeInfoFix ((getF es2 "info").getD info1) >>= fun i3 =>
          jsSet (Json.obj es2) "info" i3 >>= fun output =>
          jsRead output "paths" >>= fun pathsOpt =>
          jsSet output "paths" (match pathsOpt with
            | some v => if truthy v = true then v else Json.obj []
            | none => Json.obj [])) := by
      rw [hes2, hes1, hI1, hIR]
      rfl
    rw [hes2] at hstep
    rw [getF_setF_self, Option.getD_some, hfix] at hstep
    simp only [Bind.bind, Except.bind, jsSet, jsRead, jsGet] at hstep
    refine ⟨_, hstep, ?_, ?_, ?_, ?_⟩
    · rw [getF_setF_other _ _ _ _ (by decide), getF_setF_other _ _ _ _ (by decide),
        getF_setF_other _ _ _ _ (by decide), hes1, getF_setF_self]
    · refine ⟨info3, ?_, htr3, hprops⟩
      rw [getF_setF_other _ _ _ _ (by decide), getF_setF_self]
    · refine ⟨_, getF_setF_self _ _ _, ?_⟩
      rcases hp : getF (setF (setF es1 "info" info1) "info" info3) "paths" with _ | p
      · rfl
      · show truthy (if truthy p = true then p else Json.obj []) = true
        by_cases ht : truthy p = true
        · simpa [ht]
        · rw [if_neg ht]
          rfl
    · intro k h1 h2 h3
      rw [getF_setF_other _ _ _ _ h3, getF_setF_other _ _ _ _ h2,
        getF_setF_other _ _ _ _ h2, hes1, getF_setF_other _ _ _ _ h1]


/-- C10, witness for the amended theorem: the null input yields the fresh
default document, an array passes through unchanged, a truthy primitive
`info` raises the strict-mode TypeError, and an object input gains
`swagger` while keeping its other keys. -/
theorem spec2proof_C10_amended_witness :
    finalizeSwaggerSpec Json.null = .ok (Json.obj [("swagger", Json.str "2.0"),
      ("info", Json.obj [("title", Json.str "API"), ("version", Json.str "0.0.0")]),
      ("paths", Json.obj [])]) ∧
    finalizeSwaggerSpec (Json.arr [Json.num 1]) = .ok (Json.arr [Json.num 1]) ∧
    finalizeSwaggerSpec (Json.obj [("info", Json.str "x")]) = .error .typeError ∧
    (∃ res, finalizeSwaggerSpec (Json.obj [("a", Json.num 7)]) = .ok (Json.obj res) ∧
      getF res "swagger" = some (Json.str "2.0") ∧
      getF res "a" = getF [("a", Json.num 7)] "a") := by
  refine ⟨(spec2proof_C10_amended Json.null).1 (Or.inl (by decide)),
    (spec2proof_C10_amended (Json.arr [Json.num 1])).2.1 [Json.num 1] rfl,
    (spec2proof_C10_amended (Json.obj [("info", Json.str "x")])).2.2.1
      [("info", Json.str "x")] (Json.str "x") rfl (by decide) (by decide) (by decide), ?_⟩
  obtain ⟨res, h1, h2, _, _, h5⟩ :=
    (spec2proof_C10_amended (Json.obj [("a", Json.num 7)])).2.2.2 [("a", Json.num 7)] rfl
      (by intro info hg; cases hg)
  exact ⟨res, h1, h2, h5 "a" (by decide) (by decide) (by decide)⟩

/-- After the final two deletions of `convertParam`, neither `style` nor
`explode` is readable from the result, whatever shape the parameter
had. -/
theorem style_explode_after_del (q : Json) :
    jsGet (jsDel (jsDel q "style") "explode") "style" = none ∧
    jsGet (jsDel (jsDel q "style") "explode") "explode" = none := by
  match q with
  | .obj es =>
    constructor
    · show getF (delF (delF es "style") "explode") "style" = none
      rw [getF_delF_other _ _ _ (by decide), getF_delF_self]
    · show getF (delF (delF es "style") "explode") "explode" = none
      rw [getF_delF_self]
  | .arr l =>
    exact ⟨jsGet_arr_nonindex l "style" (by decide) (by decide),
      jsGet_arr_nonindex l "explode" (by decide) (by decide)⟩
  | .str t =>
    exact ⟨jsGet_str_nonindex t "style" (by decide) (by decide),
      jsGet_str_nonindex t "explode" (by decide) (by decide)⟩
  | .null => exact ⟨rfl, rfl⟩
  | .bool b => exact ⟨rfl, rfl⟩
  | .num n => exact ⟨rfl, rfl⟩

/-- C6, counterexample.  The claim treats any unrecognized style as
`form`, which for this query parameter would produce
`collectionFormat: "multi"`; the code's if/else chain has no final else,
so an unrecognized style assigns nothing and the key is simply absent. -/
theorem spec2proof_C6_counterexample :
    convertParam (Json.obj []) (Json.obj [("in", Json.str "query"), ("type", Json.str "array"),
        ("style", Json.str "zigzag")]) =
      .ok (Json.obj [("in", Json.str "query"), ("type", Json.str "array")]) ∧
    jsGet (Json.obj [("in", Json.str "query"), ("type", Json.str "array")])
        "collectionFormat" = none := by
  exact ⟨by rfl, by decide⟩

/-- The `collectionFormat` verdict of `applyCollectionFormat` on an
array-typed parameter object equals the fixed style table's verdict on
the effective style; a style outside the table leaves the parameter
untouched. -/
theorem acf_table (es : List (String × Json))
    (htype : getF es "type" = some (Json.str "array")) :
    applyCollectionFormat (Json.obj es) =
      .ok (match styleToCollectionFormat (effectiveStyleJS (Json.obj es)) (getF es "explode") with
        | some (some v) => Json.obj (setF es "collectionFormat" (Json.str v))
        | some none => Json.obj (delF es "collectionFormat")
        | none => Json.obj es) := by
  unfold applyCollectionFormat
  rw [if_pos (show jsGet (Json.obj es) "type" = some (Json.str "array") from htype)]
  simp only [jsGet]
  generalize effectiveStyleJS (Json.obj es) = S
  unfold styleToCollectionFormat
  by_cases h1 : S = Json.str "matrix"
  · subst h1
    by_cases hOT : optTruthy (getF es "explode") = true
    · simp [hOT, jsSetOpt, jsSet, jsDel]
    · rw [Bool.not_eq_true] at hOT
      simp [hOT, jsSetOpt, jsSet, jsDel]
  · rw [if_neg h1, if_neg h1]
    by_cases h2 : S = Json.str "label"
    · subst h2
      simp [jsSetOpt, jsDel]
    · rw [if_neg h2, if_neg h2]
      by_cases h3 : S = Json.str "simple"
      · subst h3
        simp [jsSet]
      · rw [if_neg h3, if_neg h3]
        by_cases h4 : S = Json.str "spaceDelimited"
        · subst h4
          simp [jsSet]
        · rw [if_neg h4, if_neg h4]
          by_cases h5 : S = Json.str "pipeDelimited"
          · subst h5
            simp [jsSet]
          · rw [if_neg h5, if_neg h5]
            by_cases h6 : S = Json.str "deepOpbject"
            · subst h6
              simp [jsSet]
            · rw [if_neg h6, if_neg h6]
              by_cases h7 : S = Json.str "form"
              · subst h7
                by_cases h8 : getF es "explode" = some (Json.bool false) <;> simp [h8, jsSet]
              · rw [if_neg h7, if_neg h7]
                rfl

/-- C6, amended.  For an array-typed parameter object the
`collectionFormat` written is exactly the fixed table's verdict on the
effective style (truthy `style`, else `form` for query/cookie and
`simple` otherwise): `simple`/`matrix`-unexploded → `csv`,
`spaceDelimited` → `ssv`, `pipeDelimited` → `pipes`, `deepOpbject` →
`multi`, `form` → `multi` (`csv` when `explode === false`),
`label`/`matrix`-exploded → key removed; a style outside the table leaves
the parameter untouched instead of being treated as `form`.  `style` and
`explode` are deleted afterward unconditionally. -/
theorem spec2proof_C6_amended (es : List (String × Json)) :
    (getF es "type" = some (Json.str "array") →
      applyCollectionFormat (Json.obj es) =
        .ok (match styleToCollectionFormat (effectiveStyleJS (Json.obj es)) (getF es "explode") with
          | some (some v) => Json.obj (setF es "collectionFormat" (Json.str v))
          | some none => Json.obj (delF es "collectionFormat")
          | none => Json.obj es))
    ∧ (∀ sp p j, convertParam sp p = .ok j →
        jsGet j "style" = none ∧ jsGet j "explode" = none) := by
  constructor
  · exact acf_table es
  · intro sp p j h
    unfold convertParam at h
    cases hc : convertParamCore sp p with
    | error e =>
      rw [hc] at h
      exact absurd h (by simp [Bind.bind, Except.bind])
    | ok q =>
      rw [hc] at h
      simp only [Bind.bind, Except.bind, pure, Except.pure] at h
      cases h
      exact style_explode_after_del q

/-- C6, witness.  The claim example: a query array parameter styled
`spaceDelimited` converts to `collectionFormat: "ssv"` with `style`
removed; and the amended equation instantiated on it. -/
theorem spec2proof_C6_amended_witness :
    applyCollectionFormat (Json.obj [("in", Json.str "query"), ("type", Json.str "array"),
        ("style", Json.str "spaceDelimited")]) =
      .ok (Json.obj [("in", Json.str "query"), ("type", Json.str "array"),
        ("style", Json.str "spaceDelimited"), ("collectionFormat", Json.str "ssv")]) ∧
    jsGet (Json.obj [("in", Json.str "query"), ("type", Json.str "array"),
        ("collectionFormat", Json.str "ssv")]) "style" = none := by
  constructor
  · rw [(spec2proof_C6_amended [("in", Json.str "query"), ("type", Json.str "array"),
      ("style", Json.str "spaceDelimited")]).1 (by decide)]
    decide
  · exact ((spec2proof_C6_amended []).2 (Json.obj []) (Json.obj [("in", Json.str "query"),
      ("type", Json.str "array"), ("style", Json.str "spaceDelimited")])
      (Json.obj [("in", Json.str "query"), ("type", Json.str "array"),
        ("collectionFormat", Json.str "ssv")]) (by rfl)).1


/-- C4, counterexample.  One conversion turns the `spaceDelimited` array
query parameter into `collectionFormat: "ssv"` and deletes `style`; a
second run sees an array parameter with no `style`, applies the `form`
default for query parameters, and overwrites `collectionFormat` with
`"multi"` — so the second run is not a no-op. -/
theorem spec2proof_C4_counterexample :
    convert (fun _ => none) (Json.obj [("paths", Json.obj [("/p", Json.obj [("get", Json.obj
        [("parameters", Json.arr [Json.obj [("in", Json.str "query"), ("name", Json.str "a"),
          ("type", Json.str "array"), ("style", Json.str "spaceDelimited")]])])])])]) =
      .ok (Json.obj [("paths", Json.obj [("/p", Json.obj [("get", Json.obj
        [("parameters", Json.arr [Json.obj [("in", Json.str "query"), ("name", Json.str "a"),
          ("type", Json.str "array"), ("collectionFormat", Json.str "ssv")]])])])]),
        ("swagger", Json.str "2.0")]) ∧
    convert (fun _ => none) (Json.obj [("paths", Json.obj [("/p", Json.obj [("get", Json.obj
        [("parameters", Json.arr [Json.obj [("in", Json.str "query"), ("name", Json.str "a"),
          ("type", Json.str "array"), ("collectionFormat", Json.str "ssv")]])])])]),
        ("swagger", Json.str "2.0")]) =
      .ok (Json.obj [("paths", Json.obj [("/p", Json.obj [("get", Json.obj
        [("parameters", Json.arr [Json.obj [("in", Json.str "query"), ("name", Json.str "a"),
          ("type", Json.str "array"), ("collectionFormat", Json.str "multi")]])])])]),
        ("swagger", Json.str "2.0")]) ∧
    Json.obj [("paths", Json.obj [("/p", Json.obj [("get", Json.obj
        [("parameters", Json.arr [Json.obj [("in", Json.str "query"), ("name", Json.str "a"),
          ("type", Json.str "array"), ("collectionFormat", Json.str "multi")]])])])]),
        ("swagger", Json.str "2.0")] ≠
      Json.obj [("paths", Json.obj [("/p", Json.obj [("get", Json.obj
        [("parameters", Json.arr [Json.obj [("in", Json.str "query"), ("name", Json.str "a"),
          ("type", Json.str "array"), ("collectionFormat", Json.str "ssv")]])])])]),
        ("swagger", Json.str "2.0")] := by
  exact ⟨by rfl, by rfl, by decide⟩

/-- Under the hypotheses that a parameter object carries no `$ref`,
`schema`, `allowReserved` or `example` key — the state in which the
converter's own first run leaves its parameters — the core of
`convertParam` reduces to the `collectionFormat` table alone. -/
theorem convertParamCore_noops (sp : Json) (es : List (String × Json))
    (href : getF es "$ref" = none)
    (hschema : getF es "schema" = none)
    (hallow : getF es "allowReserved" = none)
    (hex : getF es "example" = none) :
    convertParamCore sp (Json.obj es) = applyCollectionFormat (Json.obj es) := by
  have hres : resolveReference sp (some (Json.obj es)) false = .ok (some (Json.obj es)) := by
    unfold resolveReference
    simp [jsGet, href, truthy]
  have hrrT : resolveReference sp none true = .ok none := rfl
  have hcsp : ∀ props, copySchemaProperties sp (Json.obj es) props = .ok (Json.obj es) := by
    intro props
    unfold copySchemaProperties
    rw [show jsGet (Json.obj es) "schema" = none from hschema, hrrT]
    rfl
  have hcspx : copySchemaXProperties sp (Json.obj es) = .ok (Json.obj es) := by
    unfold copySchemaXProperties
    rw [show jsGet (Json.obj es) "schema" = none from hschema, hrrT]
    rfl
  unfold convertParamCore
  rw [hres]
  simp only [Bind.bind, Except.bind, jsRead]
  by_cases hin : getF es "in" = some (Json.str "body")
  · rw [show jsGet (Json.obj es) "in" = some (Json.str "body") from hin]
    simp only [ne_eq, not_true_eq_false, if_false, reduceIte]
    rfl
  · have hne : jsGet (Json.obj es) "in" ≠ some (Json.str "body") := hin
    rw [if_pos hne]
    rw [hcsp]
    simp only [Bind.bind, Except.bind]
    rw [hcsp]
    simp only [Bind.bind, Except.bind]
    rw [hcspx]
    simp only [Bind.bind, Except.bind]
    by_cases hdesc : fieldTruthy (Json.obj es) "description" = true
    · rw [hdesc]
      simp only [Bool.not_true, Bool.false_eq_true, if_false, Bind.bind, Except.bind]
      simp only [pure, Except.pure, jsDel]
      rw [delF_of_getF_none _ _ hschema, delF_of_getF_none _ _ hallow,
        show jsGet (Json.obj es) "example" = none from hex, delF_of_getF_none _ _ hex]
    · have hdesc2 : fieldTruthy (Json.obj es) "description" = false :=
        Bool.eq_false_iff.mpr hdesc
      rw [hdesc2]
      simp only [Bool.not_false, if_true, Bind.bind, Except.bind]
      rw [show jsGet (Json.obj es) "schema" = none from hschema,
        show resolveReference sp none false = .ok none from rfl]
      simp only [Bind.bind, Except.bind, pure, Except.pure, jsDel]
      rw [delF_of_getF_none _ _ hschema, delF_of_getF_none _ _ hallow,
        show jsGet (Json.obj es) "example" = none from hex, delF_of_getF_none _ _ hex]

/-- C4, amended.  The converter is not idempotent on array parameters
(see the counterexample), but at parameter level a second run is a no-op
on every already-converted non-array parameter: with `$ref`, `schema`,
`allowReserved`, `example`, `style` and `explode` absent, a non-array
parameter passes through unchanged, while an array query/cookie parameter
has its `collectionFormat` overwritten with `"multi"` via the `form`
default. -/
theorem spec2proof_C4_amended (sp : Json) (es : List (String × Json))
    (href : getF es "$ref" = none)
    (hschema : getF es "schema" = none)
    (hallow : getF es "allowReserved" = none)
    (hex : getF es "example" = none)
    (hstyle : getF es "style" = none)
    (hexp : getF es "explode" = none) :
    (¬ getF es "type" = some (Json.str "array") →
      convertParam sp (Json.obj es) = .ok (Json.obj es))
    ∧ (getF es "type" = some (Json.str "array") →
       (getF es "in" = some (Json.str "query") ∨ getF es "in" = some (Json.str "cookie")) →
      convertParam sp (Json.obj es) =
        .ok (Json.obj (setF es "collectionFormat" (Json.str "multi")))) := by
  constructor
  · intro htype
    unfold convertParam
    rw [convertParamCore_noops sp es href hschema hallow hex]
    unfold applyCollectionFormat
    rw [if_neg (show ¬ jsGet (Json.obj es) "type" = some (Json.str "array") from htype)]
    simp only [Bind.bind, Except.bind, pure, Except.pure, jsDel]
    rw [delF_of_getF_none _ _ hstyle, delF_of_getF_none _ _ hexp]
  · intro htype hq
    unfold convertParam
    rw [convertParamCore_noops sp es href hschema hallow hex]
    rw [acf_table es htype]
    have hes : effectiveStyleJS (Json.obj es) = Json.str "form" := by
      unfold effectiveStyleJS
      rw [show jsGet (Json.obj es) "style" = none from hstyle]
      rcases hq with hq | hq <;> rw [show jsGet (Json.obj es) "in" = _ from hq] <;> rfl
    rw [hes, show getF es "explode" = none from hexp,
      show styleToCollectionFormat (Json.str "form") none = some (some "multi") from by decide]
    simp only [Bind.bind, Except.bind, jsDel]
    rw [delF_of_getF_none _ _ (show getF (setF es "collectionFormat" (Json.str "multi"))
        "style" = none by rw [getF_setF_other _ _ _ _ (by decide)]; exact hstyle)]
    rw [delF_of_getF_none _ _ (show getF (setF es "collectionFormat" (Json.str "multi"))
        "explode" = none by rw [getF_setF_other _ _ _ _ (by decide)]; exact hexp)]
    rfl

/-- C4, witness for the amended theorem: a converted non-array query
parameter is untouched by a second conversion, while a converted array
query parameter has its `collectionFormat` overwritten. -/
theorem spec2proof_C4_amended_witness :
    convertParam (Json.obj []) (Json.obj [("in", Json.str "query"), ("name", Json.str "a"),
        ("type", Json.str "string")]) =
      .ok (Json.obj [("in", Json.str "query"), ("name", Json.str "a"),
        ("type", Json.str "string")]) ∧
    convertParam (Json.obj []) (Json.obj [("in", Json.str "query"), ("name", Json.str "a"),
        ("type", Json.str "array"), ("collectionFormat", Json.str "ssv")]) =
      .ok (Json.obj [("in", Json.str "query"), ("name", Json.str "a"),
        ("type", Json.str "array"), ("collectionFormat", Json.str "multi")]) := by
  constructor
  · exact (spec2proof_C4_amended (Json.obj []) [("in", Json.str "query"), ("name", Json.str "a"),
      ("type", Json.str "string")] (by decide) (by decide) (by decide) (by decide)
      (by decide) (by decide)).1 (by decide)
  · rw [(spec2proof_C4_amended (Json.obj []) [("in", Json.str "query"), ("name", Json.str "a"),
      ("type", Json.str "array"), ("collectionFormat", Json.str "ssv")] (by decide) (by decide)
      (by decide) (by decide) (by decide) (by decide)).2 (by decide) (Or.inl (by decide))]
    decide


/-- Writing the same key twice keeps only the second value. -/
theorem setF_setF_self (es : List (String × Json)) (k : String) (v w : Json) :
    setF (setF es k v) k w = setF es k w := by
  induction es with
  | nil => simp [setF]
  | cons hd tl ih =>
    obtain ⟨k2, v2⟩ := hd
    by_cases h : k2 = k <;> simp [setF, h, ih]

/-- C7, counterexample.  A request body whose only media range is the
wildcard has no concrete media type, so the claim expects `consumes` to
fall back to `["application/octet-stream"]` and the parameter name to
default to `"file"`; the code's `mediaTypes || […]` fallback is dead (an
empty array is truthy) and `param.name` was already set to `"body"`, so
the result has `consumes: []` and `name: "body"`. -/
theorem spec2proof_C7_counterexample :
    convertOperationParameters (Json.obj [])
        (Json.obj [("requestBody", Json.obj [("content", Json.obj [("*/*", Json.obj [])])])]) =
      .ok (Json.obj [], Json.obj [("parameters", Json.arr [Json.obj [("name", Json.str "body"),
        ("in", Json.str "body"),
        ("schema", Json.obj [("type", Json.str "string"), ("format", Json.str "binary")])]]),
        ("consumes", Json.arr [])]) ∧
    Json.arr ([] : List Json) ≠ Json.arr [Json.str "application/octet-stream"] ∧
    Json.str "body" ≠ Json.str "file" := by
  exact ⟨by rfl, by decide, by decide⟩

/-- C7, amended.  In the binary-upload branch (no form-encoded and no
JSON-compatible media type, at least one media range): `consumes` becomes
exactly the list of concrete (non-wildcard) ranges, which may be empty —
the `application/octet-stream` fallback is dead code; the parameter gets
`in: "body"` and keeps the name `"body"` assigned earlier (the `"file"`
default is dead code); `type` is dropped; and when the first range
carries no schema the parameter's schema is the binary fallback
`{type: "string", format: "binary"}`. -/
theorem spec2proof_C7_amended (spec content : Json) (oes pes : List (String × Json))
    (ps : List Json) (mediaRanges mediaTypes : List String) (mr0 : String)
    (hmr : mediaRanges.head? = some mr0)
    (hname : getF pes "name" = some (Json.str "body"))
    (hparams : getF oes "parameters" = some (Json.arr ps))
    (hread : jsRead ((jsGet content mr0).getD Json.null) "schema" = .ok none) :
    binaryBodyBranch spec (Json.obj oes) (Json.obj pes) content mediaRanges mediaTypes =
      .ok (spec, Json.obj (setF (setF oes "consumes" (Json.arr (mediaTypes.map Json.str)))
        "parameters" (Json.arr (ps ++ [Json.obj (setF (delF (setF pes "in" (Json.str "body"))
          "type") "schema" binaryFallback)])))) := by
  have hn : jsGet (Json.obj (setF pes "in" (Json.str "body"))) "name" =
      some (Json.str "body") := by
    show getF (setF pes "in" (Json.str "body")) "name" = _
    rw [getF_setF_other _ _ _ _ (by decide)]
    exact hname
  have hp2 : jsGet (Json.obj (setF oes "consumes" (Json.arr (mediaTypes.map Json.str))))
      "parameters" = some (Json.arr ps) := by
    show getF (setF oes "consumes" (Json.arr (mediaTypes.map Json.str))) "parameters" = _
    rw [getF_setF_other _ _ _ _ (by decide)]
    exact hparams
  unfold binaryBodyBranch
  simp only [jsSet, Bind.bind, Except.bind]
  rw [hn]
  rw [hmr]
  simp only [Bind.bind, Except.bind, jsDel, truthy, String.reduceNe, if_true, if_false,
    reduceCtorEq, Option.isSome]
  rw [hread]
  simp only [Bind.bind, Except.bind]
  rw [show convertSchema spec binaryFallback (some "request") = .ok (spec, binaryFallback)
    from rfl]
  simp only [Bind.bind, Except.bind, jsSet, setF_setF_self]
  unfold pushParam
  rw [hp2]
  simp +decide [setF_setF_self, pure, Except.pure, jsSet]

/-- C7, witness for the amended theorem: a concrete binary-branch call
with one wildcard and one concrete range. -/
theorem spec2proof_C7_amended_witness :
    binaryBodyBranch (Json.obj []) (Json.obj [("parameters", Json.arr [])])
        (Json.obj [("name", Json.str "body")])
        (Json.obj [("image/png", Json.obj [])]) ["image/png"] ["image/png"] =
      .ok (Json.obj [], Json.obj [("parameters", Json.arr [Json.obj [("name", Json.str "body"),
        ("in", Json.str "body"),
        ("schema", Json.obj [("type", Json.str "string"), ("format", Json.str "binary")])]]),
        ("consumes", Json.arr [Json.str "image/png"])]) := by
  rw [spec2proof_C7_amended (Json.obj []) (Json.obj [("image/png", Json.obj [])])
    [("parameters", Json.arr [])] [("name", Json.str "body")] [] ["image/png"] ["image/png"]
    "image/png" (by decide) (by decide) (by decide) (by rfl)]
  decide


/-- On an object, optional assignment writes or deletes at field level. -/
theorem jsSetOpt_obj (es : List (String × Json)) (k : String) (o : Option Json) :
    jsSetOpt (Json.obj es) k o = .ok (Json.obj (setOptF es k o)) := by
  cases o <;> rfl

/-- C8: the security-scheme downgrade.  http+basic becomes `type: basic`
(scheme dropped); http+bearer becomes `type: apiKey, name: Authorization,
in: header` (scheme and bearerFormat dropped); oauth2 takes the first
declared flow, maps `clientCredentials` to `application` and
`authorizationCode` to `accessCode` (identity otherwise) into `flow`, and
copies that flow's `authorizationUrl`, `tokenUrl` and `scopes` (absent
ones staying absent), dropping `flows`; and `convertSecurityDefinitions`
moves `components.securitySchemes` to top-level `securityDefinitions`,
removing it from `components`. -/
theorem spec2proof_C8 (ses fes fles ces ses0 : List (String × Json)) (fn : String)
    (ss : Json) :
    (getF ses "type" = some (Json.str "http") → getF ses "scheme" = some (Json.str "basic") →
      convertOneSecurityScheme (Json.obj ses) =
        .ok (Json.obj (delF (setF ses "type" (Json.str "basic")) "scheme")))
    ∧ (getF ses "type" = some (Json.str "http") → getF ses "scheme" = some (Json.str "bearer") →
      convertOneSecurityScheme (Json.obj ses) =
        .ok (Json.obj (delF (delF (setF (setF (setF ses "type" (Json.str "apiKey"))
          "name" (Json.str "Authorization")) "in" (Json.str "header")) "scheme") "bearerFormat")))
    ∧ (getF ses "type" = some (Json.str "oauth2") →
       getF ses "flows" = some (Json.obj fes) →
       (fes.map Prod.fst).head? = some fn →
       getF fes fn = some (Json.obj fles) →
      convertOneSecurityScheme (Json.obj ses) =
        .ok (Json.obj (delF (setOptF (setOptF (setOptF (setF ses "flow"
          (Json.str (mapFlowName fn)))
          "authorizationUrl" (getF fles "authorizationUrl"))
          "tokenUrl" (getF fles "tokenUrl"))
          "scopes" (getF fles "scopes")) "flows")))
    ∧ (getF ses0 "components" = some (Json.obj ces) →
       getF ces "securitySchemes" = some ss →
       ∀ out, convertSecurityDefinitions (Json.obj ses0) = .ok out →
         (∃ sd, jsGet out "securityDefinitions" = some sd) ∧
         jsGet ((jsGet out "components").getD Json.null) "securitySchemes" = none) := by
  refine ⟨?_, ?_, ?_, ?_⟩
  · intro htype hscheme
    unfold convertOneSecurityScheme
    simp only [jsRead, jsGet, Bind.bind, Except.bind, htype, hscheme]
    rfl
  · intro htype hscheme
    unfold convertOneSecurityScheme
    simp only [jsRead, jsGet, Bind.bind, Except.bind, htype, hscheme]
    rfl
  · intro htype hflows hhead hflow
    unfold convertOneSecurityScheme
    simp only [jsRead, jsGet, Bind.bind, Except.bind, htype, hflows]
    rw [show (jsKeys (Json.obj fes)).head? = some fn from by
      simpa only [jsKeys] using hhead]
    simp only [jsGet, hflow, Option.getD_some, jsSet, Bind.bind, Except.bind, jsRead,
      jsSetOpt_obj, jsDel]
    rfl
  · intro hcomp hss out hout
    unfold convertSecurityDefinitions at hout
    simp only [pure, Except.pure, jsGet, hcomp, Bind.bind, Except.bind, jsRead, hss,
      jsSetOpt, jsSet, Option.getD_some] at hout
    rw [show getF (setF ses0 "securityDefinitions" ss) "securityDefinitions" = some ss
      from getF_setF_self _ _ _] at hout
    cases hfold : List.foldlM convertOneSchemeStep ((some ss).getD Json.null)
        (forInEntries ((some ss).getD Json.null)) with
    | error e =>
      rw [hfold] at hout
      exact absurd hout (by simp)
    | ok sd2 =>
      rw [hfold] at hout
      simp only [Option.getD_some] at hout
      rw [show getF (setF (setF ses0 "securityDefinitions" ss) "securityDefinitions" sd2)
          "components" = some (Json.obj ces) from by
        rw [getF_setF_other _ _ _ _ (by decide), getF_setF_other _ _ _ _ (by decide)]
        exact hcomp] at hout
      simp only [jsDel] at hout
      cases hout
      constructor
      · refine ⟨sd2, ?_⟩
        show getF _ _ = _
        rw [getF_setF_other _ _ _ _ (by decide), setF_setF_self, getF_setF_self]
      · show jsGet ((getF _ _).getD Json.null) _ = none
        rw [getF_setF_self]
        show getF (delF ces "securitySchemes") "securitySchemes" = none
        rw [getF_delF_self]

/-- C8, witness: the three downgrades at concrete schemes, and the
movement of `components.securitySchemes` into `securityDefinitions` on a
concrete document. -/
theorem spec2proof_C8_witness :
    convertOneSecurityScheme (Json.obj [("type", Json.str "http"),
        ("scheme", Json.str "basic")]) =
      .ok (Json.obj [("type", Json.str "basic")]) ∧
    convertOneSecurityScheme (Json.obj [("type", Json.str "http"),
        ("scheme", Json.str "bearer")]) =
      .ok (Json.obj [("type", Json.str "apiKey"), ("name", Json.str "Authorization"),
        ("in", Json.str "header")]) ∧
    convertOneSecurityScheme (Json.obj [("type", Json.str "oauth2"), ("flows", Json.obj
        [("clientCredentials", Json.obj [("tokenUrl", Json.str "https://t"),
          ("scopes", Json.obj [])])])]) =
      .ok (Json.obj [("type", Json.str "oauth2"), ("flow", Json.str "application"),
        ("tokenUrl", Json.str "https://t"), ("scopes", Json.obj [])]) ∧
    (∃ sd, jsGet (Json.obj [("components", Json.obj []), ("securityDefinitions",
        Json.obj [("b", Json.obj [("type", Json.str "apiKey"), ("name", Json.str "Authorization"),
          ("in", Json.str "header")])])]) "securityDefinitions" = some sd) ∧
    jsGet ((jsGet (Json.obj [("components", Json.obj []), ("securityDefinitions",
        Json.obj [("b", Json.obj [("type", Json.str "apiKey"), ("name", Json.str "Authorization"),
          ("in", Json.str "header")])])]) "components").getD Json.null) "securitySchemes" =
      none := by
  refine ⟨?_, ?_, ?_, ?_, ?_⟩
  · rw [(spec2proof_C8 [("type", Json.str "http"), ("scheme", Json.str "basic")] [] [] [] []
      "" Json.null).1 (by decide) (by decide)]
    decide
  · rw [(spec2proof_C8 [("type", Json.str "http"), ("scheme", Json.str "bearer")] [] [] [] []
      "" Json.null).2.1 (by decide) (by decide)]
    decide
  · rw [(spec2proof_C8 [("type", Json.str "oauth2"), ("flows", Json.obj
        [("clientCredentials", Json.obj [("tokenUrl", Json.str "https://t"),
          ("scopes", Json.obj [])])])]
      [("clientCredentials", Json.obj [("tokenUrl", Json.str "https://t"),
        ("scopes", Json.obj [])])]
      [("tokenUrl", Json.str "https://t"), ("scopes", Json.obj [])] [] []
      "clientCredentials" Json.null).2.2.1 (by decide) (by decide) (by decide) (by decide)]
    decide
  · exact ((spec2proof_C8 [] [] [] [("securitySchemes", Json.obj [("b", Json.obj
      [("type", Json.str "http"), ("scheme", Json.str "bearer")])])]
      [("components", Json.obj [("securitySchemes", Json.obj [("b", Json.obj
        [("type", Json.str "http"), ("scheme", Json.str "bearer")])])])] ""
      (Json.obj [("b", Json.obj [("type", Json.str "http"),
        ("scheme", Json.str "bearer")])])).2.2.2 (by decide) (by decide)
      (Json.obj [("components", Json.obj []), ("securityDefinitions",
        Json.obj [("b", Json.obj [("type", Json.str "apiKey"), ("name", Json.str "Authorization"),
          ("in", Json.str "header")])])]) (by rfl)).1
  · exact ((spec2proof_C8 [] [] [] [("securitySchemes", Json.obj [("b", Json.obj
      [("type", Json.str "http"), ("scheme", Json.str "bearer")])])]
      [("components", Json.obj [("securitySchemes", Json.obj [("b", Json.obj
        [("type", Json.str "http"), ("scheme", Json.str "bearer")])])])] ""
      (Json.obj [("b", Json.obj [("type", Json.str "http"),
        ("scheme", Json.str "bearer")])])).2.2.2 (by decide) (by decide)
      (Json.obj [("components", Json.obj []), ("securityDefinitions",
        Json.obj [("b", Json.obj [("type", Json.str "apiKey"), ("name", Json.str "Authorization"),
          ("in", Json.str "header")])])]) (by rfl)).2


/-- Reading back a `Merged` assignment at its own key. -/
theorem mgGet_mgSet_self (t : Merged) (k : String) (v : MVal) :
    mgGet (mgSet t k v) k = some v := by
  induction t with
  | nil => simp [mgSet, mgGet]
  | cons hd tl ih =>
    obtain ⟨k2, v2⟩ := hd
    by_cases h : k2 = k <;> simp [mgSet, mgGet, h, ih]

/-- Reading back a `Merged` assignment at another key. -/
theorem mgGet_mgSet_other (t : Merged) (k k2 : String) (v : MVal)
    (h : k2 ≠ k) : mgGet (mgSet t k v) k2 = mgGet t k2 := by
  induction t with
  | nil => simp [mgSet, mgGet, Ne.symm h]
  | cons hd tl ih =>
    obtain ⟨k3, v3⟩ := hd
    by_cases h3 : k3 = k
    · subst h3
      simp [mgSet, mgGet, Ne.symm h]
    · simp [mgSet, mgGet, h3, ih]

/-- Reading back a field assignment at its own key. -/
theorem getFH_setFH_self (es : HObj) (k : String) (v : HVal) :
    getFH (setFH es k v) k = some v := by
  induction es with
  | nil => simp [setFH, getFH]
  | cons hd tl ih =>
    obtain ⟨k2, v2⟩ := hd
    by_cases h : k2 = k <;> simp [setFH, getFH, h, ih]

/-- Reading back a field assignment at another key. -/
theorem getFH_setFH_other (es : HObj) (k k2 : String) (v : HVal)
    (h : k2 ≠ k) : getFH (setFH es k v) k2 = getFH es k2 := by
  induction es with
  | nil => simp [setFH, getFH, Ne.symm h]
  | cons hd tl ih =>
    obtain ⟨k3, v3⟩ := hd
    by_cases h3 : k3 = k
    · subst h3
      simp [setFH, getFH, Ne.symm h]
    · simp [setFH, getFH, h3, ih]


/-- One merge step never records an `allOf` key. -/
theorem mergeSchemaStep_allOf (h : Heap) (t : Merged) (kv : String × HVal)
    (ht : mgGet t "allOf" = none) :
    mgGet (mergeSchemaStep h t kv) "allOf" = none := by
  obtain ⟨key, value⟩ := kv
  have base : ∀ (K : String) (v : MVal), "allOf" ≠ K → mgGet (mgSet t K v) "allOf" = none :=
    fun K v hK => by rw [mgGet_mgSet_other _ _ _ _ hK]; exact ht
  unfold mergeSchemaStep
  by_cases h1 : key = "allOf"
  · simpa [h1] using ht
  · simp only [decide_eq_true_eq] at *
    split_ifs with h2 h3 h4 h5 h6 h7 h8 <;>
      (try exact ht) <;>
      (repeat' split) <;>
      (try split_ifs) <;>
      first
        | exact ht
        | exact base _ _ (by decide)
        | exact base _ _ (fun hh => h1 hh.symm)


/-- Folding merge steps never records an `allOf` key. -/
theorem mergeSchema_foldl_allOf (h : Heap) (l : List (String × HVal)) :
    ∀ t, mgGet t "allOf" = none → mgGet (l.foldl (mergeSchemaStep h) t) "allOf" = none := by
  induction l with
  | nil => intro t ht; exact ht
  | cons hd tl ih =>
    intro t ht
    exact ih _ (mergeSchemaStep_allOf h t hd ht)

/-- `mergeSchema` never records an `allOf` key. -/
theorem mergeSchema_allOf (h : Heap) (t : Merged) (src : HVal)
    (ht : mgGet t "allOf" = none) :
    mgGet (mergeSchema h t src) "allOf" = none :=
  mergeSchema_foldl_allOf h _ t ht

/-- The member-merge loop never records an `allOf` key in the merged
accumulator. -/
theorem mergeLoopF_allOf (items : List HVal) :
    ∀ (n : Nat) (heap : Heap) (rootId : Nat) (active : List Nat) (merged : Merged)
      (h2 : Heap) (m2 : Merged),
      mgGet merged "allOf" = none →
      mergeLoopF n heap rootId active merged items = some (h2, m2) →
      mgGet m2 "allOf" = none := by
  induction items with
  | nil =>
    intro n heap rootId active merged h2 m2 hm hrun
    unfold mergeLoopF at hrun
    cases hrun
    exact hm
  | cons item rest ih =>
    intro n heap rootId active merged h2 m2 hm hrun
    unfold mergeLoopF at hrun
    rcases hstep : (match item with
      | HVal.ref iid =>
        if fieldTruthyH (heapGet heap iid) "allOf" = true then
          match flattenAllOfF n heap rootId active iid with
          | some r => some r.1
          | none => none
        else some heap
      | _ => some heap) with _ | heap3
    · rw [hstep] at hrun
      cases hrun
    · rw [hstep] at hrun
      exact ih n heap3 rootId active _ h2 m2 (mergeSchema_allOf heap3 merged item hm) hrun


/-- Field lookup over a concatenation whose parts both miss the key. -/
theorem getFH_append_none (a b : HObj) (k : String)
    (ha : getFH a k = none) (hb : getFH b k = none) : getFH (a ++ b) k = none := by
  induction a with
  | nil => simpa using hb
  | cons hd tl ih =>
    obtain ⟨k2, v2⟩ := hd
    by_cases h : k2 = k
    · simp [getFH, h] at ha
    · simp only [getFH, h, List.cons_append, if_false, reduceIte] at *
      exact ih ha

/-- A key absent from a `Merged` is absent from its realized fields. -/
theorem mergedToFields_none (m : Merged) (f : Nat) (k : String)
    (hm : mgGet m k = none) : getFH (mergedToFields m f).1 k = none := by
  suffices hgen : ∀ acc : HObj × Option HObj, getFH acc.1 k = none →
      getFH (m.foldl (fun acc kv =>
        match kv.2 with
        | .plain v => (acc.1 ++ [(kv.1, v)], acc.2)
        | .props pes => (acc.1 ++ [(kv.1, HVal.ref f)], some pes)) acc).1 k = none by
    exact hgen ([], none) rfl
  induction m with
  | nil => intro acc hacc; exact hacc
  | cons hd tl ih =>
    intro acc hacc
    obtain ⟨key, mv⟩ := hd
    have hkey : ¬ key = k := by
      intro hh
      rw [hh] at hm
      simp [mgGet] at hm
    have htl : mgGet tl k = none := by
      simp only [mgGet, hkey, if_false, reduceIte] at hm
      exact hm
    have hone : ∀ v : HVal, getFH [(key, v)] k = none := by
      intro v; simp [getFH, hkey]
    cases mv with
    | plain v =>
      have := ih htl (acc.1 ++ [(key, v)], acc.2) (getFH_append_none _ _ _ hacc (hone _))
      simpa using this
    | props pes =>
      have := ih htl (acc.1 ++ [(key, HVal.ref f)], some pes)
        (getFH_append_none _ _ _ hacc (hone _))
      simpa using this

/-- `ensureSchemaType` only ever writes `type`. -/
theorem ensureSchemaTypeFields_other (es : HObj) (k : String) (hk : ¬ k = "type") :
    getFH (ensureSchemaTypeFields es) k = getFH es k := by
  unfold ensureSchemaTypeFields
  split_ifs <;> first | rfl | rw [getFH_setFH_other _ _ _ _ hk]

/-- Writing a heap slot in bounds and reading it back. -/
theorem heapGet_heapSet_self (h : Heap) (i : Nat) (f : HObj) (hi : i < h.length) :
    heapGet (heapSet h i f) i = f := by
  induction h generalizing i with
  | nil => cases hi
  | cons hd tl ih =>
    cases i with
    | zero => rfl
    | succ j =>
      have : j < tl.length := by simpa using hi
      simpa [heapSet, heapGet, List.set] using ih j this

/-- Reading below the length ignores an appended slot. -/
theorem heapGet_append_lt (h : Heap) (p : HObj) (i : Nat) (hi : i < h.length) :
    heapGet (h ++ [p]) i = heapGet h i := by
  induction h generalizing i with
  | nil => cases hi
  | cons hd tl ih =>
    cases i with
    | zero => rfl
    | succ j =>
      have : j < tl.length := by simpa using hi
      simpa [heapGet] using ih j this


/-- One `$ref` resolution step preserves the heap length. -/
theorem resolveOneRefStep_len (heap : Heap) (rootId : Nat) (item : HVal) :
    (resolveOneRefStep heap rootId item).1.length = heap.length := by
  rcases item with _ | b | nv | sv | l | iid <;> simp only [resolveOneRefStep]
  all_goals try rfl
  rcases hg : getFH (heapGet heap iid) "$ref" with _ | refV
  · rfl
  · by_cases h1 : htruthy refV = true
    · simp only [h1, if_true, reduceIte]
      split_ifs <;> (try rfl) <;> (repeat' split) <;> (try split_ifs) <;>
        simp [heapSet]
    · simp [h1]

/-- The member-resolution loop preserves the heap length (it only
rewrites `$ref` fields in place). -/
theorem resolveItems_len (rootId : Nat) (items : List HVal) :
    ∀ heap : Heap, (resolveItems heap rootId items).1.length = heap.length := by
  induction items with
  | nil => intro heap; rfl
  | cons item rest ih =>
    intro heap
    unfold resolveItems
    by_cases h1 : (htruthy item && hIsObj item) = true
    · simp only [h1, Bool.not_true, Bool.false_eq_true, if_false, reduceIte]
      rcases hstep : resolveOneRefStep heap rootId item with ⟨heap2, ropt⟩
      have hlen2 : heap2.length = heap.length := by
        have := resolveOneRefStep_len heap rootId item
        rw [hstep] at this
        exact this
      rcases ropt with _ | resolved
      · rcases hri : resolveItems heap2 rootId rest with ⟨h2, r2⟩
        have := ih heap2
        rw [hri] at this
        rcases r2 <;> simp_all
      · by_cases h2 : (htruthy resolved && hIsObj resolved) = true
        · simp only [h2, Bool.not_true, Bool.false_eq_true, if_false, reduceIte]
          rcases hri : resolveItems heap2 rootId rest with ⟨h3, r2⟩
          have := ih heap2
          rw [hri] at this
          rcases r2 <;> simp_all
        · simp only [Bool.not_eq_true] at h2
          simp [h2, hlen2]
    · simp [h1]


/-- The merge loop never shrinks the heap, given that recursive flattens
at the same fuel do not. -/
theorem mergeLoop_len_of_flatten (n : Nat)
    (hf : ∀ (heap : Heap) (rootId : Nat) (active : List Nat) (sid : Nat) (res : Heap × Bool),
      flattenAllOfF n heap rootId active sid = some res → heap.length ≤ res.1.length) :
    ∀ (items : List HVal) (heap : Heap) (rootId : Nat) (active : List Nat) (merged : Merged)
      (res : Heap × Merged), mergeLoopF n heap rootId active merged items = some res →
      heap.length ≤ res.1.length := by
  intro items
  induction items with
  | nil =>
    intro heap rootId active merged res hrun
    unfold mergeLoopF at hrun
    cases hrun
    exact le_refl _
  | cons item rest ih =>
    intro heap rootId active merged res hrun
    unfold mergeLoopF at hrun
    rcases hstep : (match item with
      | HVal.ref iid =>
        if fieldTruthyH (heapGet heap iid) "allOf" = true then
          match flattenAllOfF n heap rootId active iid with
          | some r => some r.1
          | none => none
        else some heap
      | _ => some heap) with _ | heap3
    · rw [hstep] at hrun
      cases hrun
    · rw [hstep] at hrun
      have h1 : heap.length ≤ heap3.length := by
        rcases item with _ | b | nv | sv | l | iid <;>
          simp only [] at hstep <;>
          try (cases hstep; exact le_refl _)
        by_cases hft : fieldTruthyH (heapGet heap iid) "allOf" = true
        · rw [if_pos hft] at hstep
          rcases hfa : flattenAllOfF n heap rootId active iid with _ | r
          · rw [hfa] at hstep
            cases hstep
          · rw [hfa] at hstep
            cases hstep
            exact hf heap rootId active iid r hfa
        · rw [if_neg hft] at hstep
          cases hstep
          exact le_refl _
      exact le_trans h1 (ih heap3 rootId active _ res hrun)

/-- `flattenAllOf` never shrinks the heap. -/
theorem flatten_len : ∀ (n : Nat) (heap : Heap) (rootId : Nat) (active : List Nat) (sid : Nat)
    (res : Heap × Bool), flattenAllOfF n heap rootId active sid = some res →
    heap.length ≤ res.1.length := by
  intro n
  induction n with
  | zero =>
    intro heap rootId active sid res hrun
    simp [flattenAllOfF] at hrun
  | succ n ih =>
    intro heap rootId active sid res hrun
    unfold flattenAllOfF at hrun
    dsimp only [] at hrun
    rcases hall : getFH (heapGet heap sid) "allOf" with _ | av
    · rw [hall] at hrun
      cases hrun
      exact le_refl _
    · rw [hall] at hrun
      rcases av with _ | b | nv | sv | items | iid
      case arr =>
        by_cases hemp : items.isEmpty = true
        · simp only [hemp, if_true, reduceIte] at hrun
          cases hrun
          exact le_refl _
        · simp only [hemp, Bool.false_eq_true, if_false, reduceIte] at hrun
          by_cases hact : active.contains sid = true
          · simp only [hact, if_true, reduceIte] at hrun
            cases hrun
            exact le_refl _
          · simp only [hact, Bool.false_eq_true, if_false, reduceIte] at hrun
            rcases hri : resolveItems heap rootId items with ⟨heap2, ropt⟩
            rw [hri] at hrun
            have hlen2 : heap2.length = heap.length := by
              have := resolveItems_len rootId items heap
              rw [hri] at this
              exact this
            rcases ropt with _ | resolved
            · cases hrun
              exact le_of_eq hlen2.symm
            · dsimp only [] at hrun
              rcases hml : mergeLoopF n heap2 rootId (active ++ [sid])
                  (mergeSchema heap2 [] (HVal.ref sid)) resolved with _ | hm2
              · rw [hml] at hrun
                cases hrun
              · rw [hml] at hrun
                obtain ⟨heap3, merged⟩ := hm2
                have h3 : heap2.length ≤ heap3.length :=
                  mergeLoop_len_of_flatten n ih resolved heap2 rootId (active ++ [sid])
                    (mergeSchema heap2 [] (HVal.ref sid)) (heap3, merged) hml
                rcases hfc : (mergedToFields merged heap3.length).2 with _ | pes
                · simp only [hfc] at hrun
                  cases hrun
                  simp only [heapSet, List.length_set]
                  omega
                · simp only [hfc] at hrun
                  cases hrun
                  simp only [List.length_append, heapSet, List.length_set]
                  omega
      all_goals
        (cases hrun
         exact le_refl _)


/-- When `flattenAllOf` reports success, the flattened object carries no
`allOf` key. -/
theorem flatten_success_no_allOf (n : Nat) (heap : Heap) (rootId : Nat) (active : List Nat)
    (sid : Nat) (h2 : Heap)
    (hrun : flattenAllOfF n heap rootId active sid = some (h2, true)) :
    getFH (heapGet h2 sid) "allOf" = none := by
  match n with
  | 0 => simp [flattenAllOfF] at hrun
  | n + 1 =>
    unfold flattenAllOfF at hrun
    dsimp only [] at hrun
    rcases hall : getFH (heapGet heap sid) "allOf" with _ | av
    · rw [hall] at hrun
      simp at hrun
    · rw [hall] at hrun
      rcases av with _ | b | nv | sv | items | iid
      case arr =>
        have hsid : sid < heap.length := by
          by_contra hge
          push_neg at hge
          have hnone : heap[sid]? = none := List.getElem?_eq_none hge
          rw [show heapGet heap sid = [] from by simp [heapGet, hnone]] at hall
          simp [getFH] at hall
        by_cases hemp : items.isEmpty = true
        · simp [hemp] at hrun
        · simp only [hemp, Bool.false_eq_true, if_false, reduceIte] at hrun
          by_cases hact : active.contains sid = true
          · rw [if_pos hact] at hrun
            exact absurd hrun (by simp)
          · rw [if_neg hact] at hrun
            rcases hri : resolveItems heap rootId items with ⟨heap2, ropt⟩
            rw [hri] at hrun
            have hlen2 : heap2.length = heap.length := by
              have := resolveItems_len rootId items heap
              rw [hri] at this
              exact this
            rcases ropt with _ | resolved
            · simp at hrun
            · dsimp only [] at hrun
              rcases hml : mergeLoopF n heap2 rootId (active ++ [sid])
                  (mergeSchema heap2 [] (HVal.ref sid)) resolved with _ | hm2
              · rw [hml] at hrun
                cases hrun
              · rw [hml] at hrun
                obtain ⟨heap3, merged⟩ := hm2
                have hm0 : mgGet (mergeSchema heap2 [] (HVal.ref sid)) "allOf" = none :=
                  mergeSchema_allOf heap2 [] (HVal.ref sid) rfl
                have hmerged : mgGet merged "allOf" = none :=
                  mergeLoopF_allOf resolved n heap2 rootId (active ++ [sid])
                    (mergeSchema heap2 [] (HVal.ref sid)) heap3 merged hm0 hml
                have hlen3 : sid < heap3.length := by
                  have := mergeLoop_len_of_flatten n (flatten_len n) resolved heap2 rootId
                    (active ++ [sid]) (mergeSchema heap2 [] (HVal.ref sid)) (heap3, merged) hml
                  simp only [] at this
                  omega
                have hfields : getFH (ensureSchemaTypeFields
                    (mergedToFields merged heap3.length).1) "allOf" = none := by
                  rw [ensureSchemaTypeFields_other _ _ (by decide)]
                  exact mergedToFields_none merged heap3.length "allOf" hmerged
                rcases hfc : (mergedToFields merged heap3.length).2 with _ | pes
                · simp only [hfc] at hrun
                  cases hrun
                  rw [heapGet_heapSet_self heap3 sid _ hlen3]
                  exact hfields
                · simp only [hfc] at hrun
                  cases hrun
                  rw [heapGet_append_lt _ _ _ (by simp only [heapSet, List.length_set]; exact hlen3)]
                  rw [heapGet_heapSet_self heap3 sid _ hlen3]
                  exact hfields
      all_goals simp at hrun


/-- One merge step's effect on the recorded `required` list: a `required`
entry with an array value set-unions it in; every other entry leaves the
list alone. -/
theorem mergeSchemaStep_req (h : Heap) (t : Merged) (kv : String × HVal) :
    reqOfM (mergeSchemaStep h t kv) =
      (if kv.1 = "required" then
        match kv.2 with
        | .arr l => dedupHL (reqOfM t ++ l)
        | _ => reqOfM t
       else reqOfM t) := by
  obtain ⟨key, value⟩ := kv
  have base : ∀ (K : String) (v : MVal), "required" ≠ K →
      reqOfM (mgSet t K v) = reqOfM t := by
    intro K v hK
    unfold reqOfM
    rw [mgGet_mgSet_other _ _ _ _ hK]
  unfold mergeSchemaStep
  by_cases h1 : key = "allOf"
  · simp [h1]
  · rw [if_neg h1]
    by_cases hb : (decide (key = "properties") && htruthy value && hIsObj value) = true
    · rw [if_pos hb]
      have hk : key = "properties" := by
        simp only [Bool.and_eq_true, decide_eq_true_eq] at hb
        exact hb.1.1
      rw [if_neg (by rw [hk]; decide : ¬ key = "required")]
      (repeat' split) <;> first | rfl | exact base _ _ (by decide)
    · rw [if_neg hb]
      by_cases h3 : key = "required"
      · subst h3
        rw [if_pos rfl, if_pos rfl]
        rcases value with _ | b | nv | sv | l | rid <;>
        first
          | (unfold reqOfM
             rw [mgGet_mgSet_self])
          | (by_cases hhas : mgHas t "required" = true
             · simp only [hhas, Bool.not_true, Bool.false_eq_true, if_false, reduceIte]
             · simp only [Bool.not_eq_true] at hhas
               simp only [hhas, Bool.not_false, if_true, reduceIte]
               have hnone : mgGet t "required" = none := by
                 unfold mgHas at hhas
                 rcases hg : mgGet t "required" with _ | mv
                 · rfl
                 · rw [hg] at hhas
                   simp at hhas
               unfold reqOfM
               rw [mgGet_mgSet_self, hnone])
      · rw [if_neg h3, if_neg h3]
        dsimp only []
        split_ifs <;> (repeat' split) <;>
          first
            | rfl
            | exact base _ _ (by decide)
            | exact base _ _ (fun hh => h3 hh.symm)


/-- A merge step keeps the properties slot well-formed, provided a
`properties` entry carries a truthy object. -/
theorem mergeSchemaStep_props_wf (h : Heap) (t : Merged) (kv : String × HVal)
    (hwf : propsWFM t)
    (hstd : kv.1 = "properties" → htruthy kv.2 = true ∧ hIsObj kv.2 = true) :
    propsWFM (mergeSchemaStep h t kv) := by
  obtain ⟨key, value⟩ := kv
  have base : ∀ (K : String) (v : MVal), "properties" ≠ K →
      propsWFM (mgSet t K v) := by
    intro K v hK pv hpv
    rw [mgGet_mgSet_other _ _ _ _ hK] at hpv
    exact hwf pv hpv
  have bprops : ∀ pes : HObj, propsWFM (mgSet t "properties" (MVal.props pes)) := by
    intro pes pv hpv
    rw [mgGet_mgSet_self] at hpv
    cases hpv
  unfold mergeSchemaStep
  by_cases h1 : key = "allOf"
  · simp only [if_pos h1]
    exact hwf
  · rw [if_neg h1]
    by_cases hb : (decide (key = "properties") && htruthy value && hIsObj value) = true
    · rw [if_pos hb]
      (repeat' split) <;> first | exact hwf | exact bprops _
    · rw [if_neg hb]
      by_cases h2 : key = "properties"
      · obtain ⟨ht2, ho2⟩ := hstd h2
        exact absurd (by simp [h2, ht2, ho2]) hb
      · dsimp only []
        split_ifs <;> (repeat' split) <;> (try split_ifs) <;>
          first
            | exact hwf
            | exact base _ _ (by decide)
            | exact base _ _ (fun hh => h2 hh.symm)

/-- One merge step's effect on the recorded properties map: a
`properties` entry folds its fields over the map (later wins); every
other entry leaves the map alone. -/
theorem mergeSchemaStep_props (h : Heap) (t : Merged) (kv : String × HVal)
    (hwf : propsWFM t) :
    propsOfM (mergeSchemaStep h t kv) =
      (if (decide (kv.1 = "properties") && htruthy kv.2 && hIsObj kv.2) = true then
        (entriesOfH h kv.2).foldl (fun a e => setFH a e.1 e.2) (propsOfM t)
       else propsOfM t) := by
  obtain ⟨key, value⟩ := kv
  have base : ∀ (K : String) (v : MVal), "properties" ≠ K →
      propsOfM (mgSet t K v) = propsOfM t := by
    intro K v hK
    unfold propsOfM
    rw [mgGet_mgSet_other _ _ _ _ hK]
  unfold mergeSchemaStep
  by_cases h1 : key = "allOf"
  · simp only [if_pos h1]
    rw [if_neg (by simp [h1] : ¬ (decide (key = "properties") && htruthy value
      && hIsObj value) = true)]
  · rw [if_neg h1]
    by_cases hb : (decide (key = "properties") && htruthy value && hIsObj value) = true
    · rw [if_pos hb, if_pos hb]
      rcases hp : mgGet t "properties" with _ | mv
      · unfold propsOfM
        rw [hp, mgGet_mgSet_self]
      · rcases mv with pv | pes
        · have hfal : htruthy pv = false := hwf pv hp
          dsimp only []
          rw [if_neg (by rw [hfal]; decide : ¬ htruthy pv = true)]
          unfold propsOfM
          rw [hp, mgGet_mgSet_self]
        · unfold propsOfM
          rw [hp, mgGet_mgSet_self]
    · have bgen : ∀ (K : String) (v : HVal), (!mgHas t K) = true →
          propsOfM (mgSet t K (MVal.plain v)) = propsOfM t := by
        intro K v hK
        by_cases hkp : K = "properties"
        · subst hkp
          have hnone : mgGet t "properties" = none := by
            unfold mgHas at hK
            rcases hg : mgGet t "properties" with _ | mv
            · rfl
            · rw [hg] at hK
              simp at hK
          unfold propsOfM
          rw [mgGet_mgSet_self, hnone]
        · unfold propsOfM
          rw [mgGet_mgSet_other _ _ _ _ (fun hh => hkp hh.symm)]
      rw [if_neg hb, if_neg hb]
      by_cases h2 : key = "required"
      · subst h2
        rw [if_pos rfl]
        (repeat' split) <;>
          first
            | rfl
            | exact base "required" _ (by decide)
            | exact bgen "required" _ (by assumption)
      · rw [if_neg h2]
        dsimp only []
        split_ifs <;> (repeat' split) <;> (try split_ifs) <;>
          first
            | rfl
            | exact base _ _ (by decide)
            | exact bgen _ _ (by assumption)


/-- The deduplicating fold produces duplicate-free lists. -/
theorem dedup_fold_nodup (l : List HVal) :
    ∀ acc : List HVal, acc.Nodup →
      (l.foldl (fun acc x => if x ∈ acc then acc else acc ++ [x]) acc).Nodup := by
  induction l with
  | nil => intro acc h; exact h
  | cons x xs ih =>
    intro acc hacc
    simp only [List.foldl_cons]
    by_cases hc : x ∈ acc
    · rw [if_pos hc]
      exact ih acc hacc
    · rw [if_neg hc]
      refine ih _ ?_
      rw [← List.concat_eq_append]
      exact hacc.concat hc

/-- The deduplicating fold is the identity on duplicate-free disjoint
input. -/
theorem dedup_fold_of_nodup (l : List HVal) :
    ∀ acc : List HVal, l.Nodup → (∀ x ∈ l, x ∉ acc) →
      l.foldl (fun acc x => if x ∈ acc then acc else acc ++ [x]) acc = acc ++ l := by
  induction l with
  | nil => intro acc _ _; simp
  | cons x xs ih =>
    intro acc hnd hdisj
    have hx : x ∉ acc := hdisj x (by simp)
    have hnd2 : xs.Nodup := hnd.of_cons
    have hdisj2 : ∀ y ∈ xs, y ∉ acc ++ [x] := by
      intro y hy
      simp only [List.mem_append, List.mem_singleton]
      rintro (h | h)
      · exact hdisj y (by simp [hy]) h
      · rw [h] at hy
        exact (List.nodup_cons.mp hnd).1 hy
    simp only [List.foldl_cons, if_neg hx]
    rw [ih (acc ++ [x]) hnd2 hdisj2]
    simp

/-- Deduplication is idempotent. -/
theorem dedupHL_idem (a : List HVal) : dedupHL (dedupHL a) = dedupHL a := by
  have h1 : (dedupHL a).Nodup := dedup_fold_nodup a [] List.nodup_nil
  have := dedup_fold_of_nodup (dedupHL a) [] h1 (by simp)
  simpa [dedupHL] using this

/-- Deduplicating an already-deduplicated prefix collapses. -/
theorem dedupHL_dedup_append (a b : List HVal) :
    dedupHL (dedupHL a ++ b) = dedupHL (a ++ b) := by
  unfold dedupHL
  rw [List.foldl_append, List.foldl_append]
  have h2 : List.foldl (fun acc x => if x ∈ acc then acc else acc ++ [x]) []
        (List.foldl (fun acc x => if x ∈ acc then acc else acc ++ [x]) [] a)
      = List.foldl (fun acc x => if x ∈ acc then acc else acc ++ [x]) [] a := by
    have := dedupHL_idem a
    simpa [dedupHL] using this
  rw [h2]


/-- A key outside the key list is unreadable. -/
theorem getFH_eq_none_of_not_mem (l : HObj) (k : String)
    (h : k ∉ l.map Prod.fst) : getFH l k = none := by
  induction l with
  | nil => rfl
  | cons hd tl ih =>
    obtain ⟨k2, v2⟩ := hd
    simp only [List.map_cons, List.mem_cons, not_or] at h
    simp only [getFH, show ¬ k2 = k from fun hh => h.1 hh.symm, if_false, reduceIte]
    exact ih h.2

/-- Folding the merge step over one standard, duplicate-free field list:
`required` set-unions its (unique) array entry, `properties` folds its
(unique) object entry, and properties well-formedness is preserved. -/
theorem mergeSchema_foldl_req_props (h : Heap) (l : HObj) :
    ∀ t : Merged, propsWFM t → stdEntries l → nodupKeys l →
      (reqOfM (l.foldl (mergeSchemaStep h) t) =
        (match getFH l "required" with
         | some (.arr rl) => dedupHL (reqOfM t ++ rl)
         | _ => reqOfM t))
      ∧ (propsOfM (l.foldl (mergeSchemaStep h) t) =
        (match getFH l "properties" with
         | some v => (entriesOfH h v).foldl (fun a e => setFH a e.1 e.2) (propsOfM t)
         | none => propsOfM t))
      ∧ propsWFM (l.foldl (mergeSchemaStep h) t) := by
  induction l with
  | nil =>
    intro t hwf _ _
    exact ⟨rfl, rfl, hwf⟩
  | cons hd tl ih =>
    intro t hwf hstd hnd
    obtain ⟨k, v⟩ := hd
    have hstdhd := hstd (k, v) (by simp)
    have hstdtl : stdEntries tl := fun kv hkv => hstd kv (by simp [hkv])
    have hndtl : nodupKeys tl := by
      unfold nodupKeys at *
      simpa using (List.nodup_cons.mp hnd).2
    have hknotin : k ∉ tl.map Prod.fst := by
      unfold nodupKeys at hnd
      simpa using (List.nodup_cons.mp hnd).1
    have hwf2 : propsWFM (mergeSchemaStep h t (k, v)) :=
      mergeSchemaStep_props_wf h t (k, v) hwf (fun hh => hstdhd.1 hh)
    obtain ⟨ihr, ihp, ihw⟩ := ih (mergeSchemaStep h t (k, v)) hwf2 hstdtl hndtl
    refine ⟨?_, ?_, ihw⟩
    · rw [List.foldl_cons] at *
      rw [ihr]
      by_cases hk : k = "required"
      · subst hk
        obtain ⟨rl, hrl⟩ := hstdhd.2 rfl
        subst hrl
        rw [getFH_eq_none_of_not_mem tl "required" hknotin]
        have hstep := mergeSchemaStep_req h t ("required", HVal.arr rl)
        simp only [if_pos rfl] at hstep
        rw [hstep]
        simp [getFH]
      · have hstep := mergeSchemaStep_req h t (k, v)
        simp only [if_neg hk] at hstep
        rw [hstep]
        simp only [getFH, show ¬ k = "required" from hk, if_false, reduceIte]
    · rw [List.foldl_cons] at *
      rw [ihp]
      by_cases hk : k = "properties"
      · subst hk
        obtain ⟨htr, hob⟩ := hstdhd.1 rfl
        rw [getFH_eq_none_of_not_mem tl "properties" hknotin]
        have hstep := mergeSchemaStep_props h t ("properties", v) hwf
        rw [if_pos (by simp [htr, hob])] at hstep
        rw [hstep]
        simp [getFH]
      · have hstep := mergeSchemaStep_props h t (k, v) hwf
        rw [if_neg (by simp [hk])] at hstep
        rw [hstep]
        simp only [getFH, show ¬ k = "properties" from hk, if_false, reduceIte]


/-- A container-shaped properties slot is in particular well-formed. -/
theorem propsWFM_of_shape (t : Merged) (h : propsShapeOK t) : propsWFM t := by
  intro pv hpv
  rcases h with h | ⟨P, h⟩ <;> rw [h] at hpv <;> cases hpv

/-- A merge step on a `required` array entry records the set union. -/
theorem mergeSchemaStep_req_mg (h : Heap) (t : Merged) (rl : List HVal) :
    mgGet (mergeSchemaStep h t ("required", HVal.arr rl)) "required" =
      some (.plain (.arr (dedupHL (reqOfM t ++ rl)))) := by
  unfold mergeSchemaStep
  dsimp only []
  rw [if_neg (by decide), if_neg (by simp), if_pos rfl]
  rw [mgGet_mgSet_self]
  unfold reqOfM
  rcases hg : mgGet t "required" with _ | mv
  · rfl
  · rcases mv with pv | pes
    · rcases pv <;> rfl
    · rfl

/-- A merge step on any other entry leaves the `required` slot alone. -/
theorem mergeSchemaStep_req_mg_other (h : Heap) (t : Merged) (kv : String × HVal)
    (hk : ¬ kv.1 = "required") :
    mgGet (mergeSchemaStep h t kv) "required" = mgGet t "required" := by
  obtain ⟨key, value⟩ := kv
  simp only [] at hk
  have base : ∀ (K : String) (v : MVal), "required" ≠ K →
      mgGet (mgSet t K v) "required" = mgGet t "required" := by
    intro K v hK
    rw [mgGet_mgSet_other _ _ _ _ hK]
  unfold mergeSchemaStep
  try dsimp only []
  by_cases h1 : key = "allOf"
  · simp [h1]
  · rw [if_neg h1]
    by_cases hb : (decide (key = "properties") && htruthy value && hIsObj value) = true
    · rw [if_pos hb]
      (repeat' split) <;> first | rfl | exact base _ _ (by decide)
    · rw [if_neg hb, if_neg hk]
      try dsimp only []
      split_ifs <;> (repeat' split) <;> (try split_ifs) <;>
        first
          | rfl
          | exact base _ _ (by decide)
          | exact base _ _ (fun hh => hk hh.symm)

/-- A merge step on a truthy-object `properties` entry records the
field-by-field union into the container. -/
theorem mergeSchemaStep_props_mg (h : Heap) (t : Merged) (v : HVal)
    (htr : htruthy v = true) (ho : hIsObj v = true) (hsh : propsShapeOK t) :
    mgGet (mergeSchemaStep h t ("properties", v)) "properties" =
      some (.props ((entriesOfH h v).foldl (fun a e => setFH a e.1 e.2) (propsOfM t))) := by
  unfold mergeSchemaStep
  dsimp only []
  rw [if_neg (by decide), if_pos (by simp [htr, ho])]
  rcases hsh with hs | ⟨P, hs⟩
  · rw [hs, mgGet_mgSet_self]
    unfold propsOfM
    rw [hs]
  · rw [hs, mgGet_mgSet_self]
    unfold propsOfM
    rw [hs]

/-- A merge step on any other entry leaves the `properties` slot alone
(an entry named `properties` with a non-truthy-object value is excluded
by the standard-shape hypothesis at use sites). -/
theorem mergeSchemaStep_props_mg_other (h : Heap) (t : Merged) (kv : String × HVal)
    (hk : ¬ kv.1 = "properties") :
    mgGet (mergeSchemaStep h t kv) "properties" = mgGet t "properties" := by
  obtain ⟨key, value⟩ := kv
  simp only [] at hk
  have base : ∀ (K : String) (v : MVal), "properties" ≠ K →
      mgGet (mgSet t K v) "properties" = mgGet t "properties" := by
    intro K v hK
    rw [mgGet_mgSet_other _ _ _ _ hK]
  unfold mergeSchemaStep
  try dsimp only []
  by_cases h1 : key = "allOf"
  · simp [h1]
  · rw [if_neg h1]
    rw [if_neg (by simp [hk] : ¬ (decide (key = "properties") && htruthy value
      && hIsObj value) = true)]
    by_cases h3 : key = "required"
    · subst h3
      rw [if_pos rfl]
      (repeat' split) <;> first | rfl | exact base _ _ (by decide)
    · rw [if_neg h3]
      try dsimp only []
      split_ifs <;> (repeat' split) <;> (try split_ifs) <;>
        first
          | rfl
          | exact base _ _ (by decide)
          | exact base _ _ (fun hh => hk hh.symm)


/-- The required list is determined by the required slot. -/
theorem reqOfM_congr (a b : Merged) (h : mgGet a "required" = mgGet b "required") :
    reqOfM a = reqOfM b := by
  unfold reqOfM
  rw [h]

/-- The properties map is determined by the properties slot. -/
theorem propsOfM_congr (a b : Merged) (h : mgGet a "properties" = mgGet b "properties") :
    propsOfM a = propsOfM b := by
  unfold propsOfM
  rw [h]

/-- Folding the merge step over one standard, duplicate-free field list,
at slot level: `required` set-unions its unique array entry, `properties`
unions its unique object entry into the container, and both slots stay
well-shaped. -/
theorem mergeSchema_foldl_mg (h : Heap) (l : HObj) :
    ∀ t : Merged, propsShapeOK t → reqShapeOK t → stdEntries l → nodupKeys l →
      (mgGet (l.foldl (mergeSchemaStep h) t) "required" =
        (match getFH l "required" with
         | some (.arr rl) => some (.plain (.arr (dedupHL (reqOfM t ++ rl))))
         | _ => mgGet t "required"))
      ∧ (mgGet (l.foldl (mergeSchemaStep h) t) "properties" =
        (match getFH l "properties" with
         | some v => some (.props ((entriesOfH h v).foldl (fun a e => setFH a e.1 e.2)
             (propsOfM t)))
         | none => mgGet t "properties"))
      ∧ propsShapeOK (l.foldl (mergeSchemaStep h) t)
      ∧ reqShapeOK (l.foldl (mergeSchemaStep h) t) := by
  induction l with
  | nil =>
    intro t hps hrs _ _
    exact ⟨rfl, rfl, hps, hrs⟩
  | cons hd tl ih =>
    intro t hps hrs hstd hnd
    obtain ⟨k, v⟩ := hd
    have hstdhd := hstd (k, v) (by simp)
    have hstdtl : stdEntries tl := fun kv hkv => hstd kv (by simp [hkv])
    have hndtl : nodupKeys tl := by
      unfold nodupKeys at *
      simpa using (List.nodup_cons.mp hnd).2
    have hknotin : k ∉ tl.map Prod.fst := by
      unfold nodupKeys at hnd
      simpa using (List.nodup_cons.mp hnd).1
    have hreqstep : mgGet (mergeSchemaStep h t (k, v)) "required" =
        (if k = "required" then
          (match v with
           | HVal.arr rl => some (MVal.plain (HVal.arr (dedupHL (reqOfM t ++ rl))))
           | _ => mgGet t "required")
         else mgGet t "required") := by
      by_cases hk : k = "required"
      · subst hk
        obtain ⟨rl, hrl⟩ := hstdhd.2 rfl
        subst hrl
        rw [if_pos rfl]
        exact mergeSchemaStep_req_mg h t rl
      · rw [if_neg hk]
        exact mergeSchemaStep_req_mg_other h t (k, v) hk
    have hpropstep : mgGet (mergeSchemaStep h t (k, v)) "properties" =
        (if k = "properties" then
          some (MVal.props ((entriesOfH h v).foldl (fun a e => setFH a e.1 e.2) (propsOfM t)))
         else mgGet t "properties") := by
      by_cases hk : k = "properties"
      · subst hk
        obtain ⟨htr, hob⟩ := hstdhd.1 rfl
        rw [if_pos rfl]
        exact mergeSchemaStep_props_mg h t v htr hob hps
      · rw [if_neg hk]
        exact mergeSchemaStep_props_mg_other h t (k, v) hk
    have hps2 : propsShapeOK (mergeSchemaStep h t (k, v)) := by
      unfold propsShapeOK
      rw [hpropstep]
      by_cases hk : k = "properties"
      · rw [if_pos hk]
        exact Or.inr ⟨_, rfl⟩
      · rw [if_neg hk]
        exact hps
    have hrs2 : reqShapeOK (mergeSchemaStep h t (k, v)) := by
      unfold reqShapeOK
      rw [hreqstep]
      by_cases hk : k = "required"
      · subst hk
        obtain ⟨rl, hrl⟩ := hstdhd.2 rfl
        subst hrl
        rw [if_pos rfl]
        exact Or.inr ⟨_, rfl⟩
      · rw [if_neg hk]
        exact hrs
    obtain ⟨ihr, ihp, ihps, ihrs⟩ := ih (mergeSchemaStep h t (k, v)) hps2 hrs2 hstdtl hndtl
    refine ⟨?_, ?_, by simpa using ihps, by simpa using ihrs⟩
    · rw [List.foldl_cons, ihr]
      by_cases hk : k = "required"
      · subst hk
        obtain ⟨rl, hrl⟩ := hstdhd.2 rfl
        subst hrl
        rw [getFH_eq_none_of_not_mem tl "required" hknotin, hreqstep, if_pos rfl]
        simp [getFH]
      · simp only [getFH, show ¬ k = "required" from hk, if_false, reduceIte]
        rw [show reqOfM (mergeSchemaStep h t (k, v)) = reqOfM t from
          reqOfM_congr _ _ (by rw [hreqstep, if_neg hk])]
        rcases hg : getFH tl "required" with _ | gv
        · rw [hreqstep, if_neg hk]
        · rcases gv <;> first | (rw [hreqstep, if_neg hk]) | rfl
    · rw [List.foldl_cons, ihp]
      by_cases hk : k = "properties"
      · subst hk
        rw [getFH_eq_none_of_not_mem tl "properties" hknotin, hpropstep, if_pos rfl]
        simp [getFH]
      · simp only [getFH, show ¬ k = "properties" from hk, if_false, reduceIte]
        rw [show propsOfM (mergeSchemaStep h t (k, v)) = propsOfM t from
          propsOfM_congr _ _ (by rw [hpropstep, if_neg hk])]
        rcases hg : getFH tl "properties" with _ | gv
        · rw [hpropstep, if_neg hk]
        · rfl


/-- Unfolding a union of property maps across an append. -/
theorem propsUnionFrom_append (a b : List HObj) (i : HObj) :
    propsUnionFrom (a ++ b) i = propsUnionFrom b (propsUnionFrom a i) := by
  unfold propsUnionFrom
  rw [List.foldl_append]

/-- A successful field lookup is one of the entries. -/
theorem getFH_mem (l : HObj) (k : String) (v : HVal) (h : getFH l k = some v) :
    (k, v) ∈ l := by
  induction l with
  | nil => cases h
  | cons hd tl ih =>
    obtain ⟨k2, v2⟩ := hd
    by_cases hk : k2 = k
    · subst hk
      simp only [getFH, if_pos rfl] at h
      cases h
      simp
    · simp only [getFH, hk, if_false, reduceIte] at h
      simp [ih h]

/-- Folding whole standard sources over a merged accumulator: `required`
accumulates the set union and `properties` accumulates the map union, in
source order. -/
theorem fold_sources_mg (heap : Heap) (ids : List Nat) :
    ∀ (m : Merged) (racc : List HVal) (pmaps : List HObj),
      propsShapeOK m → reqShapeOK m →
      reqOfM m = dedupHL racc →
      mgGet m "properties" = (match pmaps with
        | [] => none
        | _ => some (.props (propsUnionFrom pmaps []))) →
      (∀ i ∈ ids, stdEntries (heapGet heap i) ∧ nodupKeys (heapGet heap i)) →
      (reqOfM (ids.foldl (fun m i => mergeSchema heap m (.ref i)) m) =
        dedupHL (racc ++ (ids.map (fun i => reqListOfH (heapGet heap i))).flatten))
      ∧ (mgGet (ids.foldl (fun m i => mergeSchema heap m (.ref i)) m) "properties" =
        (match pmaps ++ (ids.map (fun i => propsMapOfH heap (heapGet heap i))).flatten with
         | [] => none
         | _ => some (.props (propsUnionFrom
             (pmaps ++ (ids.map (fun i => propsMapOfH heap (heapGet heap i))).flatten) []))))
      ∧ propsShapeOK (ids.foldl (fun m i => mergeSchema heap m (.ref i)) m)
      ∧ reqShapeOK (ids.foldl (fun m i => mergeSchema heap m (.ref i)) m) := by
  induction ids with
  | nil =>
    intro m racc pmaps hps hrs hr hp _
    exact ⟨by simpa using hr, by simpa using hp, hps, hrs⟩
  | cons i rest ih =>
    intro m racc pmaps hps hrs hr hp hstd
    have hstdi := (hstd i (by simp)).1
    have hndi := (hstd i (by simp)).2
    have hstdrest : ∀ j ∈ rest, stdEntries (heapGet heap j) ∧ nodupKeys (heapGet heap j) :=
      fun j hj => hstd j (by simp [hj])
    obtain ⟨hfr, hfp, hfps, hfrs⟩ :=
      mergeSchema_foldl_mg heap (heapGet heap i) m hps hrs hstdi hndi
    have hfold : mergeSchema heap m (HVal.ref i) =
        (heapGet heap i).foldl (mergeSchemaStep heap) m := rfl
    have hpm : propsOfM m = propsUnionFrom pmaps [] := by
      rcases pmaps with _ | ⟨p0, prest⟩
      · unfold propsOfM
        rw [hp]
        rfl
      · unfold propsOfM
        rw [hp]
    have hm2req : reqOfM (mergeSchema heap m (HVal.ref i)) =
        dedupHL (racc ++ reqListOfH (heapGet heap i)) := by
      rw [hfold]
      rcases hg : getFH (heapGet heap i) "required" with _ | gv
      · have he : reqOfM ((heapGet heap i).foldl (mergeSchemaStep heap) m) = reqOfM m :=
          reqOfM_congr _ _ (by rw [hfr, hg])
        rw [he, hr, show reqListOfH (heapGet heap i) = [] from by unfold reqListOfH; rw [hg],
          List.append_nil]
      · rcases gv with _ | b | nv | sv | rl | rid
        case arr =>
          have h1 : reqOfM ((heapGet heap i).foldl (mergeSchemaStep heap) m) =
              dedupHL (reqOfM m ++ rl) := by
            unfold reqOfM
            rw [hfr, hg]
            rfl
          rw [h1, hr, dedupHL_dedup_append,
            show reqListOfH (heapGet heap i) = rl from by unfold reqListOfH; rw [hg]]
        all_goals
          (obtain ⟨rl2, hrl2⟩ := ((hstdi _ (getFH_mem _ _ _ hg)).2 rfl)
           cases hrl2)
    have hm2props : mgGet (mergeSchema heap m (HVal.ref i)) "properties" =
        (match pmaps ++ propsMapOfH heap (heapGet heap i) with
         | [] => none
         | _ => some (.props (propsUnionFrom (pmaps ++ propsMapOfH heap (heapGet heap i)) []))) := by
      rw [hfold]
      rcases hg : getFH (heapGet heap i) "properties" with _ | gv
      · rw [show propsMapOfH heap (heapGet heap i) = [] from by unfold propsMapOfH; rw [hg],
          List.append_nil]
        rw [hfp, hg]
        exact hp
      · rw [show propsMapOfH heap (heapGet heap i) = [entriesOfH heap gv] from by
          unfold propsMapOfH; rw [hg]]
        rw [hfp, hg]
        rw [hpm]
        rw [propsUnionFrom_append]
        rcases pmaps with _ | ⟨p0, prest⟩ <;> rfl
    have hps2 : propsShapeOK (mergeSchema heap m (HVal.ref i)) := by
      rw [hfold]
      exact hfps
    have hrs2 : reqShapeOK (mergeSchema heap m (HVal.ref i)) := by
      rw [hfold]
      exact hfrs
    obtain ⟨ihr2, ihp2, ihps2, ihrs2⟩ := ih (mergeSchema heap m (HVal.ref i))
      (racc ++ reqListOfH (heapGet heap i)) (pmaps ++ propsMapOfH heap (heapGet heap i))
      hps2 hrs2 hm2req hm2props hstdrest
    refine ⟨?_, ?_, by simpa using ihps2, by simpa using ihrs2⟩
    · rw [List.foldl_cons]
      rw [ihr2]
      simp [List.append_assoc]
    · rw [List.foldl_cons]
      rw [ihp2]
      simp [List.append_assoc]


/-- Field lookup distributes over concatenation. -/
theorem getFH_append (a b : HObj) (k : String) :
    getFH (a ++ b) k = (match getFH a k with
      | some v => some v
      | none => getFH b k) := by
  induction a with
  | nil => rfl
  | cons hd tl ih =>
    obtain ⟨k2, v2⟩ := hd
    by_cases hk : k2 = k
    · simp [getFH, hk]
    · simp only [List.cons_append, getFH, hk, if_false, reduceIte]
      exact ih

/-- Keys after a merged assignment. -/
theorem mgSet_keys (t : Merged) (k : String) (v : MVal) :
    (mgSet t k v).map Prod.fst =
      (if k ∈ t.map Prod.fst then t.map Prod.fst else t.map Prod.fst ++ [k]) := by
  induction t with
  | nil => simp [mgSet]
  | cons hd tl ih =>
    obtain ⟨k2, v2⟩ := hd
    by_cases hk : k2 = k
    · subst hk
      simp [mgSet]
    · simp only [mgSet, hk, if_false, reduceIte, List.map_cons, ih]
      by_cases hmem : k ∈ tl.map Prod.fst
      · simp [hmem, Ne.symm hk]
      · simp [hmem, Ne.symm hk]

/-- Membership after a merged assignment. -/
theorem mem_mgSet (t : Merged) (k : String) (v : MVal) (kv : String × MVal)
    (h : kv ∈ mgSet t k v) : kv ∈ t ∨ kv = (k, v) := by
  induction t with
  | nil =>
    simp only [mgSet, List.mem_singleton] at h
    exact Or.inr h
  | cons hd tl ih =>
    obtain ⟨k2, v2⟩ := hd
    by_cases hk : k2 = k
    · subst hk
      simp only [mgSet] at h
      rw [if_pos trivial] at h
      rw [List.mem_cons] at h
      rcases h with h | h
      · exact Or.inr (by simp [h])
      · exact Or.inl (by simp [h])
    · simp only [mgSet, hk, if_false, reduceIte, List.mem_cons] at h
      rcases h with h | h
      · exact Or.inl (by simp [h])
      · rcases ih h with h2 | h2
        · exact Or.inl (by simp [h2])
        · exact Or.inr h2

/-- A merged assignment with a plain value, or a container at
`properties`, keeps the accumulator well-shaped. -/
theorem mgSet_mergedOK (t : Merged) (k : String) (v : MVal)
    (hok : mergedOK t) (hv : ∀ P : HObj, v = MVal.props P → k = "properties") :
    mergedOK (mgSet t k v) := by
  constructor
  · rw [mgSet_keys]
    by_cases hmem : k ∈ t.map Prod.fst
    · simpa [hmem] using hok.1
    · simp only [hmem, if_false, reduceIte]
      rw [← List.concat_eq_append]
      exact hok.1.concat hmem
  · intro kv hkv P hP
    rcases mem_mgSet t k v kv hkv with h | h
    · exact hok.2 kv h P hP
    · subst h
      exact hv P hP

/-- One merge step keeps the accumulator well-shaped. -/
theorem mergeSchemaStep_mergedOK (h : Heap) (t : Merged) (kv : String × HVal)
    (hok : mergedOK t) : mergedOK (mergeSchemaStep h t kv) := by
  obtain ⟨key, value⟩ := kv
  have basep : ∀ (K : String) (v : HVal), mergedOK (mgSet t K (MVal.plain v)) :=
    fun K v => mgSet_mergedOK t K _ hok (fun P hP => by cases hP)
  have basec : ∀ pes : HObj, mergedOK (mgSet t "properties" (MVal.props pes)) :=
    fun pes => mgSet_mergedOK t _ _ hok (fun P _ => rfl)
  unfold mergeSchemaStep
  try dsimp only []
  by_cases h1 : key = "allOf"
  · simpa [h1] using hok
  · rw [if_neg h1]
    split_ifs <;> (repeat' split) <;> (try split_ifs) <;>
      first
        | exact hok
        | exact basec _
        | exact basep _ _

/-- Folding merge steps keeps the accumulator well-shaped. -/
theorem mergeSchema_foldl_mergedOK (h : Heap) (l : HObj) :
    ∀ t, mergedOK t → mergedOK (l.foldl (mergeSchemaStep h) t) := by
  induction l with
  | nil => intro t ht; exact ht
  | cons hd tl ih => intro t ht; exact ih _ (mergeSchemaStep_mergedOK h t hd ht)

/-- Folding whole sources keeps the accumulator well-shaped. -/
theorem fold_sources_mergedOK (heap : Heap) (ids : List Nat) :
    ∀ m, mergedOK m →
      mergedOK (ids.foldl (fun m i => mergeSchema heap m (.ref i)) m) := by
  induction ids with
  | nil => intro m hm; exact hm
  | cons i rest ih =>
    intro m hm
    exact ih _ (mergeSchema_foldl_mergedOK heap _ m hm)


/-- An absent key in a merged accumulator is exactly a key outside its
key list. -/
theorem mgGet_eq_none_of_not_mem (m : Merged) (k : String)
    (h : k ∉ m.map Prod.fst) : mgGet m k = none := by
  induction m with
  | nil => rfl
  | cons hd tl ih =>
    obtain ⟨k2, v2⟩ := hd
    simp only [List.map_cons, List.mem_cons] at h
    push_neg at h
    simp only [mgGet]
    rw [if_neg (Ne.symm h.1)]
    exact ih h.2

/-- A present entry makes the merged lookup at its key succeed. -/
theorem mgGet_isSome_of_mem (m : Merged) (kv : String × MVal)
    (h : kv ∈ m) : mgGet m kv.1 ≠ none := by
  induction m with
  | nil => cases h
  | cons hd tl ih =>
    obtain ⟨k2, v2⟩ := hd
    rcases List.mem_cons.mp h with h1 | h1
    · subst h1
      simp [mgGet]
    · by_cases hk : k2 = kv.1
      · simp [mgGet, hk]
      · simp only [mgGet, hk, if_false, reduceIte]
        exact ih h1

/-- The field list produced by `mergedToFields` is the slot list mapped
through `mvalField`, appended to the starting accumulator. -/
theorem mtf_fst (m : Merged) (f : Nat) :
    ∀ acc : HObj × Option HObj,
      (m.foldl (fun acc kv =>
        match kv.2 with
        | .plain v => (acc.1 ++ [(kv.1, v)], acc.2)
        | .props pes => (acc.1 ++ [(kv.1, HVal.ref f)], some pes)) acc).1 =
      acc.1 ++ m.map (mvalField f) := by
  induction m with
  | nil => intro acc; simp
  | cons hd tl ih =>
    intro acc
    obtain ⟨key, mv⟩ := hd
    cases mv with
    | plain v =>
      rw [List.foldl_cons, ih]
      simp [mvalField]
    | props pes =>
      rw [List.foldl_cons, ih]
      simp [mvalField]

/-- Field lookup in the mapped slot list agrees with merged lookup. -/
theorem getFH_map_mval (m : Merged) (f : Nat) (k : String) :
    getFH (m.map (mvalField f)) k =
      Option.map (fun mv => match mv with
        | MVal.plain v => v
        | MVal.props _ => HVal.ref f) (mgGet m k) := by
  induction m with
  | nil => rfl
  | cons hd tl ih =>
    obtain ⟨k2, mv⟩ := hd
    by_cases hk : k2 = k
    · subst hk
      cases mv <;> simp [mvalField, getFH, mgGet]
    · cases mv <;>
        simp only [List.map_cons, mvalField, getFH, mgGet, hk, if_false, reduceIte] <;>
        exact ih

/-- A fold over slots holding no container leaves the container output
unchanged. -/
theorem mtf_snd_noprops (m : Merged) (f : Nat)
    (h : ∀ kv ∈ m, ∀ P : HObj, kv.2 ≠ MVal.props P) :
    ∀ acc : HObj × Option HObj,
      (m.foldl (fun acc kv =>
        match kv.2 with
        | .plain v => (acc.1 ++ [(kv.1, v)], acc.2)
        | .props pes => (acc.1 ++ [(kv.1, HVal.ref f)], some pes)) acc).2 = acc.2 := by
  induction m with
  | nil => intro acc; rfl
  | cons hd tl ih =>
    intro acc
    obtain ⟨key, mv⟩ := hd
    cases mv with
    | plain v =>
      rw [List.foldl_cons]
      exact ih (fun kv hkv => h kv (List.mem_cons_of_mem _ hkv)) _
    | props pes =>
      exact absurd rfl (h (key, MVal.props pes) (List.mem_cons_self _ _) pes)

/-- With a well-shaped accumulator holding a container at `properties`,
the rebuilt pair surfaces exactly that container. -/
theorem mtf_snd_props (m : Merged) (f : Nat) (P : HObj)
    (hok : mergedOK m) (hm : mgGet m "properties" = some (MVal.props P)) :
    ∀ acc : HObj × Option HObj,
      (m.foldl (fun acc kv =>
        match kv.2 with
        | .plain v => (acc.1 ++ [(kv.1, v)], acc.2)
        | .props pes => (acc.1 ++ [(kv.1, HVal.ref f)], some pes)) acc).2 = some P := by
  induction m with
  | nil => intro acc; cases hm
  | cons hd tl ih =>
    intro acc
    obtain ⟨key, mv⟩ := hd
    by_cases hk : key = "properties"
    · subst hk
      have hmv : mv = MVal.props P := by simpa [mgGet] using hm
      subst hmv
      have hnd : "properties" ∉ tl.map Prod.fst := by
        have := hok.1
        simp only [List.map_cons, List.nodup_cons] at this
        exact this.1
      have hnone : mgGet tl "properties" = none := mgGet_eq_none_of_not_mem tl _ hnd
      have hnp : ∀ kv ∈ tl, ∀ Q : HObj, kv.2 ≠ MVal.props Q := by
        intro kv hkv Q hQ
        have hkey : kv.1 = "properties" :=
          hok.2 kv (List.mem_cons_of_mem _ hkv) Q hQ
        exact mgGet_isSome_of_mem tl kv hkv (by rw [hkey]; exact hnone)
      rw [List.foldl_cons]
      rw [mtf_snd_noprops tl f hnp]
    · have hm2 : mgGet tl "properties" = some (MVal.props P) := by
        simpa [mgGet, hk] using hm
      have hok2 : mergedOK tl := by
        constructor
        · have := hok.1
          simp only [List.map_cons, List.nodup_cons] at this
          exact this.2
        · intro kv hkv Q hQ
          exact hok.2 kv (List.mem_cons_of_mem _ hkv) Q hQ
      have hmv : ∀ Q : HObj, mv ≠ MVal.props Q := by
        intro Q hQ
        exact hk (hok.2 (key, mv) (List.mem_cons_self _ _) Q hQ)
      rw [List.foldl_cons]
      cases mv with
      | plain v => exact ih hok2 hm2 _
      | props pes => exact absurd rfl (hmv pes)


/-- Reading the freshly appended slot of the arena. -/
theorem heapGet_append_self (h : Heap) (p : HObj) : heapGet (h ++ [p]) h.length = p := by
  induction h with
  | nil => rfl
  | cons hd tl ih =>
    simpa [heapGet] using ih

/-- Reading the freshly appended slot of the arena, with the index given
as any term equal to the old length. -/
theorem heapGet_append_at (h : Heap) (p : HObj) (i : Nat) (hi : i = h.length) :
    heapGet (h ++ [p]) i = p := by
  subst hi
  exact heapGet_append_self h p

/-- Field lookup in the rebuilt object is the merged lookup with
containers turned into references to the fresh node. -/
theorem getFH_mtf (m : Merged) (f : Nat) (k : String) :
    getFH (mergedToFields m f).1 k =
      Option.map (fun mv => match mv with
        | MVal.plain v => v
        | MVal.props _ => HVal.ref f) (mgGet m k) := by
  unfold mergedToFields
  rw [mtf_fst]
  rw [List.nil_append]
  exact getFH_map_mval m f k

/-- The `required` list read off the rebuilt object is the accumulator's
recorded required list. -/
theorem reqListOf_mtf (m : Merged) (f : Nat) :
    reqListOfH (mergedToFields m f).1 = reqOfM m := by
  unfold reqListOfH reqOfM
  rw [getFH_mtf]
  rcases mgGet m "required" with _ | mv
  · rfl
  · cases mv with
    | plain v => cases v <;> rfl
    | props P => rfl

/-- A well-shaped accumulator without a `properties` slot holds no
container anywhere, so the rebuilt pair surfaces no fresh node. -/
theorem mtf_snd_none (m : Merged) (f : Nat)
    (hok : mergedOK m) (hm : mgGet m "properties" = none) :
    (mergedToFields m f).2 = none := by
  have hnp : ∀ kv ∈ m, ∀ Q : HObj, kv.2 ≠ MVal.props Q := by
    intro kv hkv Q hQ
    have hkey : kv.1 = "properties" := hok.2 kv hkv Q hQ
    exact mgGet_isSome_of_mem m kv hkv (by rw [hkey]; exact hm)
  unfold mergedToFields
  exact mtf_snd_noprops m f hnp ([], none)

/-- A well-shaped accumulator with a container at `properties` rebuilds
to exactly that container as the fresh node. -/
theorem mtf_snd_some (m : Merged) (f : Nat) (P : HObj)
    (hok : mergedOK m) (hm : mgGet m "properties" = some (MVal.props P)) :
    (mergedToFields m f).2 = some P := by
  unfold mergedToFields
  exact mtf_snd_props m f P hok hm ([], none)

/-- On reference members carrying no `$ref`, the member-resolution loop
is the identity: the heap is untouched and every member comes back as
itself. -/
theorem resolveItems_flat (heap : Heap) (rootId : Nat) (ids : List Nat)
    (h : ∀ i ∈ ids, getFH (heapGet heap i) "$ref" = none) :
    resolveItems heap rootId (ids.map HVal.ref) = (heap, some (ids.map HVal.ref)) := by
  induction ids with
  | nil => rfl
  | cons i rest ih =>
    have hi := h i (by simp)
    have hrest : ∀ j ∈ rest, getFH (heapGet heap j) "$ref" = none :=
      fun j hj => h j (List.mem_cons_of_mem _ hj)
    rw [List.map_cons]
    unfold resolveItems
    have hstep : resolveOneRefStep heap rootId (HVal.ref i) = (heap, none) := by
      unfold resolveOneRefStep
      dsimp only []
      rw [hi]
    rw [hstep]
    dsimp only []
    rw [ih hrest]
    rfl

/-- On reference members without a truthy `allOf`, the member-merge loop
never recurses: it folds plain merges over the unchanged heap. -/
theorem mergeLoopF_flat (n : Nat) (heap : Heap) (rootId : Nat) (active : List Nat)
    (ids : List Nat)
    (h : ∀ i ∈ ids, fieldTruthyH (heapGet heap i) "allOf" = false) :
    ∀ merged : Merged, mergeLoopF n heap rootId active merged (ids.map HVal.ref) =
      some (heap, ids.foldl (fun m i => mergeSchema heap m (.ref i)) merged) := by
  induction ids with
  | nil =>
    intro merged
    rw [List.map_nil, List.foldl_nil]
    unfold mergeLoopF
    rfl
  | cons i rest ih =>
    intro merged
    have hi := h i (by simp)
    have hrest : ∀ j ∈ rest, fieldTruthyH (heapGet heap j) "allOf" = false :=
      fun j hj => h j (List.mem_cons_of_mem _ hj)
    rw [List.map_cons, List.foldl_cons]
    unfold mergeLoopF
    dsimp only []
    rw [hi]
    simp only [Bool.false_eq_true, if_false, reduceIte]
    exact ih hrest _

/-- Folding whole sources never introduces an `allOf` slot. -/
theorem fold_sources_allOf (heap : Heap) (ids : List Nat) :
    ∀ m : Merged, mgGet m "allOf" = none →
      mgGet (ids.foldl (fun m i => mergeSchema heap m (.ref i)) m) "allOf" = none := by
  induction ids with
  | nil => intro m hm; exact hm
  | cons i rest ih =>
    intro m hm
    rw [List.foldl_cons]
    exact ih _ (mergeSchema_allOf heap m _ hm)


/-- Ensuring a schema `type` leaves the `required` list alone. -/
theorem reqListOf_ensure (es : HObj) :
    reqListOfH (ensureSchemaTypeFields es) = reqListOfH es := by
  unfold reqListOfH
  rw [ensureSchemaTypeFields_other _ _ (by decide)]

/-- The flat case of `flattenAllOf`: on a schema whose `allOf` members
are plain object nodes (no `$ref`, no nested truthy `allOf`), one pass
succeeds, removes `allOf`, makes `required` the deduplicated
concatenation of the own and member `required` lists, and makes
`properties` the left-to-right union of the own and member property
maps (later wins). -/
theorem flattenAllOf_flat (n : Nat) (heap : Heap) (rootId : Nat) (active : List Nat)
    (sid : Nat) (ids : List Nat)
    (hallOf : getFH (heapGet heap sid) "allOf" = some (.arr (ids.map HVal.ref)))
    (hne : ids ≠ [])
    (hact : active.contains sid = false)
    (hmem : ∀ i ∈ ids, getFH (heapGet heap i) "$ref" = none ∧
      fieldTruthyH (heapGet heap i) "allOf" = false)
    (hstd : ∀ i ∈ sid :: ids, stdEntries (heapGet heap i) ∧ nodupKeys (heapGet heap i)) :
    ∃ h2 : Heap, flattenAllOfF (n + 1) heap rootId active sid = some (h2, true)
      ∧ getFH (heapGet h2 sid) "allOf" = none
      ∧ reqListOfH (heapGet h2 sid) =
          dedupHL (((sid :: ids).map (fun i => reqListOfH (heapGet heap i))).flatten)
      ∧ propsMapOfH h2 (heapGet h2 sid) =
          (match ((sid :: ids).map (fun i => propsMapOfH heap (heapGet heap i))).flatten with
           | [] => []
           | ps => [specPropsUnion ps]) := by
  have hsid : sid < heap.length := by
    by_contra hge
    push_neg at hge
    have hnone : heap[sid]? = none := List.getElem?_eq_none hge
    rw [show heapGet heap sid = [] from by simp [heapGet, hnone]] at hallOf
    simp [getFH] at hallOf
  have hitems : (ids.map HVal.ref).isEmpty = false := by
    cases ids with
    | nil => exact absurd rfl hne
    | cons a l => rfl
  obtain ⟨hreq, hprops, hpsOK, hrsOK⟩ :=
    fold_sources_mg heap (sid :: ids) [] [] [] (Or.inl rfl) (Or.inl rfl) rfl rfl hstd
  rw [List.nil_append] at hreq
  rw [List.nil_append] at hprops
  have hok : mergedOK ((sid :: ids).foldl (fun m i => mergeSchema heap m (.ref i)) []) :=
    fold_sources_mergedOK heap (sid :: ids) []
      ⟨List.nodup_nil, fun kv hkv => absurd hkv (List.not_mem_nil kv)⟩
  have hallOfM : mgGet ((sid :: ids).foldl (fun m i => mergeSchema heap m (.ref i)) [])
      "allOf" = none := fold_sources_allOf heap (sid :: ids) [] rfl
  have hrun1 : flattenAllOfF (n + 1) heap rootId active sid =
      some ((match (mergedToFields
          ((sid :: ids).foldl (fun m i => mergeSchema heap m (.ref i)) []) heap.length).2 with
        | some pes => heapSet heap sid (ensureSchemaTypeFields (mergedToFields
            ((sid :: ids).foldl (fun m i => mergeSchema heap m (.ref i)) []) heap.length).1)
            ++ [pes]
        | none => heapSet heap sid (ensureSchemaTypeFields (mergedToFields
            ((sid :: ids).foldl (fun m i => mergeSchema heap m (.ref i)) []) heap.length).1)),
        true) := by
    unfold flattenAllOfF
    dsimp only []
    rw [hallOf]
    dsimp only []
    rw [hitems, hact]
    simp only [Bool.false_eq_true, if_false, reduceIte]
    rw [resolveItems_flat heap rootId ids (fun i hi => (hmem i hi).1)]
    dsimp only []
    rw [mergeLoopF_flat n heap rootId (active ++ [sid]) ids
      (fun i hi => (hmem i hi).2) (mergeSchema heap [] (HVal.ref sid))]
    dsimp only []
    simp only [List.foldl_cons]
  rcases hpm : ((sid :: ids).map (fun i => propsMapOfH heap (heapGet heap i))).flatten
      with _ | ⟨p0, prest⟩
  · rw [hpm] at hprops
    have hpnone : mgGet ((sid :: ids).foldl (fun m i => mergeSchema heap m (.ref i)) [])
        "properties" = none := hprops
    have hfc : (mergedToFields
        ((sid :: ids).foldl (fun m i => mergeSchema heap m (.ref i)) []) heap.length).2 =
        none := mtf_snd_none _ heap.length hok hpnone
    rw [hfc] at hrun1
    have hrun2 : flattenAllOfF (n + 1) heap rootId active sid =
        some (heapSet heap sid (ensureSchemaTypeFields (mergedToFields
          ((sid :: ids).foldl (fun m i => mergeSchema heap m (.ref i)) []) heap.length).1),
          true) := hrun1
    have hget : heapGet (heapSet heap sid (ensureSchemaTypeFields (mergedToFields
        ((sid :: ids).foldl (fun m i => mergeSchema heap m (.ref i)) []) heap.length).1)) sid =
        ensureSchemaTypeFields (mergedToFields
          ((sid :: ids).foldl (fun m i => mergeSchema heap m (.ref i)) []) heap.length).1 :=
      heapGet_heapSet_self heap sid _ hsid
    refine ⟨_, hrun2, ?_, ?_, ?_⟩
    · rw [hget, ensureSchemaTypeFields_other _ _ (by decide), getFH_mtf, hallOfM]
      rfl
    · rw [hget, reqListOf_ensure, reqListOf_mtf]
      exact hreq
    · rw [hget]
      unfold propsMapOfH
      rw [ensureSchemaTypeFields_other _ _ (by decide), getFH_mtf, hpnone]
      rfl
  · rw [hpm] at hprops
    have hpsome : mgGet ((sid :: ids).foldl (fun m i => mergeSchema heap m (.ref i)) [])
        "properties" = some (.props (propsUnionFrom (p0 :: prest) [])) := hprops
    have hfc : (mergedToFields
        ((sid :: ids).foldl (fun m i => mergeSchema heap m (.ref i)) []) heap.length).2 =
        some (propsUnionFrom (p0 :: prest) []) :=
      mtf_snd_some _ heap.length _ hok hpsome
    rw [hfc] at hrun1
    have hrun2 : flattenAllOfF (n + 1) heap rootId active sid =
        some (heapSet heap sid (ensureSchemaTypeFields (mergedToFields
          ((sid :: ids).foldl (fun m i => mergeSchema heap m (.ref i)) []) heap.length).1)
          ++ [propsUnionFrom (p0 :: prest) []], true) := hrun1
    have hlen : sid < (heapSet heap sid (ensureSchemaTypeFields (mergedToFields
        ((sid :: ids).foldl (fun m i => mergeSchema heap m (.ref i)) []) heap.length).1)).length := by
      simpa [heapSet] using hsid
    have hget : heapGet (heapSet heap sid (ensureSchemaTypeFields (mergedToFields
        ((sid :: ids).foldl (fun m i => mergeSchema heap m (.ref i)) []) heap.length).1)
        ++ [propsUnionFrom (p0 :: prest) []]) sid =
        ensureSchemaTypeFields (mergedToFields
          ((sid :: ids).foldl (fun m i => mergeSchema heap m (.ref i)) []) heap.length).1 := by
      rw [heapGet_append_lt _ _ _ hlen]
      exact heapGet_heapSet_self heap sid _ hsid
    have hlen2 : (heapSet heap sid (ensureSchemaTypeFields (mergedToFields
        ((sid :: ids).foldl (fun m i => mergeSchema heap m (.ref i)) []) heap.length).1)).length =
        heap.length := by
      simp [heapSet]
    refine ⟨_, hrun2, ?_, ?_, ?_⟩
    · rw [hget, ensureSchemaTypeFields_other _ _ (by decide), getFH_mtf, hallOfM]
      rfl
    · rw [hget, reqListOf_ensure, reqListOf_mtf]
      exact hreq
    · rw [hget]
      unfold propsMapOfH
      rw [ensureSchemaTypeFields_other _ _ (by decide), getFH_mtf, hpsome]
      dsimp only [Option.map, entriesOfH]
      rw [heapGet_append_at _ _ _ hlen2.symm]
      rfl


/-- C1 counterexample: the flattening of `{allOf:[42]}` terminates but
returns `false` and keeps the `allOf` key in place (a falsy/non-object
member aborts the pass), and the flattening of
`{allOf:[{type:"object"}], required:["z"]}` produces `required = ["z"]`
even though the deduplicated set union of the members' `required`
arrays is empty — the node's own `required` is merged in as well. -/
theorem spec2proof_C1_counterexample :
    (flattenAllOfF 9 [[("allOf", HVal.arr [HVal.num 42])]] 0 [] 0 =
        some ([[("allOf", HVal.arr [HVal.num 42])]], false)
      ∧ getFH (heapGet [[("allOf", HVal.arr [HVal.num 42])]] 0) "allOf" ≠ none)
    ∧ (flattenAllOfF 9 [[("allOf", HVal.arr [HVal.ref 1]),
          ("required", HVal.arr [HVal.str "z"])], [("type", HVal.str "object")]] 0 [] 0 =
        some ([[("required", HVal.arr [HVal.str "z"]), ("type", HVal.str "object")],
          [("type", HVal.str "object")]], true)
      ∧ reqListOfH (heapGet [[("required", HVal.arr [HVal.str "z"]),
          ("type", HVal.str "object")], [("type", HVal.str "object")]] 0) = [HVal.str "z"]
      ∧ dedupHL ((([1] : List Nat).map (fun i => reqListOfH (heapGet [[("allOf",
          HVal.arr [HVal.ref 1]), ("required", HVal.arr [HVal.str "z"])],
          [("type", HVal.str "object")]] i))).flatten) = []) := by
  refine ⟨⟨?_, by decide⟩, ?_, by decide, by decide⟩
  · simp +decide [flattenAllOfF, mergeLoopF, resolveItems, resolveOneRefStep,
      mergeSchema, mergeSchemaStep, mergedToFields, ensureSchemaTypeFields,
      heapGet, heapSet, getFH, setFH, htruthy, hIsObj, fieldTruthyH, entriesOfH,
      mgGet, mgSet, mgHas, reqListOfH, dedupHL, reqOfM]
  · simp +decide [flattenAllOfF, mergeLoopF, resolveItems, resolveOneRefStep,
      mergeSchema, mergeSchemaStep, mergedToFields, ensureSchemaTypeFields,
      heapGet, heapSet, getFH, setFH, htruthy, hIsObj, fieldTruthyH, entriesOfH,
      mgGet, mgSet, mgHas, reqListOfH, dedupHL, reqOfM]

/-- C2: on the direct self-reference document `{"A": {"$ref": "#/A"}}`,
the dereferencer returns (rather than exhausting fuel or hanging),
substitutes the safe placeholder `{"type": "object"}` at the cyclic
position, and its cycle counter is at least 1.  The universal half of the
claim — termination on every document — is neither proved nor refuted by
this development. -/
theorem spec2proof_C2 :
    ∃ r : DerefResult,
      dereferenceSwagger2 10
        (Json.obj [("A", Json.obj [("$ref", Json.str "#/A")])]) (Json.obj []) =
        Except.ok r
      ∧ r.spec = Json.obj [("A", Json.obj [("type", Json.str "object")])]
      ∧ 1 ≤ r.cycleRefs := by
  refine ⟨⟨Json.obj [("A", Json.obj [("type", Json.str "object")])], 1, 1, 1⟩,
    ?_, rfl, by decide⟩
  simp +decide [dereferenceSwagger2, derefAttachedF, derefAttachedEntriesF,
    derefAttachedItemsF, derefDetachedF, derefListF, derefEntriesF, derefRefF,
    getF, setF, delF, jsGet, jsSet, jsDel, setAtKeys, getAtKeys, resolveRef,
    resolveRefParts, refWalk, strSplitOn, splitOnAux, strStartsWith, truthy,
    isObjJS, spliceKey, ptrUnescape, strReplaceAll, replaceAllAux, isRefNode,
    canonIndex, digitsToNat]

/-- Every character `Nat.toDigitsCore` emits in base 10 is a digit. -/
theorem toDigitsCore_digits :
    ∀ (f n : Nat) (ds : List Char), (∀ c ∈ ds, c.isDigit = true) →
      ∀ c ∈ Nat.toDigitsCore 10 f n ds, c.isDigit = true := by
  intro f
  induction f with
  | zero => intro n ds hds; exact hds
  | succ f ih =>
    intro n ds hds c hc
    have hm : n % 10 < 10 := Nat.mod_lt _ (by norm_num)
    have hd : (Nat.digitChar (n % 10)).isDigit = true := by
      set k := n % 10 with hk
      interval_cases k <;> decide
    unfold Nat.toDigitsCore at hc
    dsimp only [] at hc
    by_cases hz : n / 10 = 0
    · rw [if_pos hz] at hc
      rcases List.mem_cons.mp hc with h1 | h1
      · rw [h1]; exact hd
      · exact hds c h1
    · rw [if_neg hz] at hc
      refine ih (n / 10) (Nat.digitChar (n % 10) :: ds) ?_ c hc
      intro c2 hc2
      rcases List.mem_cons.mp hc2 with h1 | h1
      · rw [h1]; exact hd
      · exact hds c2 h1

/-- A numeric index key (as produced by enumerating a JavaScript array)
is never the string `properties`. -/
theorem toString_nat_ne_properties (n : Nat) : toString n ≠ "properties" := by
  intro h
  have hall : ∀ c ∈ Nat.toDigitsCore 10 (n + 1) n [], c.isDigit = true :=
    toDigitsCore_digits (n + 1) n [] (by intro c hc; cases hc)
  have hdata : (toString n).data = Nat.toDigitsCore 10 (n + 1) n [] := rfl
  have hp : 'p' ∈ (toString n).data := by
    rw [h]
    decide
  have := hall 'p' (hdata ▸ hp)
  exact absurd this (by decide)


/-- Setting one slot of the arena leaves every other slot alone. -/
theorem heapGet_heapSet_ne (h : Heap) (i j : Nat) (f : HObj) (hij : i ≠ j) :
    heapGet (heapSet h i f) j = heapGet h j := by
  unfold heapGet heapSet
  rw [List.get?_eq_getElem?, List.get?_eq_getElem?, List.getElem?_set_ne hij]

/-- Reading past the end of the arena yields the empty object. -/
theorem heapGet_ge (h : Heap) (i : Nat) (hi : h.length ≤ i) : heapGet h i = [] := by
  unfold heapGet
  rw [List.get?_eq_getElem?, List.getElem?_eq_none hi]
  rfl

/-- Membership after a field assignment. -/
theorem mem_setFH (es : HObj) (k : String) (v : HVal) (kv : String × HVal)
    (h : kv ∈ setFH es k v) : kv ∈ es ∨ kv = (k, v) := by
  induction es with
  | nil =>
    simp only [setFH, List.mem_singleton] at h
    exact Or.inr h
  | cons hd tl ih =>
    obtain ⟨k2, v2⟩ := hd
    by_cases hk : k2 = k
    · subst hk
      simp only [setFH] at h
      rw [if_pos trivial] at h
      rw [List.mem_cons] at h
      rcases h with h | h
      · exact Or.inr (by simp [h])
      · exact Or.inl (by simp [h])
    · simp only [setFH, hk, if_false, reduceIte, List.mem_cons] at h
      rcases h with h | h
      · exact Or.inl (by simp [h])
      · rcases ih h with h2 | h2
        · exact Or.inl (by simp [h2])
        · exact Or.inr h2

/-- An absent field means no entry carries its key. -/
theorem getFH_none_not_mem (es : HObj) (k : String) (h : getFH es k = none) :
    ∀ kv ∈ es, kv.1 ≠ k := by
  induction es with
  | nil => intro kv hkv; cases hkv
  | cons hd tl ih =>
    obtain ⟨k2, v2⟩ := hd
    intro kv hkv
    by_cases hk : k2 = k
    · rw [hk] at h
      simp [getFH] at h
    · simp only [getFH, hk, if_false, reduceIte] at h
      rcases List.mem_cons.mp hkv with h1 | h1
      · rw [h1]
        exact hk
      · exact ih h kv h1

/-- Folding assignments whose keys all differ from `k` leaves the `k`
lookup alone. -/
theorem getFH_fold_setFH (m : HObj) (k : String) :
    ∀ acc : HObj, (∀ kv ∈ m, kv.1 ≠ k) →
      getFH (m.foldl (fun a e => setFH a e.1 e.2) acc) k = getFH acc k := by
  induction m with
  | nil => intro acc _; rfl
  | cons hd tl ih =>
    intro acc hm
    rw [List.foldl_cons]
    rw [ih _ (fun kv hkv => hm kv (List.mem_cons_of_mem _ hkv))]
    exact getFH_setFH_other _ _ _ _ (Ne.symm (hm hd (List.mem_cons_self _ _)))

/-- The heap output of the one-member `$ref` step: either untouched, or
one slot updated at its `$ref` field. -/
theorem resolveOneRefStep_cases (heap : Heap) (rootId : Nat) (item : HVal) :
    (resolveOneRefStep heap rootId item).1 = heap ∨
    ∃ iid cand, (resolveOneRefStep heap rootId item).1 =
      heapSet heap iid (setFH (heapGet heap iid) "$ref" (HVal.str cand)) := by
  rcases item with _ | b | nv | sv | l | iid
  all_goals try exact Or.inl rfl
  unfold resolveOneRefStep
  dsimp only []
  rcases getFH (heapGet heap iid) "$ref" with _ | refV
  · exact Or.inl rfl
  · dsimp only []
    split
    · dsimp only []
      split
      · split
        · split
          · split
            · exact Or.inr ⟨iid, _, rfl⟩
            · exact Or.inl rfl
          · exact Or.inl rfl
        · exact Or.inl rfl
      · exact Or.inl rfl
    · exact Or.inl rfl


/-- The one-member `$ref` step can only change `$ref` fields. -/
theorem resolveOneRefStep_keep (heap : Heap) (rootId : Nat) (item : HVal)
    (i : Nat) (k : String) (hk : k ≠ "$ref") :
    getFH (heapGet (resolveOneRefStep heap rootId item).1 i) k =
      getFH (heapGet heap i) k := by
  rcases resolveOneRefStep_cases heap rootId item with h | ⟨iid, cand, h⟩
  · rw [h]
  · rw [h]
    by_cases hij : iid = i
    · subst hij
      by_cases hlt : iid < heap.length
      · rw [heapGet_heapSet_self _ _ _ hlt]
        exact getFH_setFH_other _ _ _ _ hk
      · push_neg at hlt
        unfold heapSet
        rw [List.set_eq_of_length_le hlt]
    · rw [heapGet_heapSet_ne _ _ _ _ hij]

/-- The one-member `$ref` step keeps the properties hygiene condition. -/
theorem resolveOneRefStep_propsOK (heap : Heap) (rootId : Nat) (item : HVal)
    (hok : heapPropsOK heap) : heapPropsOK (resolveOneRefStep heap rootId item).1 := by
  intro id kv hkv hp
  have hkeep := resolveOneRefStep_keep heap rootId item
  have hold : kv ∈ heapGet heap id ∨ kv.1 = "$ref" := by
    rcases resolveOneRefStep_cases heap rootId item with h | ⟨iid, cand, h⟩
    · rw [h] at hkv
      exact Or.inl hkv
    · rw [h] at hkv
      by_cases hij : iid = id
      · subst hij
        by_cases hlt : iid < heap.length
        · rw [heapGet_heapSet_self _ _ _ hlt] at hkv
          rcases mem_setFH _ _ _ _ hkv with h2 | h2
          · exact Or.inl h2
          · rw [h2]
            exact Or.inr rfl
        · push_neg at hlt
          unfold heapSet at hkv
          rw [List.set_eq_of_length_le hlt] at hkv
          exact Or.inl hkv
      · rw [heapGet_heapSet_ne _ _ _ _ hij] at hkv
        exact Or.inl hkv
  rcases hold with hold | hold
  · obtain ⟨h1, h2⟩ := hok id kv hold hp
    refine ⟨h1, ?_⟩
    intro pid hpid
    obtain ⟨h3, h4⟩ := h2 pid hpid
    rw [hkeep pid "allOf" (by decide), hkeep pid "properties" (by decide)]
    exact ⟨h3, h4⟩
  · rw [hp] at hold
    exact absurd hold (by decide)

/-- Member resolution can only change `$ref` fields. -/
theorem resolveItems_keep (rootId : Nat) (items : List HVal) :
    ∀ (heap : Heap) (i : Nat) (k : String), k ≠ "$ref" →
      getFH (heapGet (resolveItems heap rootId items).1 i) k =
        getFH (heapGet heap i) k := by
  induction items with
  | nil => intro heap i k hk; rfl
  | cons item rest ih =>
    intro heap i k hk
    unfold resolveItems
    dsimp only []
    by_cases hb : (!(htruthy item && hIsObj item)) = true
    · rw [if_pos hb]
    · rw [if_neg hb]
      rcases hros : resolveOneRefStep heap rootId item with ⟨heap2, ropt⟩
      have h2 : getFH (heapGet heap2 i) k = getFH (heapGet heap i) k := by
        have := resolveOneRefStep_keep heap rootId item i k hk
        rw [hros] at this
        exact this
      rcases ropt with _ | resolved
      · dsimp only []
        rcases hri : resolveItems heap2 rootId rest with ⟨h3, r3⟩
        have h4 : getFH (heapGet h3 i) k = getFH (heapGet heap2 i) k := by
          have := ih heap2 i k hk
          rw [hri] at this
          exact this
        rcases r3 with _ | items3 <;> dsimp only [] <;> rw [h4, h2]
      · dsimp only []
        by_cases hr2 : (!(htruthy resolved && hIsObj resolved)) = true
        · rw [if_pos hr2]
          exact h2
        · rw [if_neg hr2]
          rcases hri : resolveItems heap2 rootId rest with ⟨h3, r3⟩
          have h4 : getFH (heapGet h3 i) k = getFH (heapGet heap2 i) k := by
            have := ih heap2 i k hk
            rw [hri] at this
            exact this
          rcases r3 with _ | items3 <;> dsimp only [] <;> rw [h4, h2]

/-- Member resolution keeps the properties hygiene condition. -/
theorem resolveItems_propsOK (rootId : Nat) (items : List HVal) :
    ∀ heap : Heap, heapPropsOK heap →
      heapPropsOK (resolveItems heap rootId items).1 := by
  induction items with
  | nil => intro heap hok; exact hok
  | cons item rest ih =>
    intro heap hok
    unfold resolveItems
    dsimp only []
    by_cases hb : (!(htruthy item && hIsObj item)) = true
    · rw [if_pos hb]
      exact hok
    · rw [if_neg hb]
      rcases hros : resolveOneRefStep heap rootId item with ⟨heap2, ropt⟩
      have hok2 : heapPropsOK heap2 := by
        have := resolveOneRefStep_propsOK heap rootId item hok
        rw [hros] at this
        exact this
      have hrest := ih heap2 hok2
      rcases ropt with _ | resolved
      · dsimp only []
        rcases hri : resolveItems heap2 rootId rest with ⟨h3, r3⟩
        rw [hri] at hrest
        rcases r3 with _ | items3 <;> dsimp only [] <;> exact hrest
      · dsimp only []
        by_cases hr2 : (!(htruthy resolved && hIsObj resolved)) = true
        · rw [if_pos hr2]
          exact hok2
        · rw [if_neg hr2]
          rcases hri : resolveItems heap2 rootId rest with ⟨h3, r3⟩
          rw [hri] at hrest
          rcases r3 with _ | items3 <;> dsimp only [] <;> exact hrest

/-- Member resolution keeps the flatten-target set. -/
theorem allOfBearing_resolveItems (rootId : Nat) (items : List HVal) (heap : Heap) :
    allOfBearing (resolveItems heap rootId items).1 = allOfBearing heap := by
  have hlen := resolveItems_len rootId items heap
  apply Finset.ext
  intro id
  unfold allOfBearing
  simp only [Finset.mem_filter, Finset.mem_range, hlen]
  constructor
  · rintro ⟨h1, h2⟩
    refine ⟨h1, ?_⟩
    unfold isABid at h2 ⊢
    rw [resolveItems_keep rootId items heap id "allOf" (by decide)] at h2
    exact h2
  · rintro ⟨h1, h2⟩
    refine ⟨h1, ?_⟩
    unfold isABid at h2 ⊢
    rw [resolveItems_keep rootId items heap id "allOf" (by decide)]
    exact h2

/-- Fewer flatten targets, lower measure. -/
theorem flattenMeasure_mono (h1 h2 : Heap) (A : List Nat)
    (hsub : allOfBearing h2 ⊆ allOfBearing h1) :
    flattenMeasure h2 A ≤ flattenMeasure h1 A :=
  Finset.card_le_card (Finset.sdiff_subset_sdiff hsub (le_refl _))

/-- Entering a fresh flatten target strictly lowers the measure. -/
theorem flattenMeasure_descent (heap : Heap) (active : List Nat) (sid : Nat)
    (hab : isABid heap sid = true) (hlt : sid < heap.length)
    (hact : active.contains sid = false) :
    flattenMeasure heap (active ++ [sid]) + 1 ≤ flattenMeasure heap active := by
  have hnmem : sid ∉ active := by simpa using hact
  have hmem : sid ∈ allOfBearing heap \ active.toFinset := by
    rw [Finset.mem_sdiff]
    constructor
    · unfold allOfBearing
      rw [Finset.mem_filter, Finset.mem_range]
      exact ⟨hlt, hab⟩
    · rw [List.mem_toFinset]
      exact hnmem
  unfold flattenMeasure
  have heq : allOfBearing heap \ (active ++ [sid]).toFinset =
      (allOfBearing heap \ active.toFinset).erase sid := by
    ext x
    simp only [List.toFinset_append, Finset.mem_sdiff, Finset.mem_erase, Finset.mem_union,
      List.mem_toFinset, List.mem_singleton, List.toFinset_cons, List.toFinset_nil,
      insert_emptyc_eq, Finset.mem_insert, Finset.mem_singleton]
    tauto
  rw [heq, Finset.card_erase_of_mem hmem]
  have hpos : 1 ≤ (allOfBearing heap \ active.toFinset).card :=
    Finset.card_pos.mpr ⟨sid, hmem⟩
  omega

/-- One merge step keeps the accumulator's `properties` slot hygienic,
provided a `properties`-keyed entry carries a hygienic value. -/
theorem mergeSchemaStep_contFree (h : Heap) (t : Merged) (kv : String × HVal)
    (ht : contFree t) (hv : kv.1 = "properties" → propsValOK h kv.2) :
    contFree (mergeSchemaStep h t kv) := by
  obtain ⟨key, value⟩ := kv
  simp only [] at hv
  unfold mergeSchemaStep
  try dsimp only []
  by_cases h1 : key = "allOf"
  · rw [if_pos h1]
    exact ht
  · rw [if_neg h1]
    by_cases hb : (decide (key = "properties") && htruthy value && hIsObj value) = true
    · rw [if_pos hb]
      have hparts := hb
      simp only [Bool.and_eq_true, decide_eq_true_eq] at hparts
      have hkey : key = "properties" := hparts.1.1
      have htr : htruthy value = true := hparts.1.2
      have hio : hIsObj value = true := hparts.2
      obtain ⟨hva, hvr⟩ := hv hkey
      have hfree : ∀ acc : HObj, getFH acc "allOf" = none → getFH acc "properties" = none →
          getFH ((entriesOfH h value).foldl (fun a e => setFH a e.1 e.2) acc) "allOf" = none ∧
          getFH ((entriesOfH h value).foldl (fun a e => setFH a e.1 e.2) acc) "properties" =
            none := by
        intro acc ha hp
        rcases value with _ | b | nv | sv | l | pid
        · exact absurd htr (by decide)
        · simp [hIsObj] at hio
        · simp [hIsObj] at hio
        · simp [hIsObj] at hio
        · exact absurd rfl (hva l)
        · obtain ⟨hA, hP⟩ := hvr pid rfl
          have hent : entriesOfH h (HVal.ref pid) = heapGet h pid := rfl
          rw [hent]
          constructor
          · rw [getFH_fold_setFH _ _ acc (getFH_none_not_mem _ _ hA)]
            exact ha
          · rw [getFH_fold_setFH _ _ acc (getFH_none_not_mem _ _ hP)]
            exact hp
      have mkCont : ∀ acc : HObj, getFH acc "allOf" = none → getFH acc "properties" = none →
          contFree (mgSet t "properties" (.props ((entriesOfH h value).foldl
            (fun a e => setFH a e.1 e.2) acc))) := by
        intro acc ha hp
        constructor
        · intro P hP
          rw [mgGet_mgSet_self] at hP
          injection hP with hP2
          cases hP2
          exact hfree acc ha hp
        · intro v hV
          rw [mgGet_mgSet_self] at hV
          cases hV
      rcases hslot : mgGet t "properties" with _ | mv
      · exact mkCont [] rfl rfl
      · rcases mv with pv | pes
        · by_cases hpv : htruthy pv = true
          · dsimp only []
            rw [if_pos hpv]
            exact ht
          · dsimp only []
            rw [if_neg hpv]
            exact mkCont [] rfl rfl
        · obtain ⟨hA, hP⟩ := ht.1 pes hslot
          exact mkCont pes hA hP
    · rw [if_neg hb]
      by_cases hkey : key = "properties"
      · subst hkey
        rw [if_neg (by decide), if_neg (by decide), if_neg (by decide), if_neg (by decide),
          if_neg (by decide)]
        have hto : (htruthy value && hIsObj value) = false := by
          rcases Bool.eq_false_or_eq_true (htruthy value && hIsObj value) with h2 | h2
          · have h2h := h2
            simp only [Bool.and_eq_true] at h2h
            exact absurd (by simp [h2h.1, h2h.2]) hb
          · exact h2
        by_cases hhas : mgHas t "properties" = true
        · rw [hhas]
          simp only [Bool.not_true, Bool.false_eq_true, if_false, reduceIte]
          exact ht
        · rw [Bool.eq_false_iff.mpr hhas]
          simp only [Bool.not_false, if_true, reduceIte]
          constructor
          · intro P hP
            rw [mgGet_mgSet_self] at hP
            cases hP
          · intro v hV
            rw [mgGet_mgSet_self] at hV
            injection hV with hV2
            cases hV2
            exact hto
      · have base : ∀ (K : String) (v2 : MVal), "properties" ≠ K →
            contFree (mgSet t K v2) := by
          intro K v2 hK
          constructor
          · intro P hP
            rw [mgGet_mgSet_other _ _ _ _ hK] at hP
            exact ht.1 P hP
          · intro v3 hV
            rw [mgGet_mgSet_other _ _ _ _ hK] at hV
            exact ht.2 v3 hV
        split_ifs <;> (repeat' split) <;> (try split_ifs) <;>
          first
            | exact ht
            | exact base _ _ (by decide)
            | exact base _ _ (fun hh => hkey hh.symm)

/-- Folding merge steps over hygienic entries keeps the slot hygienic. -/
theorem foldl_contFree (h : Heap) (es : HObj)
    (hv : ∀ kv ∈ es, kv.1 = "properties" → propsValOK h kv.2) :
    ∀ t : Merged, contFree t → contFree (es.foldl (mergeSchemaStep h) t) := by
  induction es with
  | nil => intro t ht; exact ht
  | cons hd tl ih =>
    intro t ht
    rw [List.foldl_cons]
    exact ih (fun kv hkv => hv kv (List.mem_cons_of_mem _ hkv)) _
      (mergeSchemaStep_contFree h t hd ht (hv hd (List.mem_cons_self _ _)))

/-- Merging any source over a hygienic heap keeps the slot hygienic. -/
theorem mergeSchema_contFree (h : Heap) (hOK : heapPropsOK h) (t : Merged)
    (ht : contFree t) (src : HVal) : contFree (mergeSchema h t src) := by
  unfold mergeSchema
  rcases src with _ | b | nv | sv | l | sid
  · exact ht
  · exact ht
  · exact ht
  · exact ht
  · refine foldl_contFree h _ ?_ t ht
    intro kv hkv hk
    rw [show entriesOfH h (HVal.arr l) = l.enum.map (fun p => (toString p.1, p.2)) from rfl]
      at hkv
    obtain ⟨p, _, hp⟩ := List.mem_map.mp hkv
    rw [← hp] at hk
    exact absurd hk (toString_nat_ne_properties p.1)
  · refine foldl_contFree h _ ?_ t ht
    intro kv hkv hk
    exact hOK sid kv hkv hk


/-- With duplicate-free keys, every entry is what lookup returns. -/
theorem mgGet_of_mem_nodup (m : Merged) (kv : String × MVal)
    (hnd : (m.map Prod.fst).Nodup) (hm : kv ∈ m) : mgGet m kv.1 = some kv.2 := by
  induction m with
  | nil => cases hm
  | cons hd tl ih =>
    obtain ⟨k2, v2⟩ := hd
    simp only [List.map_cons, List.nodup_cons] at hnd
    rcases List.mem_cons.mp hm with h1 | h1
    · subst h1
      simp [mgGet]
    · have hne : k2 ≠ kv.1 := by
        intro hh
        exact hnd.1 (hh ▸ List.mem_map_of_mem Prod.fst h1)
      simp only [mgGet, hne, if_false, reduceIte]
      exact ih hnd.2 h1

/-- Entries of the type-backfilled fields: the original entries, plus
possibly a `type` entry. -/
theorem mem_ensure (es : HObj) (kv : String × HVal)
    (h : kv ∈ ensureSchemaTypeFields es) : kv ∈ es ∨ kv.1 = "type" := by
  unfold ensureSchemaTypeFields at h
  split_ifs at h <;>
    first
      | exact Or.inl h
      | (rcases mem_setFH _ _ _ _ h with h2 | h2
         · exact Or.inl h2
         · exact Or.inr (by rw [h2]))

/-- The rebuilt field list is the slot list mapped through `mvalField`. -/
theorem mtf_fields (m : Merged) (f : Nat) :
    (mergedToFields m f).1 = m.map (mvalField f) := by
  unfold mergedToFields
  rw [mtf_fst]
  rfl

/-- Writing the flattened node back (plus the optional fresh hygienic
containers) keeps the heap hygienic, keeps every other node's `allOf`
reading, and introduces no flatten target. -/
theorem flatten_final_propsOK (heap3 : Heap) (sid : Nat) (fields3 : HObj) (ext : List HObj)
    (hok3 : heapPropsOK heap3)
    (hsid : sid < heap3.length)
    (hsA : getFH (heapGet heap3 sid) "allOf" ≠ none)
    (hext : ∀ Q ∈ ext, getFH Q "allOf" = none ∧ getFH Q "properties" = none)
    (hf3A : getFH fields3 "allOf" = none)
    (hf3P : ∀ kv ∈ fields3, kv.1 = "properties" →
      propsValOK (heapSet heap3 sid fields3 ++ ext) kv.2) :
    heapPropsOK (heapSet heap3 sid fields3 ++ ext) ∧
    allOfBearing (heapSet heap3 sid fields3 ++ ext) ⊆ allOfBearing heap3 ∧
    (∀ i, i ≠ sid → getFH (heapGet (heapSet heap3 sid fields3 ++ ext) i) "allOf" =
        getFH (heapGet heap3 i) "allOf") := by
  have hBlen : (heapSet heap3 sid fields3).length = heap3.length := by
    simp [heapSet]
  have hGetCase : ∀ i, heapGet (heapSet heap3 sid fields3 ++ ext) i =
      heapGet (heapSet heap3 sid fields3) i ∨
      (∃ Q ∈ ext, heapGet (heapSet heap3 sid fields3 ++ ext) i = Q) ∧
        heap3.length ≤ i := by
    intro i
    by_cases hi : i < (heapSet heap3 sid fields3).length
    · left
      unfold heapGet
      rw [List.get?_eq_getElem?, List.get?_eq_getElem?, List.getElem?_append_left hi]
    · push_neg at hi
      rcases hq : (heapSet heap3 sid fields3 ++ ext)[i]? with _ | Q
      · left
        unfold heapGet
        rw [List.get?_eq_getElem?, List.get?_eq_getElem?, hq,
          List.getElem?_eq_none (by omega)]
      · right
        rw [List.getElem?_append_right hi] at hq
        refine ⟨⟨Q, List.getElem?_mem hq, ?_⟩, by omega⟩
        unfold heapGet
        rw [List.get?_eq_getElem?, List.getElem?_append_right hi, hq]
        rfl
  have hBsid : heapGet (heapSet heap3 sid fields3) sid = fields3 :=
    heapGet_heapSet_self heap3 sid fields3 hsid
  have hBne : ∀ i, i ≠ sid → heapGet (heapSet heap3 sid fields3) i = heapGet heap3 i :=
    fun i hi => heapGet_heapSet_ne heap3 sid i fields3 (fun hh => hi hh.symm)
  have h3 : ∀ i, i ≠ sid → getFH (heapGet (heapSet heap3 sid fields3 ++ ext) i) "allOf" =
      getFH (heapGet heap3 i) "allOf" := by
    intro i hi
    rcases hGetCase i with hcase | ⟨⟨Q, hQ, hcase⟩, hge⟩
    · rw [hcase, hBne i hi]
    · rw [hcase, (hext Q hQ).1, heapGet_ge heap3 i hge]
      rfl
  refine ⟨?_, ?_, h3⟩
  · intro id kv hkv hp
    rcases hGetCase id with hcase | ⟨⟨Q, hQ, hcase⟩, hge⟩
    · rw [hcase] at hkv
      by_cases hid : id = sid
      · subst hid
        rw [hBsid] at hkv
        exact hf3P kv hkv hp
      · rw [hBne id hid] at hkv
        obtain ⟨hva, hvr⟩ := hok3 id kv hkv hp
        refine ⟨hva, ?_⟩
        intro pid hpid
        obtain ⟨hA2, hP2⟩ := hvr pid hpid
        by_cases hpid2 : pid = sid
        · subst hpid2
          exact absurd hA2 hsA
        · rcases hGetCase pid with hc2 | ⟨⟨Q2, hQ2, hc2⟩, hge2⟩
          · rw [hc2, hBne pid hpid2]
            exact ⟨hA2, hP2⟩
          · rw [hc2]
            exact hext Q2 hQ2
    · rw [hcase] at hkv
      exact absurd hp (getFH_none_not_mem Q "properties" (hext Q hQ).2 kv hkv)
  · intro id hid
    unfold allOfBearing at hid ⊢
    rw [Finset.mem_filter, Finset.mem_range] at hid
    rw [Finset.mem_filter, Finset.mem_range]
    obtain ⟨hlen2, hab⟩ := hid
    by_cases hid2 : id = sid
    · exfalso
      unfold isABid at hab
      rcases hGetCase id with hcase | ⟨⟨Q, hQ, hcase⟩, hge⟩
      · rw [hcase, hid2, hBsid, hf3A] at hab
        simp at hab
      · rw [hcase, (hext Q hQ).1] at hab
        simp at hab
    · have hab2 : isABid heap3 id = true := by
        unfold isABid at hab ⊢
        rw [h3 id hid2] at hab
        exact hab
      by_cases hl : id < heap3.length
      · exact ⟨hl, hab2⟩
      · exfalso
        push_neg at hl
        unfold isABid at hab2
        rw [heapGet_ge heap3 id hl] at hab2
        simp [getFH] at hab2


/-- A well-shaped accumulator whose `properties` slot is plain holds no
container anywhere, so the rebuilt pair surfaces no fresh node. -/
theorem mtf_snd_plain (m : Merged) (f : Nat) (v : HVal)
    (hok : mergedOK m) (hm : mgGet m "properties" = some (MVal.plain v)) :
    (mergedToFields m f).2 = none := by
  have hnp : ∀ kv ∈ m, ∀ Q : HObj, kv.2 ≠ MVal.props Q := by
    intro kv hkv Q hQ
    have hkey : kv.1 = "properties" := hok.2 kv hkv Q hQ
    have := mgGet_of_mem_nodup m kv hok.1 hkv
    rw [hkey, hm] at this
    rw [hQ] at this
    cases this
  unfold mergedToFields
  exact mtf_snd_noprops m f hnp ([], none)

/-- The member-merge loop: with a hygienic heap and enough fuel for every
member flatten (supplied through `Hf`), the loop returns; the heap stays
hygienic, gains no flatten target, never shrinks, keeps the `allOf`
reading of every active node, and the accumulator stays hygienic,
well-shaped and `allOf`-free. -/
theorem mergeLoop_total_of (n μ0 : Nat) (rootId : Nat) (active : List Nat)
    (Hf : ∀ (heap : Heap) (sid : Nat), heapPropsOK heap →
      flattenMeasure heap active ≤ μ0 →
      ∃ r : Heap × Bool, flattenAllOfF n heap rootId active sid = some r ∧
        heapPropsOK r.1 ∧ allOfBearing r.1 ⊆ allOfBearing heap ∧
        heap.length ≤ r.1.length ∧
        (∀ i, active.contains i = true →
          getFH (heapGet r.1 i) "allOf" = getFH (heapGet heap i) "allOf")) :
    ∀ (items : List HVal) (heap : Heap) (merged : Merged), heapPropsOK heap →
      flattenMeasure heap active ≤ μ0 →
      ∃ rm : Heap × Merged, mergeLoopF n heap rootId active merged items = some rm ∧
        heapPropsOK rm.1 ∧ allOfBearing rm.1 ⊆ allOfBearing heap ∧
        heap.length ≤ rm.1.length ∧
        (∀ i, active.contains i = true →
          getFH (heapGet rm.1 i) "allOf" = getFH (heapGet heap i) "allOf") ∧
        (contFree merged → contFree rm.2) ∧
        (mergedOK merged → mergedOK rm.2) ∧
        (mgGet merged "allOf" = none → mgGet rm.2 "allOf" = none) := by
  intro items
  induction items with
  | nil =>
    intro heap merged hok _
    refine ⟨(heap, merged), by unfold mergeLoopF; rfl, hok, Finset.Subset.refl _,
      le_refl _, fun i _ => rfl, fun h => h, fun h => h, fun h => h⟩
  | cons item rest ih =>
    intro heap merged hok hmeas
    have hcont : ∀ heap2 : Heap, heapPropsOK heap2 →
        allOfBearing heap2 ⊆ allOfBearing heap →
        heap.length ≤ heap2.length →
        (∀ i, active.contains i = true →
          getFH (heapGet heap2 i) "allOf" = getFH (heapGet heap i) "allOf") →
        ∃ rm : Heap × Merged,
          mergeLoopF n heap2 rootId active (mergeSchema heap2 merged item) rest = some rm ∧
          heapPropsOK rm.1 ∧ allOfBearing rm.1 ⊆ allOfBearing heap ∧
          heap.length ≤ rm.1.length ∧
          (∀ i, active.contains i = true →
            getFH (heapGet rm.1 i) "allOf" = getFH (heapGet heap i) "allOf") ∧
          (contFree merged → contFree rm.2) ∧
          (mergedOK merged → mergedOK rm.2) ∧
          (mgGet merged "allOf" = none → mgGet rm.2 "allOf" = none) := by
      intro heap2 hok2 hb2 hl2 ha2
      obtain ⟨rm, hrun, hok3, hb3, hl3, ha3, hcf3, hmk3, hao3⟩ :=
        ih heap2 (mergeSchema heap2 merged item) hok2
          (le_trans (flattenMeasure_mono heap heap2 active hb2) hmeas)
      refine ⟨rm, hrun, hok3, Finset.Subset.trans hb3 hb2, le_trans hl2 hl3, ?_, ?_, ?_, ?_⟩
      · intro i hi
        rw [ha3 i hi, ha2 i hi]
      · intro hcf
        exact hcf3 (mergeSchema_contFree heap2 hok2 merged hcf item)
      · intro hmk
        exact hmk3 (mergeSchema_foldl_mergedOK heap2 _ merged hmk)
      · intro hao
        exact hao3 (mergeSchema_allOf heap2 merged item hao)
    unfold mergeLoopF
    dsimp only []
    rcases item with _ | b | nv | sv | l | iid
    case ref =>
      dsimp only []
      by_cases hft : fieldTruthyH (heapGet heap iid) "allOf" = true
      · rw [hft]
        simp only [if_true, reduceIte]
        obtain ⟨r, hrun, hokr, hbr, hlr, har⟩ := Hf heap iid hok hmeas
        rw [hrun]
        dsimp only []
        exact hcont r.1 hokr hbr hlr har
      · rw [Bool.eq_false_iff.mpr hft]
        simp only [Bool.false_eq_true, if_false, reduceIte]
        exact hcont heap hok (Finset.Subset.refl _) (le_refl _) (fun i _ => rfl)
    all_goals
      exact hcont heap hok (Finset.Subset.refl _) (le_refl _) (fun i _ => rfl)


/-- Termination of `flattenAllOf` with its invariants: on a hygienic
heap (`heapPropsOK`), any fuel beyond the measure — the number of
flatten targets outside the active set — makes the run return; the run
keeps the heap hygienic, introduces no flatten target, never shrinks the
heap, and keeps the `allOf` reading of every active node. -/
theorem flatten_total : ∀ (μ n : Nat), μ < n →
    ∀ (heap : Heap) (rootId : Nat) (active : List Nat) (sid : Nat),
      heapPropsOK heap → flattenMeasure heap active ≤ μ →
      ∃ r : Heap × Bool, flattenAllOfF n heap rootId active sid = some r ∧
        heapPropsOK r.1 ∧ allOfBearing r.1 ⊆ allOfBearing heap ∧
        heap.length ≤ r.1.length ∧
        (∀ i, active.contains i = true →
          getFH (heapGet r.1 i) "allOf" = getFH (heapGet heap i) "allOf") := by
  intro μ
  induction μ using Nat.strong_induction_on with
  | _ μ IH =>
    intro n hn heap rootId active sid hok hmeas
    rcases n with _ | n'
    · exact absurd hn (by omega)
    rcases hall : getFH (heapGet heap sid) "allOf" with _ | v
    · refine ⟨(heap, false), ?_, hok, Finset.Subset.refl _, le_refl _, fun i _ => rfl⟩
      unfold flattenAllOfF
      dsimp only []
      rw [hall]
    · rcases v with _ | b | nv | sv | items | iid
      case null | bool | num | str | ref =>
        refine ⟨(heap, false), ?_, hok, Finset.Subset.refl _, le_refl _, fun i _ => rfl⟩
        unfold flattenAllOfF
        dsimp only []
        rw [hall]
      case arr =>
      by_cases hemp : items.isEmpty = true
      · refine ⟨(heap, false), ?_, hok, Finset.Subset.refl _, le_refl _, fun i _ => rfl⟩
        unfold flattenAllOfF
        dsimp only []
        rw [hall]
        dsimp only []
        rw [if_pos hemp]
      by_cases hactive : active.contains sid = true
      · refine ⟨(heap, false), ?_, hok, Finset.Subset.refl _, le_refl _, fun i _ => rfl⟩
        unfold flattenAllOfF
        dsimp only []
        rw [hall]
        dsimp only []
        rw [Bool.eq_false_iff.mpr hemp]
        simp only [Bool.false_eq_true, if_false, reduceIte]
        rw [if_pos hactive]
      have hemp' : items.isEmpty = false := Bool.eq_false_iff.mpr hemp
      have hactive' : active.contains sid = false := Bool.eq_false_iff.mpr hactive
      have hsidlen : sid < heap.length := by
        by_contra hge
        push_neg at hge
        rw [heapGet_ge heap sid hge] at hall
        cases hall
      have hab : isABid heap sid = true := by
        unfold isABid
        rw [hall]
        dsimp only []
        rw [hemp']
        rfl
      have hmeasD := flattenMeasure_descent heap active sid hab hsidlen hactive'
      rcases hri : resolveItems heap rootId items with ⟨heap2, ropt⟩
      have hok2 : heapPropsOK heap2 := by
        have := resolveItems_propsOK rootId items heap hok
        rw [hri] at this
        exact this
      have hbear2 : allOfBearing heap2 = allOfBearing heap := by
        have := allOfBearing_resolveItems rootId items heap
        rw [hri] at this
        exact this
      have hlen2 : heap2.length = heap.length := by
        have := resolveItems_len rootId items heap
        rw [hri] at this
        exact this
      have hkeep2 : ∀ i, getFH (heapGet heap2 i) "allOf" = getFH (heapGet heap i) "allOf" := by
        intro i
        have := resolveItems_keep rootId items heap i "allOf" (by decide)
        rw [hri] at this
        exact this
      rcases ropt with _ | resolved
      · refine ⟨(heap2, false), ?_, hok2, Finset.subset_of_eq hbear2, le_of_eq hlen2.symm,
          fun i _ => hkeep2 i⟩
        unfold flattenAllOfF
        dsimp only []
        rw [hall]
        dsimp only []
        rw [hemp']
        simp only [Bool.false_eq_true, if_false, reduceIte]
        rw [hactive']
        simp only [Bool.false_eq_true, if_false, reduceIte]
        rw [hri]
      · have hμpos : 1 ≤ μ := by omega
        have hmeas2 : flattenMeasure heap2 (active ++ [sid]) ≤ μ - 1 := by
          have heqm : flattenMeasure heap2 (active ++ [sid]) =
              flattenMeasure heap (active ++ [sid]) := by
            unfold flattenMeasure
            rw [hbear2]
          omega
        have Hf : ∀ (h2 : Heap) (sid2 : Nat), heapPropsOK h2 →
            flattenMeasure h2 (active ++ [sid]) ≤ μ - 1 →
            ∃ r : Heap × Bool, flattenAllOfF n' h2 rootId (active ++ [sid]) sid2 = some r ∧
              heapPropsOK r.1 ∧ allOfBearing r.1 ⊆ allOfBearing h2 ∧
              h2.length ≤ r.1.length ∧
              (∀ i, (active ++ [sid]).contains i = true →
                getFH (heapGet r.1 i) "allOf" = getFH (heapGet h2 i) "allOf") :=
          fun h2 sid2 hok2b hm2 =>
            IH (μ - 1) (by omega) n' (by omega) h2 rootId (active ++ [sid]) sid2 hok2b hm2
        obtain ⟨⟨heap3, m2⟩, hml, hok3, hb3, hl3, ha3, hcf3, hmk3, hao3⟩ :=
          mergeLoop_total_of n' (μ - 1) rootId (active ++ [sid]) Hf resolved heap2
            (mergeSchema heap2 [] (HVal.ref sid)) hok2 hmeas2
        dsimp only [] at hok3 hb3 hl3 ha3 hcf3 hmk3 hao3
        have hcfEmpty : contFree ([] : Merged) := by
          constructor
          · intro P hP
            cases hP
          · intro w hV
            cases hV
        have hcf := hcf3 (mergeSchema_contFree heap2 hok2 [] hcfEmpty _)
        have hmk := hmk3 (mergeSchema_foldl_mergedOK heap2 _ []
          ⟨List.nodup_nil, fun kv hkv => absurd hkv (List.not_mem_nil kv)⟩)
        have hao := hao3 (mergeSchema_allOf heap2 [] _ rfl)
        have hsid3len : sid < heap3.length := by omega
        have hcontains : (active ++ [sid]).contains sid = true := by simp
        have hsA3 : getFH (heapGet heap3 sid) "allOf" = some (HVal.arr items) := by
          rw [ha3 sid hcontains, hkeep2 sid, hall]
        have hf3A : getFH (ensureSchemaTypeFields
            (mergedToFields m2 heap3.length).1) "allOf" = none := by
          rw [ensureSchemaTypeFields_other _ _ (by decide)]
          exact mergedToFields_none m2 heap3.length "allOf" hao
        have hactCompose : ∀ hfin : Heap,
            (∀ i, i ≠ sid → getFH (heapGet hfin i) "allOf" = getFH (heapGet heap3 i) "allOf") →
            ∀ i, active.contains i = true →
              getFH (heapGet hfin i) "allOf" = getFH (heapGet heap i) "allOf" := by
          intro hfin hprop i hi
          have hne : i ≠ sid := by
            intro hh
            rw [hh] at hi
            rw [hactive'] at hi
            cases hi
          have hiapp : (active ++ [sid]).contains i = true := by
            have : i ∈ active := by simpa using hi
            simp [this]
          rw [hprop i hne, ha3 i hiapp, hkeep2 i]
        rcases hfc : (mergedToFields m2 heap3.length).2 with _ | pes
        · -- no fresh container
          have hf3P : ∀ kv ∈ ensureSchemaTypeFields (mergedToFields m2 heap3.length).1,
              kv.1 = "properties" →
              propsValOK (heapSet heap3 sid (ensureSchemaTypeFields
                (mergedToFields m2 heap3.length).1) ++ []) kv.2 := by
            intro kv hkv hp
            rcases mem_ensure _ _ hkv with h2 | h2
            · rw [mtf_fields] at h2
              obtain ⟨sl, hsl, heq⟩ := List.mem_map.mp h2
              have hkey : sl.1 = "properties" := by
                rw [← heq] at hp
                exact hp
              have hslot : mgGet m2 "properties" = some sl.2 := by
                rw [← hkey]
                exact mgGet_of_mem_nodup m2 sl hmk.1 hsl
              rcases hsl2 : sl.2 with w | P
              · rw [hsl2] at hslot
                have hto := hcf.2 w hslot
                have hkv2 : kv.2 = w := by
                  rw [← heq]
                  unfold mvalField
                  rw [hsl2]
                constructor
                · intro l hl
                  rw [hkv2] at hl
                  rw [hl] at hto
                  simp [htruthy, hIsObj] at hto
                · intro pid hpid
                  rw [hkv2] at hpid
                  rw [hpid] at hto
                  simp [htruthy, hIsObj] at hto
              · rw [hsl2] at hslot
                have := mtf_snd_some m2 heap3.length P hmk hslot
                rw [hfc] at this
                cases this
            · rw [h2] at hp
              exact absurd hp (by decide)
          obtain ⟨hokF, hbearF, hactF⟩ := flatten_final_propsOK heap3 sid
            (ensureSchemaTypeFields (mergedToFields m2 heap3.length).1) [] hok3 hsid3len
            (by rw [hsA3]; intro hh; cases hh)
            (fun Q hQ => absurd hQ (List.not_mem_nil Q)) hf3A hf3P
          rw [List.append_nil] at hokF hbearF hactF
          refine ⟨(heapSet heap3 sid (ensureSchemaTypeFields
              (mergedToFields m2 heap3.length).1), true), ?_, hokF,
            Finset.Subset.trans hbearF (hbear2 ▸ hb3), ?_, hactCompose _ hactF⟩
          · unfold flattenAllOfF
            dsimp only []
            rw [hall]
            dsimp only []
            rw [hemp']
            simp only [Bool.false_eq_true, if_false, reduceIte]
            rw [hactive']
            simp only [Bool.false_eq_true, if_false, reduceIte]
            rw [hri]
            dsimp only []
            rw [hml]
            dsimp only []
            rw [hfc]
          · have hBlen : (heapSet heap3 sid (ensureSchemaTypeFields
                (mergedToFields m2 heap3.length).1)).length = heap3.length := by
              simp [heapSet]
            dsimp only []
            omega
        · -- fresh container appended
          have hslotP : mgGet m2 "properties" = some (MVal.props pes) := by
            rcases hs : mgGet m2 "properties" with _ | mv
            · have := mtf_snd_none m2 heap3.length hmk hs
              rw [hfc] at this
              cases this
            · rcases mv with w | P
              · have := mtf_snd_plain m2 heap3.length w hmk hs
                rw [hfc] at this
                cases this
              · have := mtf_snd_some m2 heap3.length P hmk hs
                rw [hfc] at this
                injection this with h2
                rw [← h2]
          obtain ⟨hpesA, hpesP⟩ := hcf.1 pes hslotP
          have hext : ∀ Q ∈ [pes], getFH Q "allOf" = none ∧ getFH Q "properties" = none := by
            intro Q hQ
            rw [List.mem_singleton] at hQ
            rw [hQ]
            exact ⟨hpesA, hpesP⟩
          have hBlen : (heapSet heap3 sid (ensureSchemaTypeFields
              (mergedToFields m2 heap3.length).1)).length = heap3.length := by
            simp [heapSet]
          have hf3P : ∀ kv ∈ ensureSchemaTypeFields (mergedToFields m2 heap3.length).1,
              kv.1 = "properties" →
              propsValOK (heapSet heap3 sid (ensureSchemaTypeFields
                (mergedToFields m2 heap3.length).1) ++ [pes]) kv.2 := by
            intro kv hkv hp
            rcases mem_ensure _ _ hkv with h2 | h2
            · rw [mtf_fields] at h2
              obtain ⟨sl, hsl, heq⟩ := List.mem_map.mp h2
              have hkey : sl.1 = "properties" := by
                rw [← heq] at hp
                exact hp
              have hslot : mgGet m2 "properties" = some sl.2 := by
                rw [← hkey]
                exact mgGet_of_mem_nodup m2 sl hmk.1 hsl
              rcases hsl2 : sl.2 with w | P
              · rw [hsl2] at hslot
                have hto := hcf.2 w hslot
                have hkv2 : kv.2 = w := by
                  rw [← heq]
                  unfold mvalField
                  rw [hsl2]
                constructor
                · intro l hl
                  rw [hkv2] at hl
                  rw [hl] at hto
                  simp [htruthy, hIsObj] at hto
                · intro pid hpid
                  rw [hkv2] at hpid
                  rw [hpid] at hto
                  simp [htruthy, hIsObj] at hto
              · rw [hsl2] at hslot
                rw [hslot] at hslotP
                injection hslotP with h3
                injection h3 with h4
                have hkv2 : kv.2 = HVal.ref heap3.length := by
                  rw [← heq]
                  unfold mvalField
                  rw [hsl2]
                constructor
                · intro l hl
                  rw [hkv2] at hl
                  cases hl
                · intro pid hpid
                  rw [hkv2] at hpid
                  injection hpid with h5
                  rw [← h5]
                  rw [heapGet_append_at _ _ _ hBlen.symm]
                  exact ⟨hpesA, hpesP⟩
            · rw [h2] at hp
              exact absurd hp (by decide)
          obtain ⟨hokF, hbearF, hactF⟩ := flatten_final_propsOK heap3 sid
            (ensureSchemaTypeFields (mergedToFields m2 heap3.length).1) [pes] hok3 hsid3len
            (by rw [hsA3]; intro hh; cases hh) hext hf3A hf3P
          refine ⟨(heapSet heap3 sid (ensureSchemaTypeFields
              (mergedToFields m2 heap3.length).1) ++ [pes], true), ?_, hokF,
            Finset.Subset.trans hbearF (hbear2 ▸ hb3), ?_, hactCompose _ hactF⟩
          · unfold flattenAllOfF
            dsimp only []
            rw [hall]
            dsimp only []
            rw [hemp']
            simp only [Bool.false_eq_true, if_false, reduceIte]
            rw [hactive']
            simp only [Bool.false_eq_true, if_false, reduceIte]
            rw [hri]
            dsimp only []
            rw [hml]
            dsimp only []
            rw [hfc]
          · have : (heapSet heap3 sid (ensureSchemaTypeFields
                (mergedToFields m2 heap3.length).1) ++ [pes]).length =
                heap3.length + 1 := by
              simp [heapSet]
            dsimp only []
            omega


/-- Re-entering a schema already being flattened returns immediately:
the active-set guard that makes cyclic graphs safe. -/
theorem flattenAllOf_guard (n : Nat) (heap : Heap) (rootId : Nat) (active : List Nat)
    (sid : Nat) (hact : active.contains sid = true) :
    flattenAllOfF (n + 1) heap rootId active sid = some (heap, false) := by
  unfold flattenAllOfF
  dsimp only []
  rcases hall : getFH (heapGet heap sid) "allOf" with _ | v
  · rfl
  · rcases v with _ | b | nv | sv | items | iid
    case arr =>
      dsimp only []
      by_cases hemp : items.isEmpty = true
      · rw [if_pos hemp]
      · rw [Bool.eq_false_iff.mpr hemp]
        simp only [Bool.false_eq_true, if_false, reduceIte]
        rw [if_pos hact]
    all_goals rfl

/-- The abort case of `flattenAllOf`: when member resolution fails (a
falsy or non-object member, or a member whose truthy `$ref` does not
resolve to a truthy object even after the dangling-reference retry), the
pass returns `false` and the schema keeps its `allOf` array unchanged —
only member `$ref` strings may have been rewritten by the retry. -/
theorem flattenAllOf_abortAll (n : Nat) (heap : Heap) (rootId : Nat) (active : List Nat)
    (sid : Nat) (items : List HVal) (h2 : Heap)
    (hallOf : getFH (heapGet heap sid) "allOf" = some (.arr items))
    (hne : items.isEmpty = false)
    (hact : active.contains sid = false)
    (hri : resolveItems heap rootId items = (h2, none)) :
    flattenAllOfF (n + 1) heap rootId active sid = some (h2, false) ∧
    getFH (heapGet h2 sid) "allOf" = some (.arr items) := by
  constructor
  · unfold flattenAllOfF
    dsimp only []
    rw [hallOf]
    dsimp only []
    rw [hne]
    simp only [Bool.false_eq_true, if_false, reduceIte]
    rw [hact]
    simp only [Bool.false_eq_true, if_false, reduceIte]
    rw [hri]
  · have hkeep := resolveItems_keep rootId items heap sid "allOf" (by decide)
    rw [hri] at hkeep
    rw [hkeep, hallOf]

/-- C1 amended: (1) on every hygienic heap (`heapPropsOK`: `properties`
values object-shaped, properties-map nodes not themselves schemas — the
shape of every real document), the Sanitizer's `allOf` flattening
terminates on every finite graph, including cyclic ones: fuel one past
the number of flatten targets outside the active set suffices; (2) the
active-set guard returns immediately, with `false` and the document
untouched, on a schema already being flattened — the mechanism that
makes shared and cyclic graphs safe; (3) whenever the flattening reports
success, the resulting schema has no `allOf` key; (4) when member
resolution fails (a falsy or non-object member, or an unresolvable
truthy `$ref`), the pass returns `false` and the schema keeps its
`allOf` array unchanged, though an earlier member's `$ref` may have been
rewritten by the dangling-reference retry; (5) on a flat member list
(object members with no `$ref` and no nested truthy `allOf`, standard
`properties`/`required` shapes, duplicate-free keys), one pass succeeds,
removes `allOf`, sets `required` to the deduplicated concatenation of
the node's own and all members' `required` lists, and sets `properties`
to the left-to-right union of the node's own and all members' property
maps, a later-merged member overwriting a same-named property. -/
theorem spec2proof_C1_amended :
    (∀ (heap : Heap) (rootId : Nat) (active : List Nat) (sid : Nat),
        heapPropsOK heap →
        ∃ r : Heap × Bool,
          flattenAllOfF (flattenMeasure heap active + 1) heap rootId active sid = some r)
    ∧ (∀ (n : Nat) (heap : Heap) (rootId : Nat) (active : List Nat) (sid : Nat),
        active.contains sid = true →
        flattenAllOfF (n + 1) heap rootId active sid = some (heap, false))
    ∧ (∀ (n : Nat) (heap : Heap) (rootId : Nat) (active : List Nat) (sid : Nat) (h2 : Heap),
        flattenAllOfF n heap rootId active sid = some (h2, true) →
        getFH (heapGet h2 sid) "allOf" = none)
    ∧ (∀ (n : Nat) (heap : Heap) (rootId : Nat) (active : List Nat) (sid : Nat)
        (items : List HVal) (h2 : Heap),
        getFH (heapGet heap sid) "allOf" = some (.arr items) →
        items.isEmpty = false →
        active.contains sid = false →
        resolveItems heap rootId items = (h2, none) →
        flattenAllOfF (n + 1) heap rootId active sid = some (h2, false) ∧
        getFH (heapGet h2 sid) "allOf" = some (.arr items))
    ∧ (∀ (n : Nat) (heap : Heap) (rootId : Nat) (active : List Nat) (sid : Nat)
        (ids : List Nat),
        getFH (heapGet heap sid) "allOf" = some (.arr (ids.map HVal.ref)) →
        ids ≠ [] →
        active.contains sid = false →
        (∀ i ∈ ids, getFH (heapGet heap i) "$ref" = none ∧
          fieldTruthyH (heapGet heap i) "allOf" = false) →
        (∀ i ∈ sid :: ids, stdEntries (heapGet heap i) ∧ nodupKeys (heapGet heap i)) →
        ∃ h2 : Heap, flattenAllOfF (n + 1) heap rootId active sid = some (h2, true)
          ∧ getFH (heapGet h2 sid) "allOf" = none
          ∧ reqListOfH (heapGet h2 sid) =
              dedupHL (((sid :: ids).map (fun i => reqListOfH (heapGet heap i))).flatten)
          ∧ propsMapOfH h2 (heapGet h2 sid) =
              (match ((sid :: ids).map (fun i => propsMapOfH heap (heapGet heap i))).flatten with
               | [] => []
               | ps => [specPropsUnion ps])) :=
  ⟨fun heap rootId active sid hok =>
    Exists.imp (fun _ h => h.1)
      (flatten_total (flattenMeasure heap active) (flattenMeasure heap active + 1)
        (by omega) heap rootId active sid hok (le_refl _)),
   flattenAllOf_guard, flatten_success_no_allOf, flattenAllOf_abortAll, flattenAllOf_flat⟩

/-- C1 amended witness: the amended theorem applied at concrete inputs —
the two-node cyclic graph `{A: {allOf:[B]}, B: {allOf:[A]}}` for the
termination clause (1), a re-entrant call on a self-loop for the guard
clause (2), a successful four-node run for clauses (3) and (5), and the
`{allOf:[42]}` document for the abort clause (4). -/
theorem spec2proof_C1_amended_witness :
    (∃ r : Heap × Bool,
      flattenAllOfF (flattenMeasure [[("allOf", HVal.arr [HVal.ref 1])],
          [("allOf", HVal.arr [HVal.ref 0])]] [] + 1)
        [[("allOf", HVal.arr [HVal.ref 1])], [("allOf", HVal.arr [HVal.ref 0])]]
        0 [] 0 = some r)
    ∧ (flattenAllOfF 9 [[("allOf", HVal.arr [HVal.ref 0])]] 0 [0] 0 =
        some ([[("allOf", HVal.arr [HVal.ref 0])]], false))
    ∧ (getFH (heapGet [[("required", HVal.arr [HVal.str "a", HVal.str "b"]),
        ("properties", HVal.ref 4), ("type", HVal.str "object")],
      [("type", HVal.str "object"), ("required", HVal.arr [HVal.str "a", HVal.str "b"]),
        ("properties", HVal.ref 3)],
      [("x", HVal.num 1)],
      [("x", HVal.num 2), ("y", HVal.num 3)],
      [("x", HVal.num 2), ("y", HVal.num 3)]] 0) "allOf" = none)
    ∧ (flattenAllOfF 9 [[("allOf", HVal.arr [HVal.num 42])]] 0 [] 0 =
        some ([[("allOf", HVal.arr [HVal.num 42])]], false)
      ∧ getFH (heapGet [[("allOf", HVal.arr [HVal.num 42])]] 0) "allOf" =
        some (HVal.arr [HVal.num 42]))
    ∧ (∃ h2 : Heap, flattenAllOfF 9 [[("allOf", HVal.arr [HVal.ref 1]),
          ("required", HVal.arr [HVal.str "a"]), ("properties", HVal.ref 2)],
        [("type", HVal.str "object"), ("required", HVal.arr [HVal.str "a", HVal.str "b"]),
          ("properties", HVal.ref 3)],
        [("x", HVal.num 1)],
        [("x", HVal.num 2), ("y", HVal.num 3)]] 0 [] 0 = some (h2, true)
        ∧ getFH (heapGet h2 0) "allOf" = none
        ∧ reqListOfH (heapGet h2 0) =
            dedupHL ((([0, 1] : List Nat).map (fun i => reqListOfH (heapGet
              [[("allOf", HVal.arr [HVal.ref 1]), ("required", HVal.arr [HVal.str "a"]),
                  ("properties", HVal.ref 2)],
                [("type", HVal.str "object"),
                  ("required", HVal.arr [HVal.str "a", HVal.str "b"]),
                  ("properties", HVal.ref 3)],
                [("x", HVal.num 1)],
                [("x", HVal.num 2), ("y", HVal.num 3)]] i))).flatten)
        ∧ propsMapOfH h2 (heapGet h2 0) =
            (match (([0, 1] : List Nat).map (fun i => propsMapOfH
              [[("allOf", HVal.arr [HVal.ref 1]), ("required", HVal.arr [HVal.str "a"]),
                  ("properties", HVal.ref 2)],
                [("type", HVal.str "object"),
                  ("required", HVal.arr [HVal.str "a", HVal.str "b"]),
                  ("properties", HVal.ref 3)],
                [("x", HVal.num 1)],
                [("x", HVal.num 2), ("y", HVal.num 3)]] (heapGet
              [[("allOf", HVal.arr [HVal.ref 1]), ("required", HVal.arr [HVal.str "a"]),
                  ("properties", HVal.ref 2)],
                [("type", HVal.str "object"),
                  ("required", HVal.arr [HVal.str "a", HVal.str "b"]),
                  ("properties", HVal.ref 3)],
                [("x", HVal.num 1)],
                [("x", HVal.num 2), ("y", HVal.num 3)]] i))).flatten with
             | [] => []
             | ps => [specPropsUnion ps])) := by
  refine ⟨?_, ?_, ?_, ?_, ?_⟩
  · exact spec2proof_C1_amended.1 [[("allOf", HVal.arr [HVal.ref 1])],
      [("allOf", HVal.arr [HVal.ref 0])]] 0 [] 0 (by
        intro id kv hkv hp
        rcases id with _ | _ | id2
        · rw [show heapGet [[("allOf", HVal.arr [HVal.ref 1])],
            [("allOf", HVal.arr [HVal.ref 0])]] 0 =
              [("allOf", HVal.arr [HVal.ref 1])] from rfl] at hkv
          rw [List.mem_singleton] at hkv
          rw [hkv] at hp
          exact absurd hp (by decide)
        · rw [show heapGet [[("allOf", HVal.arr [HVal.ref 1])],
            [("allOf", HVal.arr [HVal.ref 0])]] 1 =
              [("allOf", HVal.arr [HVal.ref 0])] from rfl] at hkv
          rw [List.mem_singleton] at hkv
          rw [hkv] at hp
          exact absurd hp (by decide)
        · rw [heapGet_ge _ _ (by
            simp only [List.length_cons, List.length_nil]
            omega)] at hkv
          cases hkv)
  · exact spec2proof_C1_amended.2.1 8 [[("allOf", HVal.arr [HVal.ref 0])]] 0 [0] 0
      (by decide)
  · exact spec2proof_C1_amended.2.2.1 9 [[("allOf", HVal.arr [HVal.ref 1]),
        ("required", HVal.arr [HVal.str "a"]), ("properties", HVal.ref 2)],
      [("type", HVal.str "object"), ("required", HVal.arr [HVal.str "a", HVal.str "b"]),
        ("properties", HVal.ref 3)],
      [("x", HVal.num 1)],
      [("x", HVal.num 2), ("y", HVal.num 3)]] 0 [] 0 _ (by
        simp +decide [flattenAllOfF, mergeLoopF, resolveItems, resolveOneRefStep,
          mergeSchema, mergeSchemaStep, mergedToFields, ensureSchemaTypeFields,
          heapGet, heapSet, getFH, setFH, htruthy, hIsObj, fieldTruthyH, entriesOfH,
          mgGet, mgSet, mgHas, reqListOfH, dedupHL, reqOfM])
  · exact spec2proof_C1_amended.2.2.2.1 8 [[("allOf", HVal.arr [HVal.num 42])]] 0 [] 0
      [HVal.num 42] [[("allOf", HVal.arr [HVal.num 42])]] (by decide) (by decide) rfl
      (by decide)
  · exact spec2proof_C1_amended.2.2.2.2 8 [[("allOf", HVal.arr [HVal.ref 1]),
        ("required", HVal.arr [HVal.str "a"]), ("properties", HVal.ref 2)],
      [("type", HVal.str "object"), ("required", HVal.arr [HVal.str "a", HVal.str "b"]),
        ("properties", HVal.ref 3)],
      [("x", HVal.num 1)],
      [("x", HVal.num 2), ("y", HVal.num 3)]] 0 [] 0 [1] (by decide) (by decide) rfl
      (by decide)
      (by
        intro i hi
        fin_cases hi <;>
          constructor <;>
            simp +decide [stdEntries, nodupKeys, heapGet])


end OasPipeline
